import Mathlib

/-!
Verification of the git-go repository core against its specification.

Go byte strings and Go `string` values are both modelled as `List Nat`
(each element a byte value < 256; Go strings are byte strings).  Go maps
are modelled as association lists with insert-replace semantics.  Machine
integers are modelled as `Nat`/`Int` with explicit `% 2^w` at the points
where the Go code converts or truncates.  Fallible Go functions return
`Except`/`Option`; a Go runtime panic (out-of-range index or slice) is
modelled as a distinguished error value.
-/

set_option autoImplicit false

namespace GitGo

/-- Byte strings: each element is a byte value. -/
abbrev Bytes := List Nat

/-- ASCII string literal to byte list (all literals used here are ASCII,
where Go UTF-8 bytes and code points coincide). -/
def bs (s : String) : Bytes := s.data.map Char.toNat

/-- A lowercase hex digit character (0-9 or a-f). -/
def isHexLower (c : Nat) : Bool := (48 ≤ c && c ≤ 57) || (97 ≤ c && c ≤ 102)

/-- hash.ValidateHash: exactly 40 characters, each a lowercase hex digit. -/
def validateHash (h : Bytes) : Bool :=
  h.length == 40 && h.all isHexLower

/-! ## Push: ancestor walk, merge base and the fast-forward predicate
(src/push/push.go). -/

/-- An object as seen by the pusher: only commits (with their parent list)
matter; every other object kind contributes nothing to the ancestor walk. -/
inductive PushObj where
  | commit (parents : List Bytes)
  | other
deriving DecidableEq

/-- The local object store as seen by push: hash to object. -/
abbrev PushStore := List (Bytes × PushObj)

/-- Repository.LoadObject as used by the pusher: an invalid hash never
loads, otherwise the store is consulted. -/
def pushLoadObject (store : PushStore) (h : Bytes) : Option PushObj :=
  if validateHash h then store.lookup h else none

/-- Total number of parent edges recorded in the store; used to bound the
breadth-first walk (each store commit is expanded at most once). -/
def storeParentCount (store : PushStore) : Nat :=
  store.foldl (fun acc p =>
    match p.2 with
    | .commit ps => acc + ps.length
    | .other => acc) 0

/-- One step of Pusher.getAncestors: pop the queue head; skip it when
already visited; otherwise record it as an ancestor and, when it loads as
a commit, enqueue its unvisited parents.  The fuel is chosen at the call
site large enough that it can never run out (at most one initial element
plus one enqueue per parent edge of the store); exhaustion returns the
ancestors collected so far. -/
def getAncestorsLoop (store : PushStore) :
    Nat → List Bytes → List Bytes → List Bytes → List Bytes
  | 0, _, _, ancestors => ancestors.reverse
  | _ + 1, [], _, ancestors => ancestors.reverse
  | fuel + 1, current :: queue, visited, ancestors =>
    if current ∈ visited then
      getAncestorsLoop store fuel queue visited ancestors
    else
      let visited := current :: visited
      let ancestors := current :: ancestors
      match pushLoadObject store current with
      | some (.commit parents) =>
        getAncestorsLoop store fuel
          (queue ++ parents.filter (fun p => p ∉ visited)) visited ancestors
      | _ => getAncestorsLoop store fuel queue visited ancestors

/-- Pusher.getAncestors: breadth-first walk through parent edges starting
from the given hash, collecting every node popped from the queue (a hash
that fails to load is still recorded before the load is attempted). -/
def getAncestors (store : PushStore) (commitHash : Bytes) : List Bytes :=
  getAncestorsLoop store (1 + storeParentCount store) [commitHash] [] []

/-- Pusher.findMergeBase: equal tips short-circuit; otherwise the first
ancestor of the first tip that also occurs among the ancestors of the
second is returned; no common ancestor is an error. -/
def findMergeBase (store : PushStore) (commit1 commit2 : Bytes) :
    Except (List Nat) Bytes :=
  if commit1 = commit2 then .ok commit1
  else
    let ancestors1 := getAncestors store commit1
    let ancestors2 := getAncestors store commit2
    match ancestors1.find? (fun a => a ∈ ancestors2) with
    | some a => .ok a
    | none => .error (bs ("no common ancestor found"))

/-- Pusher.canFastForward: an empty remote tip is always fast-forward;
otherwise the merge base of (remote, local) is compared with the remote
tip; a merge-base error propagates. -/
def canFastForward (store : PushStore) (remoteCommit localCommit : Bytes) :
    Except (List Nat) Bool :=
  if remoteCommit = bs ("") then .ok true
  else
    match findMergeBase store remoteCommit localCommit with
    | .ok mergeBase => .ok (mergeBase = remoteCommit)
    | .error e => .error e

/-- Claim C6: for commit hashes x and y whose histories are loadable from
the local store, canFastForward(x, y) returns true if and only if
findMergeBase(x, y) returns x. -/
theorem c6_can_fast_forward_iff_merge_base
    (store : PushStore) (x y : Bytes)
    (hx : (pushLoadObject store x).isSome)
    (hy : (pushLoadObject store y).isSome) :
    canFastForward store x y = .ok true ↔
      findMergeBase store x y = .ok x := by
  have hxv : validateHash x = true := by
    unfold pushLoadObject at hx
    by_contra hne
    simp [hne] at hx
  have hxne : x ≠ bs ("") := by
    intro he
    rw [he] at hxv
    simp [validateHash, bs] at hxv
  unfold canFastForward
  rw [if_neg hxne]
  cases hmb : findMergeBase store x y with
  | ok m =>
    constructor
    · intro h
      simp only [Except.ok.injEq] at h
      have : m = x := of_decide_eq_true h
      rw [this]
    · intro h
      simp only [Except.ok.injEq] at h ⊢
      subst h
      exact decide_eq_true rfl
  | error e =>
    constructor
    · intro h
      exact absurd h (by simp)
    · intro h
      exact absurd h (by simp)

/-- Witness for C6 at a concrete two-commit store: y has parent x, both
loadable; the fast-forward predicate holds and the merge base is x. -/
theorem c6_witness :
    (pushLoadObject
        [(bs ("aaaaaaaaaaaaaaaaaaaaaaaaaaaaaaaaaaaaaaaa"), .commit []),
         (bs ("bbbbbbbbbbbbbbbbbbbbbbbbbbbbbbbbbbbbbbbb"),
            .commit [bs ("aaaaaaaaaaaaaaaaaaaaaaaaaaaaaaaaaaaaaaaa")])]
        (bs ("aaaaaaaaaaaaaaaaaaaaaaaaaaaaaaaaaaaaaaaa"))).isSome = true ∧
    canFastForward
        [(bs ("aaaaaaaaaaaaaaaaaaaaaaaaaaaaaaaaaaaaaaaa"), .commit []),
         (bs ("bbbbbbbbbbbbbbbbbbbbbbbbbbbbbbbbbbbbbbbb"),
            .commit [bs ("aaaaaaaaaaaaaaaaaaaaaaaaaaaaaaaaaaaaaaaa")])]
        (bs ("aaaaaaaaaaaaaaaaaaaaaaaaaaaaaaaaaaaaaaaa"))
        (bs ("bbbbbbbbbbbbbbbbbbbbbbbbbbbbbbbbbbbbbbbb")) = .ok true := by
  refine ⟨by decide, ?_⟩
  have h := c6_can_fast_forward_iff_merge_base
    [(bs ("aaaaaaaaaaaaaaaaaaaaaaaaaaaaaaaaaaaaaaaa"), .commit []),
     (bs ("bbbbbbbbbbbbbbbbbbbbbbbbbbbbbbbbbbbbbbbb"),
        .commit [bs ("aaaaaaaaaaaaaaaaaaaaaaaaaaaaaaaaaaaaaaaa")])]
    (bs ("aaaaaaaaaaaaaaaaaaaaaaaaaaaaaaaaaaaaaaaa"))
    (bs ("bbbbbbbbbbbbbbbbbbbbbbbbbbbbbbbbbbbbbbbb"))
    (by decide) (by decide)
  exact h.mpr (by rfl)

/-! ## Filesystem model

Files are a flat map from full path to byte content; directories created
with MkdirAll are tracked separately.  `pjoin` models filepath.Join for
the clean relative components used by the repository code. -/

/-- A file system snapshot: file contents by full path, plus the set of
directories that exist. -/
structure Fs where
  files : List (Bytes × Bytes)
  dirs : List Bytes
deriving DecidableEq

/-- filepath.Join for two components. -/
def pjoin (a b : Bytes) : Bytes := a ++ bs ("/") ++ b

/-- Go error values surfaced by the modelled functions.  A Go runtime
panic (out-of-range slice or index) is the distinguished value `panic`. -/
inductive Gerr where
  | gitError (op : Bytes) (path : Bytes)
  | objectError (hash : Bytes)
  | notGitRepository
  | invalidHash
  | objectNotFound
  | invalidObjectFormat
  | invalidObjectType
  | invalidCommit
  | fileNotStaged
  | fileAlreadyStaged
  | nothingToCommit
  | errorMsg (msg : Bytes)
  | indexError (path : Bytes) (inner : Gerr)
  | panic
deriving DecidableEq

/-! ## Numeric and hex helpers (encoding/binary, encoding/hex) -/

/-- Big-endian byte decoding of a byte list. -/
def beVal (l : Bytes) : Nat := l.foldl (fun a b => a * 256 + b) 0

/-- Big-endian u32 encoding (binary.BigEndian.PutUint32). -/
def be32 (n : Nat) : Bytes :=
  [n / 16777216 % 256, n / 65536 % 256, n / 256 % 256, n % 256]

/-- Big-endian u16 encoding. -/
def be16 (n : Nat) : Bytes := [n / 256 % 256, n % 256]

/-- Big-endian u64 encoding. -/
def be64 (n : Nat) : Bytes :=
  [n / 72057594037927936 % 256, n / 281474976710656 % 256,
   n / 1099511627776 % 256, n / 4294967296 % 256,
   n / 16777216 % 256, n / 65536 % 256, n / 256 % 256, n % 256]

theorem beVal_be32 (n : Nat) : beVal (be32 n) = n % 4294967296 := by
  simp only [beVal, be32, List.foldl]
  omega

theorem beVal_be16 (n : Nat) : beVal (be16 n) = n % 65536 := by
  simp only [beVal, be16, List.foldl]
  omega

/-- Value of a lowercase/uppercase hex digit character (encoding/hex). -/
def hexDigitVal (c : Nat) : Option Nat :=
  if 48 ≤ c ∧ c ≤ 57 then some (c - 48)
  else if 97 ≤ c ∧ c ≤ 102 then some (c - 87)
  else if 65 ≤ c ∧ c ≤ 70 then some (c - 55)
  else none

/-- hex.DecodeString: fails on odd length or a non-hex character. -/
def hexDecode : Bytes → Option Bytes
  | [] => some []
  | [_] => none
  | c1 :: c2 :: rest =>
    match hexDigitVal c1, hexDigitVal c2, hexDecode rest with
    | some hi, some lo, some r => some ((hi * 16 + lo) :: r)
    | _, _, _ => none

/-- Lowercase hex digit character of a nibble. -/
def hexDigitChar (n : Nat) : Nat := if n < 10 then 48 + n else 87 + n

/-- hex.EncodeToString (and fmt %x): lowercase hex of each byte. -/
def hexEncode : Bytes → Bytes
  | [] => []
  | b :: rest => hexDigitChar (b / 16 % 16) :: hexDigitChar (b % 16) :: hexEncode rest

/-! ## SHA-1 (crypto/sha1), executable -/

/-- Truncation to a 32-bit word. -/
def w32 (n : Nat) : Nat := n % 4294967296

/-- 32-bit left rotation of a word. -/
def rotl32 (n k : Nat) : Nat := w32 (n <<< k) ||| (n >>> (32 - k))

/-- SHA-1 round function for round t. -/
def sha1F (t b c d : Nat) : Nat :=
  if t < 20 then (b &&& c) ||| ((b ^^^ 4294967295) &&& d)
  else if t < 40 then b ^^^ c ^^^ d
  else if t < 60 then (b &&& c) ||| (b &&& d) ||| (c &&& d)
  else b ^^^ c ^^^ d

/-- SHA-1 round constant for round t. -/
def sha1K (t : Nat) : Nat :=
  if t < 20 then 1518500249
  else if t < 40 then 1859775393
  else if t < 60 then 2400959708
  else 3395469782

/-- Message padding: a 0x80 byte, zeros to 56 mod 64, then the bit length
as a big-endian u64. -/
def sha1Pad (m : Bytes) : Bytes :=
  let zeros := (120 - (m.length + 1) % 64) % 64
  m ++ [128] ++ List.replicate zeros 0 ++ be64 (m.length * 8)

/-- Split a padded message into 64-byte blocks (structural recursion on a
length bound so that concrete instances reduce in the kernel). -/
def chunks64Go : Nat → Bytes → List Bytes
  | 0, _ => []
  | _, [] => []
  | n + 1, b :: rest => (b :: rest).take 64 :: chunks64Go n ((b :: rest).drop 64)

/-- Split a padded message into 64-byte blocks. -/
def chunks64 (l : Bytes) : List Bytes := chunks64Go l.length l

/-- Extend the 16-word schedule to 80 words. -/
def sha1Extend (w : List Nat) : Nat → List Nat
  | 0 => w
  | n + 1 =>
    let x := w.getD (w.length - 3) 0 ^^^ w.getD (w.length - 8) 0 ^^^
      w.getD (w.length - 14) 0 ^^^ w.getD (w.length - 16) 0
    sha1Extend (w ++ [rotl32 x 1]) n

/-- The 80-word message schedule of one block. -/
def sha1Schedule (block : Bytes) : List Nat :=
  sha1Extend ((List.range 16).map (fun i => beVal ((block.drop (4 * i)).take 4))) 64

/-- Compress one 64-byte block into the running state. -/
def sha1Compress (hs : Nat × Nat × Nat × Nat × Nat) (block : Bytes) :
    Nat × Nat × Nat × Nat × Nat :=
  let w := sha1Schedule block
  let st := (List.range 80).foldl (fun st t =>
    let temp := w32 (rotl32 st.1 5 + sha1F t st.2.1 st.2.2.1 st.2.2.2.1 +
      st.2.2.2.2 + sha1K t + w.getD t 0)
    (temp, st.1, rotl32 st.2.1 30, st.2.2.1, st.2.2.2.1)) hs
  (w32 (hs.1 + st.1), w32 (hs.2.1 + st.2.1), w32 (hs.2.2.1 + st.2.2.1),
   w32 (hs.2.2.2.1 + st.2.2.2.1), w32 (hs.2.2.2.2 + st.2.2.2.2))

/-- SHA-1 of a byte string, as its 20-byte digest. -/
def sha1Bytes (m : Bytes) : Bytes :=
  let fin := (chunks64 (sha1Pad m)).foldl sha1Compress
    (1732584193, 4023233417, 2562383102, 271733878, 3285377520)
  be32 fin.1 ++ be32 fin.2.1 ++ be32 fin.2.2.1 ++ be32 fin.2.2.2.1 ++
    be32 fin.2.2.2.2

/-- hash.ComputeSHA1: lowercase-hex rendering of the SHA-1 digest. -/
def computeSHA1 (data : Bytes) : Bytes := hexEncode (sha1Bytes data)

/-- Big-endian decimal digit characters of a positive number, by fuel
(the number itself bounds the digit count). -/
def decChars : Nat → Nat → Bytes
  | 0, _ => []
  | fuel + 1, n => if n = 0 then [] else decChars fuel (n / 10) ++ [48 + n % 10]

/-- Decimal rendering of a natural number (fmt %d on a non-negative
value), digit characters. -/
def decimal (n : Nat) : Bytes := if n = 0 then [48] else decChars n n

/-- hash.ComputeObjectHash: hash of the canonical header
"type length NUL" followed by the payload. -/
def computeObjectHash (objType : Bytes) (data : Bytes) : Bytes :=
  computeSHA1 (objType ++ [32] ++ decimal data.length ++ [0] ++ data)

/-! ## Repository.GetHead (src/unnamed/part_003) -/

/-- Repository.GetHead: read HEAD; if it starts with the symbolic marker
"ref: " (and is longer than 5 bytes), resolve the named ref file, where a
missing ref file yields the empty hash with no error; otherwise HEAD is
detached and its own content is the resolved file.  The resolved file's
first 40 bytes are returned; Go slices the string as content[:40], which
panics when the file holds fewer than 40 bytes. -/
def getHead (gitDir : Bytes) (fs : Fs) : Except Gerr Bytes :=
  let headPath := pjoin gitDir (bs ("HEAD"))
  match fs.files.lookup headPath with
  | none => .error (.gitError (bs ("head")) headPath)
  | some content =>
    if 5 < content.length ∧ content.take 5 = bs ("ref: ") then
      let refPath := (content.drop 5).take (content.length - 6)
      let refFullPath := pjoin gitDir refPath
      match fs.files.lookup refFullPath with
      | none => .ok []
      | some refContent =>
        if 40 ≤ refContent.length then .ok (refContent.take 40)
        else .error .panic
    else
      if 40 ≤ content.length then .ok (content.take 40)
      else .error .panic

/-- Claim C9: when HEAD holds a symbolic reference and the referenced
file does not exist, GetHead returns the empty string with no error; in
every other successful case the result is exactly the first 40 bytes of
the resolved file's content, which must therefore hold at least 40
bytes. -/
theorem c9_get_head_cases (gitDir : Bytes) (fs : Fs) :
    (∀ c, fs.files.lookup (pjoin gitDir (bs ("HEAD"))) = some c →
      5 < c.length → c.take 5 = bs ("ref: ") →
      fs.files.lookup (pjoin gitDir ((c.drop 5).take (c.length - 6))) = none →
      getHead gitDir fs = .ok []) ∧
    (∀ r, getHead gitDir fs = .ok r →
      ∃ c, fs.files.lookup (pjoin gitDir (bs ("HEAD"))) = some c ∧
        ((5 < c.length ∧ c.take 5 = bs ("ref: ") ∧
          ((fs.files.lookup
              (pjoin gitDir ((c.drop 5).take (c.length - 6))) = none ∧
            r = []) ∨
           (∃ rc, fs.files.lookup
              (pjoin gitDir ((c.drop 5).take (c.length - 6))) = some rc ∧
            40 ≤ rc.length ∧ r = rc.take 40))) ∨
         (¬(5 < c.length ∧ c.take 5 = bs ("ref: ")) ∧
          40 ≤ c.length ∧ r = c.take 40))) := by
  constructor
  · intro c hc hlen hmark hmiss
    simp only [getHead, hc]
    simp only [if_pos (And.intro hlen hmark), hmiss]
  · intro r hr
    cases hhead : fs.files.lookup (pjoin gitDir (bs ("HEAD"))) with
    | none =>
      simp only [getHead, hhead] at hr
      exact absurd hr (by simp)
    | some c =>
      simp only [getHead, hhead] at hr
      refine ⟨c, rfl, ?_⟩
      by_cases hsym : 5 < c.length ∧ c.take 5 = bs ("ref: ")
      · rw [if_pos hsym] at hr
        left
        refine ⟨hsym.1, hsym.2, ?_⟩
        cases href : fs.files.lookup
            (pjoin gitDir ((c.drop 5).take (c.length - 6))) with
        | none =>
          simp only [href] at hr
          simp only [Except.ok.injEq] at hr
          exact Or.inl ⟨rfl, hr.symm⟩
        | some rc =>
          simp only [href] at hr
          by_cases hlen : 40 ≤ rc.length
          · rw [if_pos hlen] at hr
            simp only [Except.ok.injEq] at hr
            exact Or.inr ⟨rc, rfl, hlen, hr.symm⟩
          · rw [if_neg hlen] at hr
            exact absurd hr (by simp)
      · rw [if_neg hsym] at hr
        by_cases hlen : 40 ≤ c.length
        · rw [if_pos hlen] at hr
          simp only [Except.ok.injEq] at hr
          exact Or.inr ⟨hsym, hlen, hr.symm⟩
        · rw [if_neg hlen] at hr
          exact absurd hr (by simp)

/-- Witness for C9: a repository whose HEAD points at refs/heads/main
with no such ref file present yields the empty hash (no-commits-yet). -/
theorem c9_witness :
    getHead (bs (".git"))
      (Fs.mk [(pjoin (bs (".git")) (bs ("HEAD")), bs ("ref: refs/heads/main\n"))]
        []) = .ok [] := by
  exact (c9_get_head_cases (bs (".git"))
      (Fs.mk [(pjoin (bs (".git")) (bs ("HEAD")), bs ("ref: refs/heads/main\n"))]
        [])).1
    (bs ("ref: refs/heads/main\n")) (by decide) (by decide) (by decide)
    (by decide)

/-! ## Hex round-trip facts -/

theorem hexDigit_spec (c : Nat) (h : isHexLower c = true) :
    ∃ v, hexDigitVal c = some v ∧ v < 16 ∧ hexDigitChar v = c := by
  simp only [isHexLower, Bool.or_eq_true, Bool.and_eq_true, decide_eq_true_eq] at h
  rcases h with ⟨h1, h2⟩ | ⟨h1, h2⟩
  · refine ⟨c - 48, ?_, by omega, ?_⟩
    · simp only [hexDigitVal, if_pos (And.intro h1 h2)]
    · simp only [hexDigitChar]
      rw [if_pos (by omega)]
      omega
  · refine ⟨c - 87, ?_, by omega, ?_⟩
    · simp only [hexDigitVal]
      rw [if_neg (by omega), if_pos (by omega)]
    · simp only [hexDigitChar]
      rw [if_neg (by omega)]
      omega

theorem hexRoundtrip : ∀ (h : Bytes), h.all isHexLower = true →
    h.length % 2 = 0 →
    ∃ b, hexDecode h = some b ∧ hexEncode b = h ∧ h.length = 2 * b.length
  | [], _, _ => ⟨[], rfl, rfl, rfl⟩
  | [_], _, heven => by simp at heven
  | c1 :: c2 :: rest, hall, heven => by
    simp only [List.all_cons, Bool.and_eq_true] at hall
    obtain ⟨v1, hv1, hv1lt, hc1⟩ := hexDigit_spec c1 hall.1
    obtain ⟨v2, hv2, hv2lt, hc2⟩ := hexDigit_spec c2 hall.2.1
    obtain ⟨b, hdec, henc, hlen⟩ :=
      hexRoundtrip rest hall.2.2 (by simp at heven ⊢; omega)
    refine ⟨(v1 * 16 + v2) :: b, ?_, ?_, ?_⟩
    · simp only [hexDecode, hv1, hv2, hdec]
    · simp only [hexEncode, henc]
      have e1 : (v1 * 16 + v2) / 16 % 16 = v1 := by omega
      have e2 : (v1 * 16 + v2) % 16 = v2 := by omega
      rw [e1, e2, hc1, hc2]
    · simp only [List.length_cons]
      omega

theorem validateHash_decode (h : Bytes) (hv : validateHash h = true) :
    ∃ b, hexDecode h = some b ∧ hexEncode b = h ∧ b.length = 20 := by
  simp only [validateHash, Bool.and_eq_true, beq_iff_eq] at hv
  obtain ⟨b, hdec, henc, hlen⟩ := hexRoundtrip h hv.2 (by omega)
  exact ⟨b, hdec, henc, by omega⟩

/-! ## Staging index (src/index/index.go)

The Go `Index.entries` map is modelled as an association list with
insert-replace semantics; `time.Time` values are modelled by their Unix
seconds. -/

/-- One staging-index entry. -/
structure IndexEntry where
  path : Bytes
  hash : Bytes
  mode : Nat
  size : Int
  modTime : Int
  staged : Bool
deriving DecidableEq

/-- The in-memory entry map, path to entry. -/
abbrev EntryMap := List (Bytes × IndexEntry)

/-- Go map assignment entries[k] = v (insert or replace). -/
def mset (m : EntryMap) (k : Bytes) (v : IndexEntry) : EntryMap :=
  (k, v) :: m.filter (fun p => decide (p.1 ≠ k))

/-- Index.Add: refuse an invalid hash, otherwise upsert the entry and
mark it staged. -/
def indexAdd (m : EntryMap) (path objHash : Bytes) (mode : Nat)
    (size : Int) (modTime : Int) : Except Gerr EntryMap :=
  if validateHash objHash then
    .ok (mset m path (IndexEntry.mk path objHash mode size modTime true))
  else
    .error (.indexError path .invalidHash)

/-- Index.Remove: delete the entry, failing when the path is absent. -/
def indexRemove (m : EntryMap) (path : Bytes) : Except Gerr EntryMap :=
  if (m.lookup path).isSome then
    .ok (m.filter (fun p => decide (p.1 ≠ path)))
  else
    .error .fileNotStaged

/-- Go conversion uint32(i) of an int64: the low 32 bits. -/
def u32ofInt (i : Int) : Nat := (i % 4294967296).toNat

/-- Index.writeIndexEntry: the 62-byte fixed prefix (ctime, ctime-ns,
mtime, mtime-ns, dev, ino, mode, uid, gid, size, 20-byte raw hash,
16-bit flags), the path bytes, a NUL terminator for long paths, and
zero padding to an 8-byte boundary.  Fails when the stored hash is not
valid hex (hex.DecodeString).  The appends are written right-nested. -/
def writeIndexEntry (e : IndexEntry) : Option Bytes :=
  match hexDecode e.hash with
  | none => none
  | some hashBytes =>
    let ct := u32ofInt e.modTime
    let szv := u32ofInt e.size
    let pathLen := e.path.length
    let flags := if 4095 ≤ pathLen then 4095 else pathLen
    let nulTerm : Bytes := if 4095 ≤ pathLen then [0] else []
    let entrySize := 62 + pathLen + nulTerm.length
    let padding := (8 - entrySize % 8) % 8
    some (be32 ct ++ (be32 0 ++ (be32 ct ++ (be32 0 ++ (be32 0 ++ (be32 0 ++
      (be32 e.mode ++ (be32 0 ++ (be32 0 ++ (be32 szv ++ (hashBytes ++
      (be16 flags ++ (e.path ++ (nulTerm ++ List.replicate padding 0))))))))))))))

/-- Read bytes up to (and consuming) the first NUL; none when the stream
ends first (Index.readIndexEntry long-path branch). -/
def takeUntilNul : Bytes → Option (Bytes × Bytes)
  | [] => none
  | b :: rest =>
    if b = 0 then some ([], rest)
    else
      match takeUntilNul rest with
      | none => none
      | some (p, r) => some (b :: p, r)

/-- Index.readIndexEntry: parse one record from the stream, returning the
entry and the remaining bytes.  The 12-bit path length 0xFFF marks a
NUL-terminated long path, whose actual length is then re-truncated to 16
bits (Go uint16 conversion) before the padding is computed; the NUL
terminator is counted into the padding computation only when that
re-truncated length is itself 0xFFF, as the Go reassignment of pathLen
makes the later `pathLen == 0xFFF` test check.  The padding read ignores
a short stream, as the Go code drops that error. -/
def readIndexEntry (s : Bytes) : Except Gerr (IndexEntry × Bytes) :=
  if s.length < 62 then .error (.errorMsg (bs ("short read"))) else
  let hdr := s.take 62
  let rest := s.drop 62
  let mtime := beVal ((hdr.drop 8).take 4)
  let mode := beVal ((hdr.drop 24).take 4)
  let size := beVal ((hdr.drop 36).take 4)
  let hashStr := hexEncode ((hdr.drop 40).take 20)
  let flags := beVal ((hdr.drop 60).take 2)
  let pathLen := flags % 4096
  if pathLen = 4095 then
    match takeUntilNul rest with
    | none => .error (.errorMsg (bs ("short read")))
    | some (pathBytes, rest2) =>
      let pl := pathBytes.length % 65536
      let entrySize := 62 + pl + (if pl = 4095 then 1 else 0)
      let padding := (8 - entrySize % 8) % 8
      .ok (IndexEntry.mk pathBytes hashStr mode (size : Int) (mtime : Int) true,
        rest2.drop padding)
  else
    if rest.length < pathLen then .error (.errorMsg (bs ("short read")))
    else
      let pathBytes := rest.take pathLen
      let padding := (8 - (62 + pathLen) % 8) % 8
      .ok (IndexEntry.mk pathBytes hashStr mode (size : Int) (mtime : Int) true,
        (rest.drop pathLen).drop padding)

/-- Go string comparison a < b (lexicographic on bytes). -/
def lexLt : Bytes → Bytes → Bool
  | [], [] => false
  | [], _ :: _ => true
  | _ :: _, [] => false
  | a :: ra, b :: rb => if a < b then true else if b < a then false else lexLt ra rb

/-- Insert into a list sorted by path (models the effect of
sort.Slice with the Path-less-than comparator). -/
def sortInsert (e : IndexEntry) : List IndexEntry → List IndexEntry
  | [] => [e]
  | x :: xs => if lexLt x.path e.path then x :: sortInsert e xs else e :: x :: xs

/-- Sort entries by path. -/
def sortByPath (l : List IndexEntry) : List IndexEntry := l.foldr sortInsert []

/-- Serialize a list of records, failing if any record fails. -/
def writeAllEntries : List IndexEntry → Option Bytes
  | [] => some []
  | e :: es =>
    match writeIndexEntry e, writeAllEntries es with
    | some w, some r => some (w ++ r)
    | _, _ => none

/-- Index.Save, as the bytes written to the index file: signature DIRC,
version 2, entry count, the sorted records, then the SHA-1 of everything
before it. -/
def saveIndexBytes (m : EntryMap) : Option Bytes :=
  let allEntries := sortByPath (m.map Prod.snd)
  match writeAllEntries allEntries with
  | none => none
  | some recs =>
    let buf := bs ("DIRC") ++ be32 2 ++ be32 allEntries.length ++ recs
    some (buf ++ sha1Bytes buf)

/-- The entry-reading loop of Index.Load: read the declared number of
records, inserting each into the map keyed by its path (later records
for the same path overwrite earlier ones). -/
def loadEntriesLoop : Nat → Bytes → EntryMap → Except Gerr EntryMap
  | 0, _, m => .ok m
  | n + 1, s, m =>
    match readIndexEntry s with
    | .error e => .error e
    | .ok (entry, rest) => loadEntriesLoop n rest (mset m entry.path entry)

/-- Index.Load on the content of the index file: an empty file is an
empty index; otherwise the DIRC signature and version 2 are checked and
the declared number of records is read.  Bytes after the last record
(including the trailing checksum) are not examined. -/
def loadIndexBytes (data : Bytes) (m : EntryMap) : Except Gerr EntryMap :=
  if data = [] then .ok m
  else if data.length < 12 then .error (.errorMsg (bs ("failed to read header")))
  else if ¬(data.take 4 = bs ("DIRC")) then
    .error (.errorMsg (bs ("invalid index signature")))
  else if ¬(beVal ((data.drop 4).take 4) = 2) then
    .error (.errorMsg (bs ("unsupported index version")))
  else
    loadEntriesLoop (beVal ((data.drop 8).take 4)) (data.drop 12) m

/-- The logical image of an entry after one save/load round trip: path,
hash and mode survive exactly; size and modification time pass through
the 32-bit on-disk fields. -/
def normEntry (e : IndexEntry) : IndexEntry :=
  IndexEntry.mk e.path e.hash e.mode (u32ofInt e.size : Nat) (u32ofInt e.modTime : Nat) true

theorem u32ofInt_lt (i : Int) : u32ofInt i < 4294967296 := by
  simp only [u32ofInt]
  omega

/-- Reading back one short-path record (path length below the 0xFFF
sentinel). -/
theorem readIndexEntry_shape_short (ct mode szv : Nat) (hb path rest W : Bytes)
    (hct : ct < 4294967296) (hmode : mode < 4294967296) (hszv : szv < 4294967296)
    (hbl : hb.length = 20) (hpl : path.length < 4095)
    (hW : W = be32 ct ++ (be32 0 ++ (be32 ct ++ (be32 0 ++ (be32 0 ++ (be32 0 ++
      (be32 mode ++ (be32 0 ++ (be32 0 ++ (be32 szv ++ (hb ++
      (be16 path.length ++ (path ++
      (List.replicate ((8 - (62 + path.length) % 8) % 8) 0 ++ rest)))))))))))))) :
    readIndexEntry W =
      .ok (IndexEntry.mk path (hexEncode hb) mode (szv : Int) (ct : Int) true, rest) := by
  have h62 : ¬ W.length < 62 := by
    rw [hW]
    simp [be32, be16, hbl]
    omega
  have hmt : beVal (((W.take 62).drop 8).take 4) = ct := by
    rw [hW]
    simp only [be32, be16, List.cons_append, List.append_assoc, List.nil_append,
      List.take_succ_cons, List.drop_succ_cons, List.take_zero, List.drop_zero,
      beVal, List.foldl]
    omega
  have hmd : beVal (((W.take 62).drop 24).take 4) = mode := by
    rw [hW]
    simp only [be32, be16, List.cons_append, List.append_assoc, List.nil_append,
      List.take_succ_cons, List.drop_succ_cons, List.take_zero, List.drop_zero,
      beVal, List.foldl]
    omega
  have hsz : beVal (((W.take 62).drop 36).take 4) = szv := by
    rw [hW]
    simp only [be32, be16, List.cons_append, List.append_assoc, List.nil_append,
      List.take_succ_cons, List.drop_succ_cons, List.take_zero, List.drop_zero,
      beVal, List.foldl]
    omega
  have hhs : ((W.take 62).drop 40).take 20 = hb := by
    rw [hW]
    simp only [be32, be16, List.cons_append, List.append_assoc, List.nil_append,
      List.take_succ_cons, List.drop_succ_cons, List.take_zero, List.drop_zero,
      List.take_append_eq_append_take, List.drop_append_eq_append_drop, hbl]
    simp [List.take_of_length_le, hbl]
  have hfl : beVal (((W.take 62).drop 60).take 2) = path.length := by
    rw [hW]
    simp only [be32, be16, List.cons_append, List.append_assoc, List.nil_append,
      List.take_succ_cons, List.drop_succ_cons, List.take_zero, List.drop_zero,
      List.take_append_eq_append_take, List.drop_append_eq_append_drop, hbl]
    simp [List.take_of_length_le, List.drop_of_length_le, hbl, beVal, List.foldl]
    omega
  have hrest : W.drop 62 =
      path ++ (List.replicate ((8 - (62 + path.length) % 8) % 8) 0 ++ rest) := by
    rw [hW]
    simp only [be32, be16, List.cons_append, List.append_assoc, List.nil_append,
      List.drop_succ_cons, List.drop_zero,
      List.drop_append_eq_append_drop, hbl]
    simp [List.drop_of_length_le, hbl]
  have hmodlen : path.length % 4096 = path.length := Nat.mod_eq_of_lt (by omega)
  simp only [readIndexEntry]
  rw [if_neg h62]
  simp only [hmt, hmd, hsz, hhs, hfl, hmodlen, hrest]
  rw [if_neg (by omega : ¬ path.length = 4095)]
  rw [if_neg (by simp [List.length_append, List.length_replicate])]
  have htake : (path ++
      (List.replicate ((8 - (62 + path.length) % 8) % 8) 0 ++ rest)).take
        path.length = path := by
    simp [List.take_append_eq_append_take, List.take_of_length_le]
  have hdrop : ((path ++
      (List.replicate ((8 - (62 + path.length) % 8) % 8) 0 ++ rest)).drop
        path.length).drop ((8 - (62 + path.length) % 8) % 8) = rest := by
    simp [List.drop_append_eq_append_drop, List.drop_of_length_le]
  rw [htake, hdrop]

theorem takeUntilNul_append : ∀ (p r : Bytes), (0 : Nat) ∉ p →
    takeUntilNul (p ++ 0 :: r) = some (p, r)
  | [], r, _ => by simp [takeUntilNul]
  | b :: p, r, hn => by
    simp only [List.mem_cons, not_or] at hn
    have ih := takeUntilNul_append p r hn.2
    have hb0 : ¬ b = 0 := fun h => hn.1 h.symm
    simp only [List.cons_append, takeUntilNul, List.append_eq, ih, if_neg hb0]

/-- Reading back one long-path record of length exactly 0xFFF (the one
long length for which the reader's padding computation counts the NUL
terminator the way the writer does). -/
theorem readIndexEntry_shape_long (ct mode szv : Nat) (hb path rest W : Bytes)
    (hct : ct < 4294967296) (hmode : mode < 4294967296) (hszv : szv < 4294967296)
    (hbl : hb.length = 20) (hpl : path.length = 4095)
    (hnul : (0 : Nat) ∉ path)
    (hW : W = be32 ct ++ (be32 0 ++ (be32 ct ++ (be32 0 ++ (be32 0 ++ (be32 0 ++
      (be32 mode ++ (be32 0 ++ (be32 0 ++ (be32 szv ++ (hb ++
      (be16 4095 ++ (path ++ ([0] ++
      (List.replicate ((8 - (62 + path.length + 1) % 8) % 8) 0 ++ rest))))))))))))))) :
    readIndexEntry W =
      .ok (IndexEntry.mk path (hexEncode hb) mode (szv : Int) (ct : Int) true, rest) := by
  have h62 : ¬ W.length < 62 := by
    rw [hW]
    simp [be32, be16, hbl]
    omega
  have hmt : beVal (((W.take 62).drop 8).take 4) = ct := by
    rw [hW]
    simp only [be32, be16, List.cons_append, List.append_assoc, List.nil_append,
      List.take_succ_cons, List.drop_succ_cons, List.take_zero, List.drop_zero,
      beVal, List.foldl]
    omega
  have hmd : beVal (((W.take 62).drop 24).take 4) = mode := by
    rw [hW]
    simp only [be32, be16, List.cons_append, List.append_assoc, List.nil_append,
      List.take_succ_cons, List.drop_succ_cons, List.take_zero, List.drop_zero,
      beVal, List.foldl]
    omega
  have hsz : beVal (((W.take 62).drop 36).take 4) = szv := by
    rw [hW]
    simp only [be32, be16, List.cons_append, List.append_assoc, List.nil_append,
      List.take_succ_cons, List.drop_succ_cons, List.take_zero, List.drop_zero,
      beVal, List.foldl]
    omega
  have hhs : ((W.take 62).drop 40).take 20 = hb := by
    rw [hW]
    simp only [be32, be16, List.cons_append, List.append_assoc, List.nil_append,
      List.take_succ_cons, List.drop_succ_cons, List.take_zero, List.drop_zero,
      List.take_append_eq_append_take, List.drop_append_eq_append_drop, hbl]
    simp [List.take_of_length_le, hbl]
  have hfl : beVal (((W.take 62).drop 60).take 2) = 4095 := by
    rw [hW]
    simp only [be32, be16, List.cons_append, List.append_assoc, List.nil_append,
      List.take_succ_cons, List.drop_succ_cons, List.take_zero, List.drop_zero,
      List.take_append_eq_append_take, List.drop_append_eq_append_drop, hbl]
    simp [List.take_of_length_le, List.drop_of_length_le, hbl, beVal, List.foldl]
  have hrest : W.drop 62 =
      path ++ 0 ::
        (List.replicate ((8 - (62 + path.length + 1) % 8) % 8) 0 ++ rest) := by
    rw [hW]
    simp only [be32, be16, List.cons_append, List.append_assoc, List.nil_append,
      List.drop_succ_cons, List.drop_zero,
      List.drop_append_eq_append_drop, hbl]
    simp [List.drop_of_length_le, hbl]
  have hmodlen : path.length % 65536 = path.length :=
    Nat.mod_eq_of_lt (by omega)
  simp only [readIndexEntry]
  rw [if_neg h62]
  simp only [hmt, hmd, hsz, hhs, hfl, hrest]
  simp only [if_true]
  rw [takeUntilNul_append path _ hnul]
  simp only [hmodlen]
  rw [if_pos hpl]
  have hdrop : ((List.replicate ((8 - (62 + path.length + 1) % 8) % 8) 0 ++
      rest)).drop ((8 - (62 + path.length + 1) % 8) % 8) = rest := by
    simp [List.drop_append_eq_append_drop, List.drop_of_length_le]
  rw [hdrop]

/-- Writing one well-formed record and reading it back from the front of
a stream yields the normalized entry and leaves the remaining stream. -/
theorem readIndexEntry_write (e : IndexEntry) (rest : Bytes)
    (hv : validateHash e.hash = true) (hm : e.mode < 4294967296)
    (hp : e.path.length < 4095 ∨ ((0 : Nat) ∉ e.path ∧ e.path.length = 4095)) :
    ∃ w, writeIndexEntry e = some w ∧
      readIndexEntry (w ++ rest) = .ok (normEntry e, rest) := by
  obtain ⟨hb, hdec, henc, hbl⟩ := validateHash_decode e.hash hv
  obtain ⟨w, hw⟩ : ∃ w, writeIndexEntry e = some w := by
    simp only [writeIndexEntry, hdec]
    exact ⟨_, rfl⟩
  refine ⟨w, hw, ?_⟩
  simp only [writeIndexEntry, hdec] at hw
  by_cases hlong : 4095 ≤ e.path.length
  · have hnul : (0 : Nat) ∉ e.path ∧ e.path.length = 4095 := by
      rcases hp with h | h
      · omega
      · exact h
    simp only [if_pos hlong] at hw
    have hwe := Option.some.inj hw
    have hsh : w ++ rest = be32 (u32ofInt e.modTime) ++ (be32 0 ++
        (be32 (u32ofInt e.modTime) ++ (be32 0 ++ (be32 0 ++ (be32 0 ++
        (be32 e.mode ++ (be32 0 ++ (be32 0 ++ (be32 (u32ofInt e.size) ++ (hb ++
        (be16 4095 ++ (e.path ++ ([0] ++
        (List.replicate ((8 - (62 + e.path.length + 1) % 8) % 8) 0 ++
          rest)))))))))))))) := by
      rw [← hwe]
      simp [List.append_assoc]
    rw [readIndexEntry_shape_long (u32ofInt e.modTime) e.mode (u32ofInt e.size)
      hb e.path rest (w ++ rest) (u32ofInt_lt _) hm (u32ofInt_lt _) hbl
      hnul.2 hnul.1 hsh]
    rw [henc]
    rfl
  · have hshort : e.path.length < 4095 := by omega
    simp only [if_neg hlong] at hw
    have hwe := Option.some.inj hw
    have hsh : w ++ rest = be32 (u32ofInt e.modTime) ++ (be32 0 ++
        (be32 (u32ofInt e.modTime) ++ (be32 0 ++ (be32 0 ++ (be32 0 ++
        (be32 e.mode ++ (be32 0 ++ (be32 0 ++ (be32 (u32ofInt e.size) ++ (hb ++
        (be16 e.path.length ++ (e.path ++
        (List.replicate ((8 - (62 + e.path.length) % 8) % 8) 0 ++
          rest))))))))))))) := by
      rw [← hwe]
      simp [List.append_assoc]
    rw [readIndexEntry_shape_short (u32ofInt e.modTime) e.mode (u32ofInt e.size)
      hb e.path rest (w ++ rest) (u32ofInt_lt _) hm (u32ofInt_lt _) hbl hshort hsh]
    rw [henc]
    rfl

/-- Well-formedness of an in-memory entry: the hash validates (as every
Add-produced entry does), the mode fits the on-disk 32-bit field (as the
Go uint32 type guarantees), and the path is either shorter than the
long-path sentinel or NUL-free of length exactly 4095 — the one long
length whose on-disk record the reader walks without desynchronizing,
since its padding computation counts the NUL terminator only when the
re-truncated length equals the sentinel. -/
def entryWf (e : IndexEntry) : Prop :=
  validateHash e.hash = true ∧ e.mode < 4294967296 ∧
    (e.path.length < 4095 ∨ ((0 : Nat) ∉ e.path ∧ e.path.length = 4095))

/-- Loading the concatenation of well-formed written records (with any
trailing junk, such as the checksum) inserts their normalized forms in
order. -/
theorem loadEntriesLoop_write : ∀ (es : List IndexEntry) (junk : Bytes)
    (m : EntryMap), (∀ e ∈ es, entryWf e) →
    ∃ recs, writeAllEntries es = some recs ∧
      loadEntriesLoop es.length (recs ++ junk) m =
        .ok (es.foldl (fun acc e => mset acc e.path (normEntry e)) m)
  | [], junk, m, _ => ⟨[], rfl, rfl⟩
  | e :: es, junk, m, hwf => by
    obtain ⟨recs, hrecs, hload⟩ :=
      loadEntriesLoop_write es junk (mset m e.path (normEntry e))
        (fun x hx => hwf x (List.mem_cons_of_mem e hx))
    obtain ⟨hv, hm, hp⟩ := hwf e (List.mem_cons_self e es)
    obtain ⟨w, hw, hread⟩ := readIndexEntry_write e (recs ++ junk) hv hm hp
    refine ⟨w ++ recs, ?_, ?_⟩
    · simp only [writeAllEntries, hw, hrecs]
    · simp only [List.length_cons, loadEntriesLoop, List.append_assoc, hread,
        List.foldl_cons]
      have hpath : (normEntry e).path = e.path := rfl
      rw [hpath]
      exact hload

theorem sortInsert_perm (e : IndexEntry) :
    ∀ (l : List IndexEntry), (sortInsert e l).Perm (e :: l)
  | [] => List.Perm.refl _
  | x :: xs => by
    simp only [sortInsert]
    by_cases hc : lexLt x.path e.path = true
    · rw [if_pos hc]
      exact ((sortInsert_perm e xs).cons x).trans (List.Perm.swap e x xs)
    · rw [if_neg hc]

theorem sortByPath_perm (l : List IndexEntry) : (sortByPath l).Perm l := by
  induction l with
  | nil => exact List.Perm.refl _
  | cons e es ih =>
    simp only [sortByPath, List.foldr_cons]
    exact (sortInsert_perm e _).trans (ih.cons e)

theorem lookup_filter_ne (k k2 : Bytes) (hk : ¬ k = k2) :
    ∀ (m : EntryMap),
      (m.filter (fun p => decide (p.1 ≠ k2))).lookup k = m.lookup k := by
  intro m
  induction m with
  | nil => rfl
  | cons p rest ih =>
    obtain ⟨a, b⟩ := p
    by_cases ha : a = k2
    · subst ha
      simp only [ne_eq, decide_not] at ih
      simp [List.filter_cons, List.lookup_cons, beq_eq_false_iff_ne.mpr hk, ih]
    · simp only [List.filter_cons, ne_eq, decide_not,
        decide_eq_false (by exact ha), Bool.not_false, if_true,
        List.lookup_cons]
      cases hka : (k == a) with
      | true => rfl
      | false => simpa using ih

/-- Go map lookup after a map assignment. -/
theorem mset_lookup (m : EntryMap) (k k2 : Bytes) (v : IndexEntry) :
    (mset m k2 v).lookup k = if k = k2 then some v else m.lookup k := by
  simp only [mset, List.lookup_cons]
  by_cases hk : k = k2
  · simp [hk]
  · rw [if_neg hk, beq_eq_false_iff_ne.mpr hk]
    exact lookup_filter_ne k k2 hk m

/-- Lookup after folding map assignments over a record list: the last
record for a path wins, and otherwise the accumulator decides. -/
theorem foldl_mset_lookup : ∀ (l : List IndexEntry) (acc : EntryMap) (k : Bytes),
    (l.foldl (fun a e => mset a e.path (normEntry e)) acc).lookup k =
      match l.reverse.find? (fun e => decide (e.path = k)) with
      | some e => some (normEntry e)
      | none => acc.lookup k
  | [], _, _ => rfl
  | e :: es, acc, k => by
    simp only [List.foldl_cons, List.reverse_cons, List.find?_append]
    rw [foldl_mset_lookup es _ k]
    cases hf : es.reverse.find? (fun e => decide (e.path = k)) with
    | some x => simp [Option.or]
    | none =>
      simp only [Option.none_or]
      by_cases hek : e.path = k
      · simp only [List.find?_cons, decide_eq_true hek]
        rw [mset_lookup, if_pos hek.symm]
      · simp only [List.find?_cons, decide_eq_false hek, List.find?_nil]
        rw [mset_lookup, if_neg (fun h => hek h.symm)]

/-- A well-keyed association list looks up the same entry that a linear
search over its values finds. -/
theorem lookup_eq_find : ∀ (m : EntryMap), (∀ p ∈ m, p.2.path = p.1) →
    ∀ k, m.lookup k = (m.map Prod.snd).find? (fun e => decide (e.path = k))
  | [], _, _ => rfl
  | p :: rest, hkeys, k => by
    obtain ⟨a, b⟩ := p
    have hb : b.path = a := hkeys (a, b) (List.mem_cons_self _ _)
    have ih := lookup_eq_find rest
      (fun q hq => hkeys q (List.mem_cons_of_mem _ hq)) k
    simp only [List.lookup_cons, List.map_cons, List.find?_cons, hb]
    by_cases hk : k = a
    · simp [hk]
    · rw [beq_eq_false_iff_ne.mpr hk,
        decide_eq_false (fun h => hk h.symm)]
      exact ih

/-- find? for a path is permutation-invariant when entries with equal
paths are equal. -/
theorem find?_path_perm (l1 l2 : List IndexEntry) (hperm : l1.Perm l2)
    (huniq : ∀ a ∈ l2, ∀ b ∈ l2, a.path = b.path → a = b) (k : Bytes) :
    l1.find? (fun e => decide (e.path = k)) =
      l2.find? (fun e => decide (e.path = k)) := by
  cases h2 : l2.find? (fun e => decide (e.path = k)) with
  | none =>
    rw [List.find?_eq_none] at h2 ⊢
    exact fun x hx => h2 x (hperm.subset hx)
  | some e =>
    have he : e ∈ l2 := List.mem_of_find?_eq_some h2
    have hpe : e.path = k := by
      have hx2 := List.find?_some h2
      exact of_decide_eq_true hx2
    have hsome : (l1.find? (fun e => decide (e.path = k))).isSome :=
      List.find?_isSome.mpr ⟨e, hperm.mem_iff.mpr he, decide_eq_true hpe⟩
    obtain ⟨x, hx⟩ := Option.isSome_iff_exists.mp hsome
    have hxm : x ∈ l2 := hperm.subset (List.mem_of_find?_eq_some hx)
    have hpx : x.path = k := by
      have hx3 := List.find?_some hx
      exact of_decide_eq_true hx3
    rw [hx]
    rw [huniq x hxm e he (by rw [hpx, hpe])]

theorem sha1Bytes_length (m : Bytes) : (sha1Bytes m).length = 20 := by
  simp [sha1Bytes, be32]

/-- Index.Load on a well-formed header followed by records: the header
checks pass and the declared count of records is read. -/
theorem loadIndexBytes_shape (n : Nat) (tail : Bytes) (m : EntryMap)
    (hn : n < 4294967296) :
    loadIndexBytes (bs ("DIRC") ++ be32 2 ++ be32 n ++ tail) m =
      loadEntriesLoop n tail m := by
  have hD : bs ("DIRC") = [68, 73, 82, 67] := rfl
  have hcons : bs ("DIRC") ++ be32 2 ++ be32 n ++ tail =
      68 :: 73 :: 82 :: 67 :: 0 :: 0 :: 0 :: 2 ::
      (n / 16777216 % 256 :: n / 65536 % 256 :: n / 256 % 256 :: n % 256 ::
        tail) := by
    simp [hD, be32]
  rw [loadIndexBytes, hcons]
  rw [if_neg (by simp)]
  rw [if_neg (by simp)]
  rw [if_neg (by simp [hD, List.take_succ_cons])]
  rw [if_neg (by simp [beVal, List.foldl])]
  have hcnt : beVal (List.take 4 (List.drop 8
      (68 :: 73 :: 82 :: 67 :: 0 :: 0 :: 0 :: 2 ::
      (n / 16777216 % 256 :: n / 65536 % 256 :: n / 256 % 256 :: n % 256 ::
        tail)))) = n := by
    simp only [List.drop_succ_cons, List.drop_zero, List.take_succ_cons,
      List.take_zero, beVal, List.foldl]
    omega
  rw [hcnt]
  rfl

/-- Claim C2 (amended): saving any well-formed entry map and loading the
file back on a fresh index reproduces the same logical entry set — the
same paths, each mapped to the same hash and mode, with the size (and
modification time) passed through the 32-bit on-disk fields — and the
trailing 20 bytes of the written file are the SHA-1 of all preceding
bytes. -/
theorem c2_index_roundtrip (m : EntryMap)
    (hkeys : ∀ p ∈ m, p.2.path = p.1)
    (hnodup : (m.map Prod.fst).Nodup)
    (hwf : ∀ p ∈ m, entryWf p.2)
    (hcount : m.length < 4294967296) :
    ∃ data, saveIndexBytes m = some data ∧
      (20 ≤ data.length ∧
        data.drop (data.length - 20) = sha1Bytes (data.take (data.length - 20))) ∧
      ∃ m2, loadIndexBytes data [] = .ok m2 ∧
        ∀ k, m2.lookup k = (m.lookup k).map normEntry := by
  have hSperm : (sortByPath (m.map Prod.snd)).Perm (m.map Prod.snd) :=
    sortByPath_perm _
  have hSwf : ∀ e ∈ sortByPath (m.map Prod.snd), entryWf e := by
    intro e he
    have : e ∈ m.map Prod.snd := hSperm.subset he
    obtain ⟨p, hp, hpe⟩ := List.mem_map.mp this
    exact hpe ▸ hwf p hp
  obtain ⟨recs, hrecs, hload0⟩ :=
    loadEntriesLoop_write (sortByPath (m.map Prod.snd)) [] [] hSwf
  have hbuf : saveIndexBytes m = some ((bs ("DIRC") ++ be32 2 ++
      be32 (sortByPath (m.map Prod.snd)).length ++ recs) ++
      sha1Bytes (bs ("DIRC") ++ be32 2 ++
        be32 (sortByPath (m.map Prod.snd)).length ++ recs)) := by
    simp only [saveIndexBytes, hrecs]
  refine ⟨_, hbuf, ⟨?_, ?_⟩, ?_⟩
  · simp [sha1Bytes_length]
    omega
  · rw [List.length_append, sha1Bytes_length]
    have h1 : (bs ("DIRC") ++ be32 2 ++
        be32 (sortByPath (m.map Prod.snd)).length ++ recs).length + 20 - 20 =
        (bs ("DIRC") ++ be32 2 ++
        be32 (sortByPath (m.map Prod.snd)).length ++ recs).length := by omega
    rw [h1, List.drop_left, List.take_left]
  · obtain ⟨recs2, hrecs2, hload⟩ :=
      loadEntriesLoop_write (sortByPath (m.map Prod.snd))
        (sha1Bytes (bs ("DIRC") ++ be32 2 ++
          be32 (sortByPath (m.map Prod.snd)).length ++ recs)) [] hSwf
    rw [hrecs] at hrecs2
    have hre : recs2 = recs := (Option.some.inj hrecs2).symm
    subst hre
    have hslen : (sortByPath (m.map Prod.snd)).length = m.length := by
      rw [hSperm.length_eq, List.length_map]
    refine ⟨List.foldl (fun acc e => mset acc e.path (normEntry e)) []
      (sortByPath (m.map Prod.snd)), ?_, ?_⟩
    · show loadIndexBytes _ [] = _
      have hsh : (bs ("DIRC") ++ be32 2 ++
          be32 (sortByPath (m.map Prod.snd)).length ++ recs2) ++
          sha1Bytes (bs ("DIRC") ++ be32 2 ++
            be32 (sortByPath (m.map Prod.snd)).length ++ recs2) =
          bs ("DIRC") ++ be32 2 ++
          be32 (sortByPath (m.map Prod.snd)).length ++
          (recs2 ++ sha1Bytes (bs ("DIRC") ++ be32 2 ++
            be32 (sortByPath (m.map Prod.snd)).length ++ recs2)) := by
        simp [List.append_assoc]
      rw [hsh, loadIndexBytes_shape _ _ _ (by omega), hload]
    · intro k
      rw [foldl_mset_lookup]
      have hnodup2 : ((m.map Prod.snd).map (fun e => e.path)).Nodup := by
        have hmm : (m.map Prod.snd).map (fun e => e.path) = m.map Prod.fst := by
          rw [List.map_map]
          exact List.map_congr_left (fun p hp => hkeys p hp)
        rw [hmm]
        exact hnodup
      have huniq : ∀ a ∈ m.map Prod.snd, ∀ b ∈ m.map Prod.snd,
          a.path = b.path → a = b :=
        fun a ha b hb => List.inj_on_of_nodup_map hnodup2 ha hb
      have hperm2 : ((sortByPath (m.map Prod.snd)).reverse).Perm
          (m.map Prod.snd) :=
        (List.reverse_perm _).trans hSperm
      rw [find?_path_perm _ _ hperm2 huniq k]
      rw [lookup_eq_find m hkeys k]
      cases (m.map Prod.snd).find? (fun e => decide (e.path = k)) with
      | none => rfl
      | some e => rfl

/-- Witness for C2 at a concrete one-entry map produced by Add: the save
bytes exist, the checksum validates and the loaded map agrees. -/
theorem c2_witness :
    ∃ data, saveIndexBytes
        [(bs ("a.txt"), IndexEntry.mk (bs ("a.txt"))
          (bs ("2aae6c35c94fcfb415dbe95f408b9ce91ee846ed")) 33188 11 5 true)] =
        some data ∧
      (20 ≤ data.length ∧
        data.drop (data.length - 20) = sha1Bytes (data.take (data.length - 20))) ∧
      ∃ m2, loadIndexBytes data [] = .ok m2 ∧
        ∀ k, m2.lookup k =
          (([(bs ("a.txt"), IndexEntry.mk (bs ("a.txt"))
            (bs ("2aae6c35c94fcfb415dbe95f408b9ce91ee846ed")) 33188 11 5
            true)].lookup k)).map normEntry :=
  c2_index_roundtrip _ (by decide) (by decide)
    (by
      intro p hp
      simp only [List.mem_singleton] at hp
      subst hp
      exact ⟨by decide, by decide, Or.inl (by decide)⟩)
    (by decide)

set_option maxRecDepth 100000 in
/-- Counterexample to C2 as stated: an Add with size 2^32 (a legal int64
file size) succeeds, but the entry read back after save carries size 0 —
the on-disk size field is 32 bits wide, so the size is not always
reproduced exactly. -/
theorem c2_counterexample :
    ((indexAdd [] (bs ("big.bin"))
        (bs ("aaaaaaaaaaaaaaaaaaaaaaaaaaaaaaaaaaaaaaaa"))
        33188 4294967296 0).toOption.bind
      (fun m => (m.lookup (bs ("big.bin"))).map IndexEntry.size))
        = some 4294967296 ∧
    ((indexAdd [] (bs ("big.bin"))
        (bs ("aaaaaaaaaaaaaaaaaaaaaaaaaaaaaaaaaaaaaaaa"))
        33188 4294967296 0).toOption.bind
      (fun m => (saveIndexBytes m).bind (fun data =>
        (loadIndexBytes data []).toOption.bind (fun m2 =>
          (m2.lookup (bs ("big.bin"))).map IndexEntry.size)))) = some 0 := by
  constructor
  · decide
  · decide

/-- Claim C10: Add upserts (an existing path is replaced, never
FileAlreadyStaged), a non-valid hash is refused with the invalid-hash
error and no map is produced, and the Load record loop collapses
duplicate on-disk records for one path to the last one read. -/
theorem c10_index_upsert_invariants :
    (∀ (m : EntryMap) (path h : Bytes) (mode : Nat) (size modTime : Int),
      validateHash h = true →
      ∃ m2, indexAdd m path h mode size modTime = .ok m2 ∧
        m2.lookup path =
          some (IndexEntry.mk path h mode size modTime true) ∧
        ∀ q, q ≠ path → m2.lookup q = m.lookup q) ∧
    (∀ (m : EntryMap) (path h : Bytes) (mode : Nat) (size modTime : Int),
      validateHash h = false →
      indexAdd m path h mode size modTime =
        .error (.indexError path .invalidHash)) ∧
    (∀ (es : List IndexEntry) (junk : Bytes) (k : Bytes),
      (∀ e ∈ es, entryWf e) →
      ∃ recs, writeAllEntries es = some recs ∧
        ∃ m2, loadEntriesLoop es.length (recs ++ junk) [] = .ok m2 ∧
          m2.lookup k =
            (es.reverse.find? (fun e => decide (e.path = k))).map normEntry) := by
  refine ⟨?_, ?_, ?_⟩
  · intro m path h mode size modTime hv
    refine ⟨mset m path (IndexEntry.mk path h mode size modTime true),
      ?_, ?_, ?_⟩
    · simp only [indexAdd, if_pos hv]
    · rw [mset_lookup, if_pos rfl]
    · intro q hq
      rw [mset_lookup, if_neg hq]
  · intro m path h mode size modTime hv
    simp only [indexAdd, hv, Bool.false_eq_true, if_false]
  · intro es junk k hwf
    obtain ⟨recs, hrecs, hload⟩ := loadEntriesLoop_write es junk [] hwf
    refine ⟨recs, hrecs, _, hload, ?_⟩
    rw [foldl_mset_lookup]
    cases es.reverse.find? (fun e => decide (e.path = k)) with
    | none => rfl
    | some e => rfl

/-- Witness for C10: replacing an existing entry for a path, refusing an
uppercase (invalid) hash, and a duplicate pair of records collapsing to
the second. -/
theorem c10_witness :
    (∃ m2, indexAdd
        [(bs ("a.txt"), IndexEntry.mk (bs ("a.txt"))
          (bs ("2aae6c35c94fcfb415dbe95f408b9ce91ee846ed")) 33188 11 5 true)]
        (bs ("a.txt")) (bs ("aaaaaaaaaaaaaaaaaaaaaaaaaaaaaaaaaaaaaaaa"))
        33188 3 7 = .ok m2 ∧
      m2.lookup (bs ("a.txt")) =
        some (IndexEntry.mk (bs ("a.txt"))
          (bs ("aaaaaaaaaaaaaaaaaaaaaaaaaaaaaaaaaaaaaaaa")) 33188 3 7 true) ∧
      ∀ q, q ≠ bs ("a.txt") → m2.lookup q =
        [(bs ("a.txt"), IndexEntry.mk (bs ("a.txt"))
          (bs ("2aae6c35c94fcfb415dbe95f408b9ce91ee846ed")) 33188 11 5
          true)].lookup q) ∧
    indexAdd [] (bs ("b")) (bs ("AAAAAAAAAAAAAAAAAAAAAAAAAAAAAAAAAAAAAAAA"))
      33188 1 1 = .error (.indexError (bs ("b")) .invalidHash) := by
  constructor
  · exact (c10_index_upsert_invariants.1
      [(bs ("a.txt"), IndexEntry.mk (bs ("a.txt"))
        (bs ("2aae6c35c94fcfb415dbe95f408b9ce91ee846ed")) 33188 11 5 true)]
      (bs ("a.txt")) (bs ("aaaaaaaaaaaaaaaaaaaaaaaaaaaaaaaaaaaaaaaa"))
      33188 3 7 (by decide))
  · exact (c10_index_upsert_invariants.2.1 []
      (bs ("b")) (bs ("AAAAAAAAAAAAAAAAAAAAAAAAAAAAAAAAAAAAAAAA"))
      33188 1 1 (by decide))

/-! ## Pack delta application (src/pack/pack.go)

PackProcessor.readDeltaSize and PackProcessor.applyDelta, translated
suffix-style (the Go offset into the delta buffer becomes the remaining
byte list).  The Go sizes are int64: accumulation truncates to 64 bits
(a Go shift by 64 or more yields 0, which coincides with mod 2^64 of the
mathematical shift), and a result size with the sign bit set would make
the Go make([]byte, 0, resultSize) call panic. -/

/-- PackProcessor.readDeltaSize after its first byte: keep consuming
while the previous byte had the continuation bit, OR-ing 7 payload bits
at the running shift (truncated to 64 bits as Go int64 arithmetic is). -/
def readDeltaSizeAux (prev shift size : Nat) : Bytes → Nat × Bytes
  | [] => (size, [])
  | b :: rest =>
    if prev &&& 128 ≠ 0 then
      readDeltaSizeAux b (shift + 7)
        (size ||| (((b &&& 127) <<< shift) % 18446744073709551616)) rest
    else (size, b :: rest)

/-- PackProcessor.readDeltaSize from the start of a stream: an empty
stream yields zero. -/
def readDeltaSize0 : Bytes → Nat × Bytes
  | [] => (0, [])
  | b :: rest => readDeltaSizeAux b 7 (b &&& 127) rest

/-- Read one operand byte when the instruction selects it; otherwise the
contribution is zero.  Reading past the end of the delta is the Go index
panic. -/
def pullIf (cond : Bool) (s : Bytes) : Option (Nat × Bytes) :=
  if cond then
    match s with
    | [] => none
    | b :: r => some (b, r)
  else some (0, s)

/-- The operand bytes of a copy instruction: bits 0..3 select which of 4
little-endian offset bytes follow (LSB first), bits 4..6 which of 3 size
bytes; a zero assembled size means 0x10000. -/
def readCopyOperands (instr : Nat) (s : Bytes) : Option (Nat × Nat × Bytes) := do
  let (o0, s) ← pullIf (instr &&& 1 != 0) s
  let (o1, s) ← pullIf (instr &&& 2 != 0) s
  let (o2, s) ← pullIf (instr &&& 4 != 0) s
  let (o3, s) ← pullIf (instr &&& 8 != 0) s
  let (s0, s) ← pullIf (instr &&& 16 != 0) s
  let (s1, s) ← pullIf (instr &&& 32 != 0) s
  let (s2, s) ← pullIf (instr &&& 64 != 0) s
  let copyOffset := o0 ||| (o1 <<< 8) ||| (o2 <<< 16) ||| (o3 <<< 24)
  let copySize0 := s0 ||| (s1 <<< 8) ||| (s2 <<< 16)
  let copySize := if copySize0 = 0 then 65536 else copySize0
  pure (copyOffset, copySize, s)

/-- The instruction loop of PackProcessor.applyDelta.  A byte with the
high bit set is a copy (operands decoded as above, the copied range must
lie inside the base); a non-zero byte with high bit clear inserts that
many literal bytes; a zero byte is an error.  The fuel is the remaining
length at entry, enough because every step consumes the instruction
byte. -/
def applyDeltaLoop (baseData : Bytes) :
    Nat → Bytes → Bytes → Except Gerr Bytes
  | _, [], result => .ok result
  | 0, _ :: _, _ => .error .panic
  | fuel + 1, instruction :: rest, result =>
    if instruction &&& 128 ≠ 0 then
      match readCopyOperands instruction rest with
      | none => .error .panic
      | some (copyOffset, copySize, rest2) =>
        if baseData.length ≤ copyOffset ∨
            baseData.length < copyOffset + copySize then
          .error (.errorMsg (bs ("invalid copy operation")))
        else
          applyDeltaLoop baseData fuel rest2
            (result ++ (baseData.drop copyOffset).take copySize)
    else if instruction ≠ 0 then
      if rest.length < instruction then
        .error (.errorMsg (bs ("insert extends beyond delta data")))
      else
        applyDeltaLoop baseData fuel (rest.drop instruction)
          (result ++ rest.take instruction)
    else .error (.errorMsg (bs ("invalid delta instruction: 0")))

/-- PackProcessor.applyDelta: reject an empty delta, check the declared
base size against the actual base, read the declared result size (whose
sign bit set would panic Go's make), run the instruction loop, and check
the final length against the declared result size. -/
def applyDelta (baseData deltaData : Bytes) : Except Gerr Bytes :=
  if deltaData.length = 0 then .error (.errorMsg (bs ("empty delta data")))
  else
    let p1 := readDeltaSize0 deltaData
    if p1.1 ≠ baseData.length then
      .error (.errorMsg (bs ("base size mismatch")))
    else
      let p2 := readDeltaSize0 p1.2
      if 9223372036854775808 ≤ p2.1 then .error .panic
      else
        match applyDeltaLoop baseData p2.2.length p2.2 [] with
        | .error e => .error e
        | .ok result =>
          if result.length ≠ p2.1 then
            .error (.errorMsg (bs ("result size mismatch")))
          else .ok result

/-- The instruction semantics as the specification reads: a run of the
remaining delta bytes producing an output suffix.  A copy appends the
selected base range (which must lie inside the base); an insert appends
the next literal bytes; the run ends exactly at the end of the delta.
No rule covers a zero instruction byte. -/
inductive DeltaRun (base : Bytes) : Bytes → Bytes → Prop where
  | done : DeltaRun base [] []
  | copy (instr : Nat) (rest rest2 out : Bytes) (copyOffset copySize : Nat) :
      instr &&& 128 ≠ 0 →
      readCopyOperands instr rest = some (copyOffset, copySize, rest2) →
      copyOffset < base.length → copyOffset + copySize ≤ base.length →
      DeltaRun base rest2 out →
      DeltaRun base (instr :: rest)
        ((base.drop copyOffset).take copySize ++ out)
  | insert (instr : Nat) (rest out : Bytes) :
      instr &&& 128 = 0 → instr ≠ 0 → instr ≤ rest.length →
      DeltaRun base (rest.drop instr) out →
      DeltaRun base (instr :: rest) (rest.take instr ++ out)

theorem pullIf_length (c : Bool) (s : Bytes) (v : Nat) (s2 : Bytes)
    (h : pullIf c s = some (v, s2)) : s2.length ≤ s.length := by
  cases c with
  | false =>
    simp only [pullIf, Bool.false_eq_true, if_false, Option.some.injEq,
      Prod.mk.injEq] at h
    rw [← h.2]
  | true =>
    cases s with
    | nil => simp [pullIf] at h
    | cons b r =>
      simp only [pullIf, if_true, Option.some.injEq, Prod.mk.injEq] at h
      rw [← h.2]
      simp

theorem readCopyOperands_length (instr : Nat) (s : Bytes)
    (off sz : Nat) (s2 : Bytes)
    (h : readCopyOperands instr s = some (off, sz, s2)) :
    s2.length ≤ s.length ∧ 1 ≤ sz := by
  simp only [readCopyOperands, bind, Option.bind_eq_some, pure,
    Option.some.injEq, Prod.mk.injEq] at h
  obtain ⟨⟨o0, t0⟩, h0, ⟨o1, t1⟩, h1, ⟨o2, t2⟩, h2, ⟨o3, t3⟩, h3,
    ⟨s0, t4⟩, h4, ⟨s1, t5⟩, h5, ⟨s2v, t6⟩, h6, hoff, hsz, hs⟩ := h
  simp only at h0 h1 h2 h3 h4 h5 h6 hoff hsz hs
  constructor
  · calc s2.length = t6.length := by rw [hs]
    _ ≤ t5.length := pullIf_length _ _ _ _ h6
    _ ≤ t4.length := pullIf_length _ _ _ _ h5
    _ ≤ t3.length := pullIf_length _ _ _ _ h4
    _ ≤ t2.length := pullIf_length _ _ _ _ h3
    _ ≤ t1.length := pullIf_length _ _ _ _ h2
    _ ≤ t0.length := pullIf_length _ _ _ _ h1
    _ ≤ s.length := pullIf_length _ _ _ _ h0
  · rw [← hsz]
    by_cases h0sz : s0 ||| (s1 <<< 8) ||| (s2v <<< 16) = 0
    · rw [if_pos h0sz]
      omega
    · rw [if_neg h0sz]
      exact Nat.pos_of_ne_zero h0sz

/-- The instruction loop succeeds exactly on the instruction sequences
accepted by the DeltaRun relation, producing the dictated bytes. -/
theorem applyDeltaLoop_run (base : Bytes) :
    ∀ (fuel : Nat) (remaining acc out : Bytes), remaining.length ≤ fuel →
      (applyDeltaLoop base fuel remaining acc = .ok out ↔
        ∃ suffix, DeltaRun base remaining suffix ∧ out = acc ++ suffix) := by
  intro fuel
  induction fuel with
  | zero =>
    intro remaining acc out hlen
    cases remaining with
    | nil =>
      simp only [applyDeltaLoop]
      constructor
      · intro h
        exact ⟨[], .done, by simpa using (Except.ok.inj h).symm⟩
      · rintro ⟨suffix, hrun, hout⟩
        cases hrun
        simp only [List.append_nil] at hout
        rw [hout]
    | cons instruction rest => simp at hlen
  | succ fuel ih =>
    intro remaining acc out hlen
    cases remaining with
    | nil =>
      simp only [applyDeltaLoop]
      constructor
      · intro h
        exact ⟨[], .done, by simpa using (Except.ok.inj h).symm⟩
      · rintro ⟨suffix, hrun, hout⟩
        cases hrun
        simp only [List.append_nil] at hout
        rw [hout]
    | cons instruction rest =>
      simp only [List.length_cons, Nat.add_le_add_iff_right] at hlen
      simp only [applyDeltaLoop]
      by_cases hhi : instruction &&& 128 ≠ 0
      · rw [if_pos hhi]
        cases hop : readCopyOperands instruction rest with
        | none =>
          constructor
          · intro h
            exact absurd h (by simp)
          · rintro ⟨suffix, hrun, hout⟩
            cases hrun with
            | copy _ _ rest2 out2 co cs hhi2 hop2 hlt hle hrun2 =>
              rw [hop] at hop2
              exact absurd hop2 (by simp)
            | insert _ _ out2 hlo h0 hle hrun2 =>
              exact absurd hlo hhi
        | some ops =>
          obtain ⟨co, cs, rest2⟩ := ops
          obtain ⟨hr2len, hcs1⟩ := readCopyOperands_length _ _ _ _ _ hop
          show (if base.length ≤ co ∨ base.length < co + cs then
              Except.error (Gerr.errorMsg (bs ("invalid copy operation")))
            else applyDeltaLoop base fuel rest2
              (acc ++ (base.drop co).take cs)) = Except.ok out ↔
            ∃ suffix, DeltaRun base (instruction :: rest) suffix ∧
              out = acc ++ suffix
          by_cases hbound : base.length ≤ co ∨ base.length < co + cs
          · rw [if_pos hbound]
            constructor
            · intro h
              exact absurd h (by simp)
            · rintro ⟨suffix, hrun, hout⟩
              cases hrun with
              | copy _ _ rest2x out2 cox csx hhi2 hop2 hlt hle hrun2 =>
                rw [hop] at hop2
                injection hop2 with hh
                have hco : co = cox := congrArg Prod.fst hh
                have hcs : cs = csx :=
                  congrArg Prod.fst (congrArg Prod.snd hh)
                subst hco
                subst hcs
                omega
              | insert _ _ out2 hlo h0 hle hrun2 =>
                exact absurd hlo hhi
          · rw [if_neg hbound]
            rw [ih rest2 (acc ++ (base.drop co).take cs) out
              (le_trans hr2len hlen)]
            constructor
            · rintro ⟨sfx, hrun, hout⟩
              refine ⟨(base.drop co).take cs ++ sfx,
                .copy instruction rest rest2 sfx co cs hhi hop
                  (by omega) (by omega) hrun, ?_⟩
              rw [hout, List.append_assoc]
            · rintro ⟨suffix, hrun, hout⟩
              cases hrun with
              | copy _ _ rest2x out2 cox csx hhi2 hop2 hlt hle hrun2 =>
                rw [hop] at hop2
                injection hop2 with hh
                obtain ⟨hco, hrest⟩ : co = cox ∧ (cs, rest2) = (csx, rest2x) := by
                  constructor
                  · exact congrArg Prod.fst hh
                  · exact congrArg Prod.snd hh
                obtain ⟨hcs, hr2⟩ : cs = csx ∧ rest2 = rest2x := by
                  constructor
                  · exact congrArg Prod.fst hrest
                  · exact congrArg Prod.snd hrest
                subst hco
                subst hcs
                subst hr2
                refine ⟨out2, hrun2, ?_⟩
                rw [hout, List.append_assoc]
              | insert _ _ out2 hlo h0 hle hrun2 =>
                exact absurd hlo hhi
      · rw [if_neg hhi]
        push_neg at hhi
        by_cases h0 : instruction ≠ 0
        · rw [if_pos h0]
          by_cases hins : rest.length < instruction
          · rw [if_pos hins]
            constructor
            · intro h
              exact absurd h (by simp)
            · rintro ⟨suffix, hrun, hout⟩
              cases hrun with
              | copy _ _ rest2x out2 cox csx hhi2 hop2 hlt hle hrun2 =>
                exact absurd hhi hhi2
              | insert _ _ out2 hlo hz hle hrun2 =>
                omega
          · rw [if_neg hins]
            rw [ih (rest.drop instruction) (acc ++ rest.take instruction) out
              (by simp; omega)]
            constructor
            · rintro ⟨sfx, hrun, hout⟩
              refine ⟨rest.take instruction ++ sfx,
                .insert instruction rest sfx hhi h0 (by omega) hrun, ?_⟩
              rw [hout, List.append_assoc]
            · rintro ⟨suffix, hrun, hout⟩
              cases hrun with
              | copy _ _ rest2x out2 cox csx hhi2 hop2 hlt hle hrun2 =>
                exact absurd hhi hhi2
              | insert _ _ out2 hlo hz hle hrun2 =>
                refine ⟨out2, hrun2, ?_⟩
                rw [hout, List.append_assoc]
        · rw [if_neg h0]
          constructor
          · intro h
            exact absurd h (by simp)
          · rintro ⟨suffix, hrun, hout⟩
            cases hrun with
            | copy _ _ rest2x out2 cox csx hhi2 hop2 hlt hle hrun2 =>
              exact absurd hhi hhi2
            | insert _ _ out2 hlo hz hle hrun2 =>
              exact absurd hz h0

/-- Claim C3: the delta applier succeeds exactly when, after the two
declared sizes, the instruction bytes form a valid run — copy
instructions (high bit set, selective little-endian operands, zero copy
size meaning 0x10000) and non-zero insert instructions — whose output is
the dictated byte sequence of the declared result length and whose
declared base size is the actual base length; a zero instruction byte, a
base size mismatch, or a result length mismatch is an error. -/
theorem c3_apply_delta_correct :
    (∀ (baseData deltaData out : Bytes),
      applyDelta baseData deltaData = .ok out ↔
        (deltaData ≠ [] ∧
         (readDeltaSize0 deltaData).1 = baseData.length ∧
         (readDeltaSize0 (readDeltaSize0 deltaData).2).1 <
           9223372036854775808 ∧
         DeltaRun baseData (readDeltaSize0 (readDeltaSize0 deltaData).2).2
           out ∧
         out.length = (readDeltaSize0 (readDeltaSize0 deltaData).2).1)) ∧
    (∀ (baseData deltaData : Bytes), deltaData ≠ [] →
      (readDeltaSize0 deltaData).1 ≠ baseData.length →
      applyDelta baseData deltaData =
        .error (.errorMsg (bs ("base size mismatch")))) := by
  constructor
  · intro base delta out
    simp only [applyDelta]
    by_cases hemp : delta.length = 0
    · rw [if_pos hemp]
      constructor
      · intro h
        exact absurd h (by simp)
      · rintro ⟨hne, _⟩
        exact absurd (List.length_eq_zero.mp hemp) hne
    · rw [if_neg hemp]
      by_cases hbs : (readDeltaSize0 delta).1 ≠ base.length
      · rw [if_pos hbs]
        constructor
        · intro h
          exact absurd h (by simp)
        · rintro ⟨_, hb, _⟩
          exact absurd hb hbs
      · rw [if_neg hbs]
        push_neg at hbs
        by_cases hbig : 9223372036854775808 ≤
            (readDeltaSize0 (readDeltaSize0 delta).2).1
        · rw [if_pos hbig]
          constructor
          · intro h
            exact absurd h (by simp)
          · rintro ⟨_, _, hlt, _⟩
            omega
        · rw [if_neg hbig]
          have hrun := applyDeltaLoop_run base
            (readDeltaSize0 (readDeltaSize0 delta).2).2.length
            (readDeltaSize0 (readDeltaSize0 delta).2).2 [] out (le_refl _)
          cases hloop : applyDeltaLoop base
              (readDeltaSize0 (readDeltaSize0 delta).2).2.length
              (readDeltaSize0 (readDeltaSize0 delta).2).2 [] with
          | error e =>
            constructor
            · intro h
              exact absurd h (by simp)
            · rintro ⟨_, _, _, hr, hl⟩
              have : applyDeltaLoop base
                  (readDeltaSize0 (readDeltaSize0 delta).2).2.length
                  (readDeltaSize0 (readDeltaSize0 delta).2).2 [] =
                  Except.ok out :=
                hrun.mpr ⟨out, hr, by simp⟩
              rw [hloop] at this
              exact absurd this (by simp)
          | ok result =>
            show (if result.length ≠
                (readDeltaSize0 (readDeltaSize0 delta).2).1 then
                Except.error (Gerr.errorMsg (bs ("result size mismatch")))
              else Except.ok result) = Except.ok out ↔ _
            by_cases hsz : result.length ≠
                (readDeltaSize0 (readDeltaSize0 delta).2).1
            · rw [if_pos hsz]
              constructor
              · intro h
                exact absurd h (by simp)
              · rintro ⟨_, _, _, hr, hl⟩
                have hok : applyDeltaLoop base
                    (readDeltaSize0 (readDeltaSize0 delta).2).2.length
                    (readDeltaSize0 (readDeltaSize0 delta).2).2 [] =
                    Except.ok out :=
                  hrun.mpr ⟨out, hr, by simp⟩
                rw [hloop] at hok
                have : out = result := (Except.ok.inj hok).symm
                rw [this] at hl
                exact absurd hl hsz
            · rw [if_neg hsz]
              push_neg at hsz
              constructor
              · intro h
                have hres : result = out := Except.ok.inj h
                subst hres
                obtain ⟨suffix, hr, hout⟩ := hrun.mp hloop
                simp only [List.nil_append] at hout
                subst hout
                exact ⟨fun he => hemp (by rw [he]; rfl), hbs, by omega,
                  hr, hsz⟩
              · rintro ⟨_, _, _, hr, hl⟩
                have hok : applyDeltaLoop base
                    (readDeltaSize0 (readDeltaSize0 delta).2).2.length
                    (readDeltaSize0 (readDeltaSize0 delta).2).2 [] =
                    Except.ok out :=
                  hrun.mpr ⟨out, hr, by simp⟩
                rw [hloop] at hok
                rw [Except.ok.inj hok]
  · intro base delta hne hbs
    simp only [applyDelta]
    rw [if_neg (fun h => hne (List.length_eq_zero.mp h)), if_pos hbs]

/-- Witness for C3: a wrong declared base size is rejected, and a
two-size header followed by one insert instruction reproduces the
literal bytes. -/
theorem c3_witness :
    applyDelta [7, 8] [9, 0] =
      .error (.errorMsg (bs ("base size mismatch"))) ∧
    applyDelta [7, 8, 9] [3, 4, 4, 10, 11, 12, 13] =
      .ok ([10, 11, 12, 13] ++ []) := by
  constructor
  · exact c3_apply_delta_correct.2 [7, 8] [9, 0] (by decide) (by decide)
  · exact (c3_apply_delta_correct.1 [7, 8, 9] [3, 4, 4, 10, 11, 12, 13]
      ([10, 11, 12, 13] ++ [])).mpr
      ⟨by decide, by decide, by decide,
       DeltaRun.insert 4 [10, 11, 12, 13] [] (by decide) (by decide)
         (by decide) DeltaRun.done,
       by decide⟩

/-! ## Pack delta resolution (src/pack/pack.go)

PackProcessor.resolveDelta and PackProcessor.resolveAllDeltas.  The Go
caches hold pointers to shared PackObject structs, so the in-place
mutation performed by a successful resolveDelta is visible through the
offset-keyed object cache as well; the model makes that explicit by
writing the resolved object back into both caches.  Go map iteration
order is unspecified; the model fixes the list order, one admissible
order. -/

/-- An in-memory pack object (the PackObject struct). -/
structure PackObject where
  typ : Bytes
  size : Int
  data : Bytes
  hash : Bytes
  offset : Int
  deltaBaseHash : Bytes
  deltaOffset : Int
  isDelta : Bool
  packType : Nat
  rawData : Bytes
deriving DecidableEq

/-- Go map assignment for an arbitrary association list. -/
def amset {α β : Type} [DecidableEq α] (m : List (α × β)) (k : α) (v : β) :
    List (α × β) :=
  (k, v) :: m.filter (fun p => decide (p.1 ≠ k))

/-- The two caches of the pack processor: objects by starting offset and
resolved objects by hash. -/
structure ResolveState where
  objectCache : List (Int × PackObject)
  resolvedCache : List (Bytes × PackObject)
deriving DecidableEq

/-- The tail of PackProcessor.resolveDelta: apply the delta to the base
and fill in the resolved data, type, size and identity hash. -/
def finishDelta (base delta : PackObject) : Except Gerr PackObject :=
  match applyDelta base.data delta.rawData with
  | .error _ => .error (.errorMsg (bs ("failed to apply delta")))
  | .ok d2 =>
    .ok (PackObject.mk base.typ (d2.length : Int) d2
      (computeObjectHash base.typ d2) delta.offset delta.deltaBaseHash
      delta.deltaOffset delta.isDelta delta.packType delta.rawData)

/-- PackProcessor.resolveDelta: an offset-delta finds its base in the
object cache (requiring a delta base to be already resolved), a ref-delta
finds it in the resolved cache or, failing that, in the local repository;
then the delta is applied. -/
def resolveDelta (st : ResolveState)
    (repoLoad : Bytes → Option (Bytes × Int × Bytes)) (delta : PackObject) :
    Except Gerr PackObject :=
  if delta.packType = 6 then
    match st.objectCache.lookup delta.deltaOffset with
    | none => .error (.errorMsg (bs ("base object not found at offset")))
    | some b =>
      if b.isDelta ∧ st.resolvedCache.lookup b.hash = none then
        .error (.errorMsg (bs ("base object not yet resolved")))
      else
        match (if b.isDelta then st.resolvedCache.lookup b.hash else some b) with
        | none => .error (.errorMsg (bs ("could not find base object")))
        | some base => finishDelta base delta
  else if delta.packType = 7 then
    match st.resolvedCache.lookup delta.deltaBaseHash with
    | some base => finishDelta base delta
    | none =>
      match repoLoad delta.deltaBaseHash with
      | none => .error (.errorMsg (bs ("base object not found")))
      | some (t, sz, d) =>
        finishDelta (PackObject.mk t sz d delta.deltaBaseHash 0 [] 0
          false 0 []) delta
  else .error (.errorMsg (bs ("could not find base object")))

/-- One sweep over the pending deltas: resolved deltas enter both caches
(through the shared pointer, the object cache sees the update too);
failed ones are kept, in order, for the next sweep. -/
def sweepDeltas (repoLoad : Bytes → Option (Bytes × Int × Bytes)) :
    List PackObject → ResolveState → List PackObject × ResolveState
  | [], st => ([], st)
  | d :: ds, st =>
    match resolveDelta st repoLoad d with
    | .ok r =>
      sweepDeltas repoLoad ds
        ⟨amset st.objectCache r.offset r, amset st.resolvedCache r.hash r⟩
    | .error _ =>
      let (rem, st2) := sweepDeltas repoLoad ds st
      (d :: rem, st2)

/-- The iteration of PackProcessor.resolveAllDeltas: sweep until no
deltas remain, fail when a full sweep makes no progress, and fail with
the residual-count error if the iteration budget runs out first. -/
def resolveLoop (repoLoad : Bytes → Option (Bytes × Int × Bytes)) :
    Nat → List PackObject → ResolveState → Except Gerr ResolveState
  | 0, deltas, st =>
    if deltas = [] then .ok st
    else .error (.errorMsg (bs ("failed to resolve delta objects")))
  | fuel + 1, deltas, st =>
    if deltas = [] then .ok st
    else
      match sweepDeltas repoLoad deltas st with
      | (remaining, st2) =>
        if remaining.length = deltas.length then
          .error (.errorMsg (bs ("circular or missing delta dependencies")))
        else resolveLoop repoLoad fuel remaining st2

/-- PackProcessor.resolveAllDeltas: split the parsed objects into
non-deltas (marked resolved immediately) and deltas, then iterate with
the budget of one sweep per delta plus one. -/
def resolveAllDeltas (repoLoad : Bytes → Option (Bytes × Int × Bytes))
    (objectCache : List (Int × PackObject)) : Except Gerr ResolveState :=
  let nonDeltas := (objectCache.map Prod.snd).filter (fun o => !o.isDelta)
  let deltas := (objectCache.map Prod.snd).filter (fun o => o.isDelta)
  resolveLoop repoLoad (deltas.length + 1) deltas
    ⟨objectCache, nonDeltas.foldl (fun m o => amset m o.hash o) []⟩

theorem sweepDeltas_length (repoLoad : Bytes → Option (Bytes × Int × Bytes)) :
    ∀ (ds : List PackObject) (st : ResolveState),
      (sweepDeltas repoLoad ds st).1.length ≤ ds.length
  | [], _ => le_refl _
  | d :: ds, st => by
    simp only [sweepDeltas]
    cases resolveDelta st repoLoad d with
    | ok r =>
      exact le_trans (sweepDeltas_length repoLoad ds _) (Nat.le_succ _)
    | error e =>
      simp only [List.length_cons]
      exact Nat.succ_le_succ (sweepDeltas_length repoLoad ds st)

theorem resolveLoop_no_fuel_exhaustion
    (repoLoad : Bytes → Option (Bytes × Int × Bytes)) :
    ∀ (fuel : Nat) (deltas : List PackObject) (st : ResolveState),
      deltas.length < fuel →
      (∃ st2, resolveLoop repoLoad fuel deltas st = .ok st2) ∨
      resolveLoop repoLoad fuel deltas st =
        .error (.errorMsg (bs ("circular or missing delta dependencies"))) := by
  intro fuel
  induction fuel with
  | zero =>
    intro deltas st h
    omega
  | succ fuel ih =>
    intro deltas st h
    by_cases hd : deltas = []
    · exact Or.inl ⟨st, by simp [resolveLoop, hd]⟩
    · simp only [resolveLoop, if_neg hd]
      by_cases hprog : (sweepDeltas repoLoad deltas st).1.length =
          deltas.length
      · right
        rw [hprog]
        simp
      · have hlt : (sweepDeltas repoLoad deltas st).1.length <
            deltas.length :=
          lt_of_le_of_ne (sweepDeltas_length repoLoad deltas st) hprog
        have := ih (sweepDeltas repoLoad deltas st).1
          (sweepDeltas repoLoad deltas st).2 (by omega)
        rcases this with ⟨st2, hok⟩ | herr
        · left
          refine ⟨st2, ?_⟩
          rw [← hok]
          rw [if_neg hprog]
        · right
          rw [← herr]
          rw [if_neg hprog]

/-! ## Objects: data model, serialization and parsing
(src/internal/core/objects/types.go, src/objects/parser.go)

Go time.Time values carry a location; every signature this program
constructs uses the process-local zone (time.Now, time.Unix), so a
signature is modelled by its Unix seconds together with one shared
rendering function loc, modelling When.Format of the -0700 zone offset
at that instant in the local zone. -/

/-- A tree entry (mode, name, hash as a 40-hex string). -/
structure TreeEntry where
  mode : Nat
  name : Bytes
  hash : Bytes
deriving DecidableEq

/-- An author or committer signature: name, email, Unix seconds. -/
structure Signature where
  name : Bytes
  email : Bytes
  whenUnix : Int
deriving DecidableEq

/-- A commit object. -/
structure CommitObj where
  tree : Bytes
  parents : List Bytes
  author : Signature
  committer : Signature
  message : Bytes
deriving DecidableEq

/-- The object sum (the Object interface over Blob, Tree, Commit; tags
are accepted by the type discriminator but never constructed here). -/
inductive GoObj where
  | blob (content : Bytes)
  | tree (entries : List TreeEntry)
  | commit (c : CommitObj)
deriving DecidableEq

/-- Big-endian octal digit characters of a positive number, by fuel. -/
def octChars : Nat → Nat → Bytes
  | 0, _ => []
  | fuel + 1, n => if n = 0 then [] else octChars fuel (n / 8) ++ [48 + n % 8]

/-- Octal digit characters of a number (fmt %o). -/
def octal (n : Nat) : Bytes := if n = 0 then [48] else octChars n n

/-- FileMode.String: fmt %06o, zero-padded to at least six digits. -/
def modeString (m : Nat) : Bytes :=
  List.replicate (6 - (octal m).length) 48 ++ octal m

/-- fmt %d of an int64. -/
def decimalInt (i : Int) : Bytes :=
  if i < 0 then 45 :: decimal (-i).toNat else decimal i.toNat

/-- Signature.String: "name <email> unix zoneoffset", with the zone
offset rendered by the process-local rule loc. -/
def sigString (loc : Int → Bytes) (s : Signature) : Bytes :=
  s.name ++ bs (" <") ++ s.email ++ bs ("> ") ++ decimalInt s.whenUnix ++
    bs (" ") ++ loc s.whenUnix

/-- fmt.Sscanf with %02x on a two-character slice: the parsed hex prefix
(one or two digits), or zero when the first character is not hex (a scan
error leaves the output variable at zero). -/
def sscanHexPair (c1 c2 : Nat) : Nat :=
  match hexDigitVal c1 with
  | none => 0
  | some hi =>
    match hexDigitVal c2 with
    | none => hi
    | some lo => hi * 16 + lo

/-- The 20 raw hash bytes of a tree entry, scanned pairwise from its hex
string (Tree.Data's conversion loop). -/
def scanPairs : Nat → Bytes → Bytes
  | 0, _ => []
  | n + 1, c1 :: c2 :: rest => sscanHexPair c1 c2 :: scanPairs n rest
  | _ + 1, _ => []

/-- Tree.Data: each entry is "<mode> <name>NUL" plus 20 raw hash bytes;
Go slices the hash string pairwise, panicking (none) when it is shorter
than 40 characters. -/
def treeData : List TreeEntry → Option Bytes
  | [] => some []
  | e :: es =>
    if e.hash.length < 40 then none
    else
      match treeData es with
      | none => none
      | some rest =>
        some (modeString e.mode ++ [32] ++ e.name ++ [0] ++
          scanPairs 20 e.hash ++ rest)

/-- Tree.Size: the serialized length, summed per entry. -/
def treeSize (es : List TreeEntry) : Nat :=
  es.foldl
    (fun acc e => acc + ((modeString e.mode).length + 1 + e.name.length +
      1 + 20)) 0

/-- Commit.Data: tree and parent headers, author, committer, a blank
line, then the message. -/
def commitData (loc : Int → Bytes) (c : CommitObj) : Bytes :=
  bs ("tree ") ++ c.tree ++ [10] ++
    (c.parents.map (fun p => bs ("parent ") ++ p ++ [10])).flatten ++
    bs ("author ") ++ sigString loc c.author ++ [10] ++
    bs ("committer ") ++ sigString loc c.committer ++ [10] ++ [10] ++
    c.message

/-- Commit.Size: the summed header and message lengths. -/
def commitSize (loc : Int → Bytes) (c : CommitObj) : Nat :=
  (5 + c.tree.length + 1) +
    (c.parents.foldl (fun acc p => acc + (7 + p.length + 1)) 0) +
    (7 + (sigString loc c.author).length + 1) +
    (10 + (sigString loc c.committer).length + 1) +
    (1 + c.message.length)

/-- Object.Type as its on-disk string. -/
def objTypeB : GoObj → Bytes
  | .blob _ => bs ("blob")
  | .tree _ => bs ("tree")
  | .commit _ => bs ("commit")

/-- Object.Size. -/
def objSize (loc : Int → Bytes) : GoObj → Nat
  | .blob content => content.length
  | .tree es => treeSize es
  | .commit c => commitSize loc c

/-- Object.Data; none is the Go panic on a short tree-entry hash. -/
def objData (loc : Int → Bytes) : GoObj → Option Bytes
  | .blob content => some content
  | .tree es => treeData es
  | .commit c => some (commitData loc c)

/-- objects.SerializeObject: the canonical header "<type> <size>NUL"
followed by the payload. -/
def serializeObject (loc : Int → Bytes) (obj : GoObj) : Option Bytes :=
  match objData loc obj with
  | none => none
  | some d =>
    some (objTypeB obj ++ [32] ++ decimal (objSize loc obj) ++ [0] ++ d)

theorem decChars_foldl : ∀ (fuel n : Nat) (acc : Nat), n ≤ fuel →
    (decChars fuel n).foldl (fun a d => a * 10 + (d - 48)) acc =
      acc * 10 ^ (decChars fuel n).length + n
  | 0, n, acc, h => by
    simp only [decChars, List.foldl, List.length_nil, pow_zero]
    omega
  | fuel + 1, n, acc, h => by
    by_cases hn : n = 0
    · simp [decChars, hn]
    · have hrec := decChars_foldl fuel (n / 10) acc (by omega)
      simp only [decChars, if_neg hn, List.foldl_append, List.foldl,
        List.length_append, List.length_cons, List.length_nil, hrec]
      have : (48 + n % 10) - 48 = n % 10 := by omega
      rw [this, pow_succ]
      have hmod := Nat.div_add_mod n 10
      ring_nf
      omega

theorem decChars_digits : ∀ (fuel n : Nat),
    (decChars fuel n).all (fun d => 48 ≤ d && d ≤ 57) = true
  | 0, _ => rfl
  | fuel + 1, n => by
    by_cases hn : n = 0
    · simp [decChars, hn]
    · simp only [decChars, if_neg hn, List.all_append,
        decChars_digits fuel (n / 10)]
      simp
      omega

/-- Split at the first occurrence of a byte, consuming it; none when the
byte does not occur (bytes.IndexByte returning -1). -/
def cutByte (sep : Nat) : Bytes → Option (Bytes × Bytes)
  | [] => none
  | b :: rest =>
    if b = sep then some ([], rest)
    else
      match cutByte sep rest with
      | none => none
      | some (p, r) => some (b :: p, r)

/-- strconv.ParseUint(s, 8, 32): octal digits only, nonempty, value
below 2^32. -/
def parseFileMode (s : Bytes) : Option Nat :=
  if s = [] then none
  else if s.all (fun c => 48 ≤ c && c ≤ 55) then
    if s.foldl (fun a c => a * 8 + (c - 48)) 0 < 4294967296 then
      some (s.foldl (fun a c => a * 8 + (c - 48)) 0)
    else none
  else none

/-- strconv.ParseInt(s, 10, 64): optional sign, decimal digits, 64-bit
signed range. -/
def parseDecInt (s : Bytes) : Option Int :=
  match s with
  | [] => none
  | c :: rest =>
    let neg := c = 45
    let digits := if c = 45 ∨ c = 43 then rest else c :: rest
    if digits = [] then none
    else if digits.all (fun d => 48 ≤ d && d ≤ 57) then
      let v : Nat := digits.foldl (fun a d => a * 10 + (d - 48)) 0
      if neg then
        if v ≤ 9223372036854775808 then some (-(v : Int)) else none
      else
        if v < 9223372036854775808 then some (v : Int) else none
    else none

theorem parseDecInt_decimal (n : Nat) (h : n < 9223372036854775808) :
    parseDecInt (decimal n) = some (n : Int) := by
  by_cases hn : n = 0
  · subst hn
    decide
  · simp only [decimal, if_neg hn]
    have hne : decChars n n ≠ [] := by
      cases hfn : n with
      | zero => exact absurd hfn hn
      | succ m =>
        simp only [decChars, if_neg hn]
        simp
    obtain ⟨c, rest, hcr⟩ := List.exists_cons_of_ne_nil hne
    rw [hcr]
    have hdig : (c :: rest).all (fun d => 48 ≤ d && d ≤ 57) = true := by
      rw [← hcr]
      exact decChars_digits n n
    have hfold : (c :: rest).foldl (fun a d => a * 10 + (d - 48)) 0 = n := by
      rw [← hcr]
      have := decChars_foldl n n 0 (le_refl n)
      simpa using this
    have hc48 : 48 ≤ c ∧ c ≤ 57 := by
      simp only [List.all_cons, Bool.and_eq_true, decide_eq_true_eq] at hdig
      exact hdig.1
    simp only [parseDecInt]
    rw [if_neg (by omega : ¬ (c = 45 ∨ c = 43))]
    simp only [reduceCtorEq, if_false]
    rw [if_pos hdig]
    simp only [hfold]
    rw [if_neg (by omega : ¬ c = 45)]
    rw [if_pos (by omega)]

theorem parseDecInt_decimalInt (i : Int)
    (hlo : -9223372036854775808 ≤ i) (hhi : i < 9223372036854775808) :
    parseDecInt (decimalInt i) = some i := by
  by_cases hneg : i < 0
  · simp only [decimalInt, if_pos hneg]
    have hn0 : (-i).toNat ≠ 0 := by omega
    simp only [decimal, if_neg hn0]
    have hne : decChars (-i).toNat (-i).toNat ≠ [] := by
      cases hfn : (-i).toNat with
      | zero => exact absurd hfn hn0
      | succ m =>
        simp only [decChars, if_neg hn0]
        simp
    obtain ⟨c, rest, hcr⟩ := List.exists_cons_of_ne_nil hne
    rw [hcr]
    have hdig : (c :: rest).all (fun d => 48 ≤ d && d ≤ 57) = true := by
      rw [← hcr]
      exact decChars_digits _ _
    have hfold : (c :: rest).foldl (fun a d => a * 10 + (d - 48)) 0 =
        (-i).toNat := by
      rw [← hcr]
      have := decChars_foldl (-i).toNat (-i).toNat 0 (le_refl _)
      simpa using this
    show parseDecInt (45 :: c :: rest) = some i
    simp only [parseDecInt, true_or, if_true]
    rw [if_neg (by simp : ¬ (c :: rest : Bytes) = [])]
    rw [if_pos hdig]
    simp only [hfold]
    rw [if_pos (by omega)]
    congr 1
    omega
  · simp only [decimalInt, if_neg hneg]
    have := parseDecInt_decimal i.toNat (by omega)
    rw [this]
    congr 1
    omega

/-- objects.ParseObjectHeader: cut at the first NUL, split the header at
its first space into type and size, validate the type, parse the size
and require it to equal the remaining content length. -/
def parseObjectHeaderB (data : Bytes) : Except Gerr (Bytes × Int × Bytes) :=
  match cutByte 0 data with
  | none => .error .invalidObjectFormat
  | some (header, content) =>
    match cutByte 32 header with
    | none => .error .invalidObjectFormat
    | some (typStr, sizeStr) =>
      if typStr = bs ("blob") ∨ typStr = bs ("tree") ∨
          typStr = bs ("commit") ∨ typStr = bs ("tag") then
        match parseDecInt sizeStr with
        | none => .error (.errorMsg (bs ("invalid object size")))
        | some size =>
          if (content.length : Int) = size then .ok (typStr, size, content)
          else .error (.errorMsg (bs ("object size mismatch")))
      else .error .invalidObjectType

/-- The parseTree loop: read "<mode> <name>NUL<20 raw bytes>" entries
until the data is exhausted.  The searches for the space and NUL
separators scan the whole remainder, as bytes.IndexByte does.  Fuel is
the remaining length; every entry consumes at least 22 bytes. -/
def parseTreeLoop : Nat → Bytes → Except Gerr (List TreeEntry)
  | _, [] => .ok []
  | 0, _ :: _ => .error .panic
  | fuel + 1, b :: rest =>
    match cutByte 32 (b :: rest) with
    | none => .error (.errorMsg (bs ("failed to find space separator")))
    | some (modeStr, afterSpace) =>
      match parseFileMode modeStr with
      | none => .error (.errorMsg (bs ("invalid file mode")))
      | some mode =>
        match cutByte 0 afterSpace with
        | none => .error (.errorMsg (bs ("failed to find null separator")))
        | some (name, afterNul) =>
          if afterNul.length < 20 then
            .error (.errorMsg (bs ("insufficient data for hash")))
          else
            match parseTreeLoop fuel (afterNul.drop 20) with
            | .error e => .error e
            | .ok es =>
              .ok (TreeEntry.mk mode name (hexEncode (afterNul.take 20)) :: es)

/-- objects.parseTree. -/
def parseTree (data : Bytes) : Except Gerr (List TreeEntry) :=
  parseTreeLoop data.length data

/-- bufio.ScanLines per-line carriage-return strip: one trailing CR is
removed. -/
def dropCR (l : Bytes) : Bytes :=
  if l.getLast? = some 13 then l.dropLast else l

/-- Split on a separator byte, keeping empty segments. -/
def splitOnByte (sep : Nat) : Bytes → List Bytes
  | [] => [[]]
  | b :: rest =>
    if b = sep then [] :: splitOnByte sep rest
    else
      match splitOnByte sep rest with
      | [] => [[b]]
      | l :: ls => (b :: l) :: ls

/-- The raw line segments bufio.Scanner walks with ScanLines:
newline-separated (CR still attached), with no empty final segment after
a trailing newline. -/
def scanSegments (d : Bytes) : List Bytes :=
  let parts := splitOnByte 10 d
  if parts.getLast? = some [] then parts.dropLast else parts

/-- bufio.Scanner with ScanLines over the whole input: the tokens
produced (each segment stripped of one trailing CR), truncated at the
first segment of MaxScanTokenSize (64 KiB) bytes or more, paired with
whether scanning stopped there with ErrTooLong instead of reaching the
end of the input. -/
def scanLinesT (d : Bytes) : List Bytes × Bool :=
  match (scanSegments d).findIdx? (fun l => decide (65536 ≤ l.length)) with
  | none => ((scanSegments d).map dropCR, false)
  | some k => (((scanSegments d).take k).map dropCR, true)

/-- The byte values Go's unicode.IsSpace accepts within ASCII. -/
def isSpaceB (c : Nat) : Bool :=
  c == 32 || c == 9 || c == 10 || c == 11 || c == 12 || c == 13

/-- strings.TrimSpace (ASCII range; this program's signatures are built
from ASCII-rendered components). -/
def trimSpace (l : Bytes) : Bytes :=
  ((l.dropWhile isSpaceB).reverse.dropWhile isSpaceB).reverse

/-- objects.ParseSignature: locate the first angle-bracket pair, trim
the name before it, take the email between them, then split the trimmed
remainder on spaces into at least a timestamp (parsed as int64) and a
zone field. -/
def parseSignatureB (data : Bytes) : Except Gerr Signature :=
  if data = [] then .error .invalidCommit
  else
    match data.findIdx? (fun c => c == 60), data.findIdx? (fun c => c == 62) with
    | some emailStart, some emailEnd =>
      if emailEnd ≤ emailStart then
        .error (.errorMsg (bs ("invalid email format in signature")))
      else
        let name := trimSpace (data.take emailStart)
        let email := (data.take emailEnd).drop (emailStart + 1)
        let timeParts := splitOnByte 32 (trimSpace (data.drop (emailEnd + 1)))
        if timeParts.length < 2 then
          .error (.errorMsg (bs ("invalid time format in signature")))
        else
          match parseDecInt (timeParts.getD 0 []) with
          | none => .error (.errorMsg (bs ("invalid timestamp")))
          | some ts => .ok (Signature.mk name email ts)
    | _, _ => .error (.errorMsg (bs ("invalid email format in signature")))

/-- The running state of the parseCommit line fold. -/
structure CommitParseState where
  tree : Bytes
  parents : List Bytes
  author : Option Signature
  committer : Option Signature
  msgLines : List Bytes
  inMessage : Bool

/-- The parseCommit line loop: header lines split at the first space and
dispatched on the key (unknown keys ignored), a blank line switches to
message mode, and message lines are collected verbatim. -/
def parseCommitLines : List Bytes → CommitParseState →
    Except Gerr CommitParseState
  | [], st => .ok st
  | line :: rest, st =>
    if st.inMessage then
      parseCommitLines rest
        { st with msgLines := st.msgLines ++ [line] }
    else if line = [] then
      parseCommitLines rest { st with inMessage := true }
    else
      match cutByte 32 line with
      | none => .error (.errorMsg (bs ("invalid commit line")))
      | some (key, value) =>
        if key = bs ("tree") then
          parseCommitLines rest { st with tree := value }
        else if key = bs ("parent") then
          parseCommitLines rest { st with parents := st.parents ++ [value] }
        else if key = bs ("author") then
          match parseSignatureB value with
          | .error _ => .error (.errorMsg (bs ("invalid author signature")))
          | .ok sig => parseCommitLines rest { st with author := some sig }
        else if key = bs ("committer") then
          match parseSignatureB value with
          | .error _ =>
            .error (.errorMsg (bs ("invalid committer signature")))
          | .ok sig => parseCommitLines rest { st with committer := some sig }
        else parseCommitLines rest st

/-- objects.parseCommit: fold the scanner's tokens (the lines before a
too-long line stops the scanner), then surface the scanner's ErrTooLong
if it stopped early, then require a tree and both signatures; the
message is the remaining lines joined with newlines. -/
def parseCommitB (data : Bytes) : Except Gerr CommitObj :=
  match parseCommitLines (scanLinesT data).1
      (CommitParseState.mk [] [] none none [] false) with
  | .error e => .error e
  | .ok st =>
    if (scanLinesT data).2 then
      .error (.errorMsg (bs ("failed to parse commit")))
    else if st.tree = [] then .error .invalidCommit
    else
      match st.author, st.committer with
      | some a, some c =>
        .ok (CommitObj.mk st.tree st.parents a c
          (List.intercalate [10] st.msgLines))
      | _, _ => .error .invalidCommit

/-- objects.ParseObject: dispatch on the object type (blob parses as its
raw content; tag is not a constructible object here and is refused by
the dispatcher as in the Go switch). -/
def parseObjectB (typ : Bytes) (content : Bytes) : Except Gerr GoObj :=
  if typ = bs ("blob") then .ok (.blob content)
  else if typ = bs ("tree") then
    match parseTree content with
    | .error e => .error e
    | .ok es => .ok (.tree es)
  else if typ = bs ("commit") then
    match parseCommitB content with
    | .error e => .error e
    | .ok c => .ok (.commit c)
  else .error .invalidObjectType

/-! ## Loose-object store (src/unnamed/part_003) and the raw store of
the pack processor (src/pack/pack.go) over the filesystem model.

zlib compression is the Go standard library; it is a parameter pair
(compress, decompress) with decompression inverting compression where
the round-trip theorems need it. -/

/-- The operations a write path performs, in order. -/
inductive FsOp where
  | mkdirAll (path : Bytes)
  | statOp (path : Bytes)
  | createOp (path : Bytes)
  | writeOp (path : Bytes) (data : Bytes)
  | writeFileOp (path : Bytes) (data : Bytes)
  | renameOp (src dst : Bytes)
deriving DecidableEq

/-- Repository.objectPath: objects/<2 hex>/<38 hex> under the git
directory. -/
def objectPath (gitDir h : Bytes) : Bytes :=
  pjoin (pjoin (pjoin gitDir (bs ("objects"))) (h.take 2)) (h.drop 2)

/-- Repository.StoreObject: serialize, hash, ensure the bucket
directory, return early when the path already exists, otherwise create
the file and write the zlib-compressed bytes.  The result carries the
final filesystem and the operation trace. -/
def storeObject (compress : Bytes → Bytes) (loc : Int → Bytes)
    (gitDir : Bytes) (obj : GoObj) (fs : Fs) :
    Except Gerr Bytes × Fs × List FsOp :=
  if ¬ gitDir ∈ fs.dirs then (.error .notGitRepository, fs, [])
  else
    match serializeObject loc obj with
    | none => (.error .panic, fs, [])
    | some data =>
      let objHash := computeSHA1 data
      let objPath := objectPath gitDir objHash
      let objDir := pjoin (pjoin gitDir (bs ("objects"))) (objHash.take 2)
      let fs1 := Fs.mk fs.files (objDir :: fs.dirs)
      let ops1 := [FsOp.mkdirAll objDir, FsOp.statOp objPath]
      match fs1.files.lookup objPath with
      | some _ => (.ok objHash, fs1, ops1)
      | none =>
        let fs2 := Fs.mk (amset fs1.files objPath []) fs1.dirs
        let fs3 := Fs.mk (amset fs2.files objPath (compress data)) fs2.dirs
        (.ok objHash, fs3,
          ops1 ++ [FsOp.createOp objPath, FsOp.writeOp objPath (compress data)])

/-- Repository.LoadObject: validate the hash, read the loose path,
decompress, parse the header, dispatch on the type. -/
def loadObject (decompress : Bytes → Option Bytes) (gitDir : Bytes)
    (hashStr : Bytes) (fs : Fs) : Except Gerr GoObj :=
  if ¬ gitDir ∈ fs.dirs then .error .notGitRepository
  else if ¬ validateHash hashStr then .error .invalidHash
  else
    match fs.files.lookup (objectPath gitDir hashStr) with
    | none => .error .objectNotFound
    | some compressed =>
      match decompress compressed with
      | none => .error (.objectError hashStr)
      | some data =>
        match parseObjectHeaderB data with
        | .error e => .error e
        | .ok (typ, _, content) => parseObjectB typ content

/-- PackProcessor.storeRawObject: ensure the bucket directory, return
early when the object exists, otherwise write the compressed canonical
bytes to a temporary .tmp path and rename it into place. -/
def storeRawObject (compress : Bytes → Bytes) (gitDir hashStr typ data : Bytes)
    (fs : Fs) : Except Gerr Unit × Fs × List FsOp :=
  let objDir := pjoin (pjoin gitDir (bs ("objects"))) (hashStr.take 2)
  let objPath := objectPath gitDir hashStr
  let fs1 := Fs.mk fs.files (objDir :: fs.dirs)
  let ops1 := [FsOp.mkdirAll objDir, FsOp.statOp objPath]
  match fs1.files.lookup objPath with
  | some _ => (.ok (), fs1, ops1)
  | none =>
    let fullData := typ ++ [32] ++ decimal data.length ++ [0] ++ data
    let compressed := compress fullData
    let tempPath := objPath ++ bs (".tmp")
    let fs2 := Fs.mk (amset fs1.files tempPath compressed) fs1.dirs
    let fs3 := Fs.mk
      (amset (fs2.files.filter (fun p => decide (p.1 ≠ tempPath)))
        objPath compressed) fs2.dirs
    (.ok (), fs3,
      ops1 ++ [FsOp.writeFileOp tempPath compressed,
        FsOp.renameOp tempPath objPath])

/-- Index.Save as a filesystem write: create the index file, then write
the serialized bytes to it directly. -/
def saveIndexFs (m : EntryMap) (gitDir : Bytes) (fs : Fs) :
    Except Gerr Unit × Fs × List FsOp :=
  let indexPath := pjoin gitDir (bs ("index"))
  let fs1 := Fs.mk (amset fs.files indexPath []) fs.dirs
  match saveIndexBytes m with
  | none => (.error (.indexError indexPath .invalidHash), fs1,
      [FsOp.createOp indexPath])
  | some data =>
    (.ok (), Fs.mk (amset fs1.files indexPath data) fs1.dirs,
      [FsOp.createOp indexPath, FsOp.writeOp indexPath data])

/-! ## Round-trip lemmas for serialized objects -/

theorem octChars_foldl : ∀ (fuel n acc : Nat), n ≤ fuel →
    (octChars fuel n).foldl (fun a c => a * 8 + (c - 48)) acc =
      acc * 8 ^ (octChars fuel n).length + n
  | 0, n, acc, h => by
    simp only [octChars, List.foldl, List.length_nil, pow_zero]
    omega
  | fuel + 1, n, acc, h => by
    by_cases hn : n = 0
    · simp [octChars, hn]
    · have hrec := octChars_foldl fuel (n / 8) acc (by omega)
      simp only [octChars, if_neg hn, List.foldl_append, List.foldl,
        List.length_append, List.length_cons, List.length_nil, hrec]
      have h48 : (48 + n % 8) - 48 = n % 8 := by omega
      rw [h48, pow_succ]
      have hmod := Nat.div_add_mod n 8
      ring_nf
      omega

theorem octChars_digits : ∀ (fuel n : Nat),
    (octChars fuel n).all (fun c => 48 ≤ c && c ≤ 55) = true
  | 0, _ => rfl
  | fuel + 1, n => by
    by_cases hn : n = 0
    · simp [octChars, hn]
    · simp only [octChars, if_neg hn, List.all_append,
        octChars_digits fuel (n / 8)]
      simp
      omega

theorem octal_ne_nil (m : Nat) : octal m ≠ [] := by
  by_cases hm : m = 0
  · simp [octal, hm]
  · simp only [octal, if_neg hm]
    cases hf : m with
    | zero => exact absurd hf hm
    | succ k =>
      simp only [octChars, if_neg hm]
      simp

theorem modeString_digits (m : Nat) :
    (modeString m).all (fun c => 48 ≤ c && c ≤ 55) = true := by
  simp only [modeString, List.all_append, Bool.and_eq_true]
  constructor
  · rw [List.all_eq_true]
    intro c hc
    rw [List.mem_replicate] at hc
    rw [hc.2]
    decide
  · by_cases hm : m = 0
    · subst hm
      decide
    · simp only [octal, if_neg hm]
      exact octChars_digits m m

theorem modeString_mem (m c : Nat) (hc : c ∈ modeString m) :
    48 ≤ c ∧ c ≤ 55 := by
  have h := modeString_digits m
  rw [List.all_eq_true] at h
  have h2 := h c hc
  simpa using h2

theorem foldl_replicate48 : ∀ (k : Nat),
    (List.replicate k 48).foldl (fun a c => a * 8 + (c - 48)) 0 = 0
  | 0 => rfl
  | k + 1 => by
    simp only [List.replicate_succ, List.foldl_cons]
    simpa using foldl_replicate48 k

theorem modeString_foldl (m : Nat) :
    (modeString m).foldl (fun a c => a * 8 + (c - 48)) 0 = m := by
  simp only [modeString, List.foldl_append, foldl_replicate48]
  by_cases hm : m = 0
  · subst hm
    decide
  · simp only [octal, if_neg hm]
    have := octChars_foldl m m 0 (le_refl m)
    simpa using this

theorem parseFileMode_modeString (m : Nat) (h : m < 4294967296) :
    parseFileMode (modeString m) = some m := by
  have hne : modeString m ≠ [] := by
    simp only [modeString, ne_eq, List.append_eq_nil]
    intro hcon
    exact octal_ne_nil m hcon.2
  simp only [parseFileMode, if_neg hne, modeString_digits m, if_true,
    modeString_foldl m]
  rw [if_pos h]

theorem decimal_digits (n : Nat) :
    (decimal n).all (fun d => 48 ≤ d && d ≤ 57) = true := by
  by_cases hn : n = 0
  · subst hn
    decide
  · simp only [decimal, if_neg hn]
    exact decChars_digits n n

theorem decimal_mem (n d : Nat) (hd : d ∈ decimal n) : 48 ≤ d ∧ d ≤ 57 := by
  have h := decimal_digits n
  rw [List.all_eq_true] at h
  have h2 := h d hd
  simpa using h2

theorem decimal_ne_nil (n : Nat) : decimal n ≠ [] := by
  by_cases hn : n = 0
  · simp [decimal, hn]
  · simp only [decimal, if_neg hn]
    cases hf : n with
    | zero => exact absurd hf hn
    | succ k =>
      simp only [decChars, if_neg hn]
      simp

theorem decimalInt_mem (i : Int) (d : Nat) (hd : d ∈ decimalInt i) :
    (48 ≤ d ∧ d ≤ 57) ∨ d = 45 := by
  by_cases hneg : i < 0
  · simp only [decimalInt, if_pos hneg, List.mem_cons] at hd
    rcases hd with h | h
    · exact Or.inr h
    · exact Or.inl (decimal_mem _ _ h)
  · simp only [decimalInt, if_neg hneg] at hd
    exact Or.inl (decimal_mem _ _ hd)

theorem decimalInt_ne_nil (i : Int) : decimalInt i ≠ [] := by
  by_cases hneg : i < 0
  · simp [decimalInt, if_pos hneg]
  · simp only [decimalInt, if_neg hneg]
    exact decimal_ne_nil _

theorem cutByte_append (sep : Nat) : ∀ (a rest : Bytes),
    sep ∉ a → cutByte sep (a ++ sep :: rest) = some (a, rest)
  | [], rest, _ => by simp [cutByte]
  | b :: a, rest, h => by
    have hb : ¬ b = sep := fun hc => h (hc ▸ List.mem_cons_self b a)
    simp only [List.cons_append, cutByte, if_neg hb, List.append_eq,
      cutByte_append sep a rest (fun hc => h (List.mem_cons_of_mem b hc))]

theorem scanPairs_hexDecode : ∀ (h b : Bytes), hexDecode h = some b →
    scanPairs b.length h = b
  | [], b, hd => by
    simp only [hexDecode] at hd
    cases hd
    rfl
  | [c], b, hd => by
    simp only [hexDecode] at hd
    exact Option.noConfusion hd
  | c1 :: c2 :: rest, b, hd => by
    simp only [hexDecode] at hd
    cases h1 : hexDigitVal c1 with
    | none => rw [h1] at hd; exact absurd hd (by simp)
    | some hi =>
      cases h2 : hexDigitVal c2 with
      | none => rw [h1, h2] at hd; exact absurd hd (by simp)
      | some lo =>
        cases h3 : hexDecode rest with
        | none => rw [h1, h2, h3] at hd; exact absurd hd (by simp)
        | some r =>
          rw [h1, h2, h3] at hd
          cases hd
          have hrec := scanPairs_hexDecode rest r h3
          simp only [List.length_cons, scanPairs, sscanHexPair, h1, h2, hrec]

theorem foldl_add_init {α : Type} (w : α → Nat) : ∀ (l : List α) (a : Nat),
    l.foldl (fun acc e => acc + w e) a = a + l.foldl (fun acc e => acc + w e) 0
  | [], a => by simp
  | e :: l, a => by
    simp only [List.foldl_cons]
    rw [foldl_add_init w l (a + w e), foldl_add_init w l (0 + w e)]
    omega

theorem scanPairs_length : ∀ (n : Nat) (h : Bytes), 2 * n ≤ h.length →
    (scanPairs n h).length = n
  | 0, _, _ => rfl
  | n + 1, [], hl => by
    simp only [List.length_nil, Nat.le_zero] at hl
    omega
  | n + 1, [c], hl => by
    simp only [List.length_cons, List.length_nil] at hl
    omega
  | n + 1, c1 :: c2 :: rest, hl => by
    simp only [List.length_cons] at hl
    simp only [scanPairs, List.length_cons]
    rw [scanPairs_length n rest (by omega)]

theorem treeSize_cons (e : TreeEntry) (es : List TreeEntry) :
    treeSize (e :: es) =
      ((modeString e.mode).length + 1 + e.name.length + 1 + 20) +
        treeSize es := by
  simp only [treeSize, List.foldl_cons]
  rw [foldl_add_init (fun e => (modeString e.mode).length + 1 + e.name.length +
    1 + 20) es]
  omega

theorem treeData_length : ∀ (es : List TreeEntry) (d : Bytes),
    treeData es = some d → d.length = treeSize es
  | [], d, h => by
    simp only [treeData] at h
    cases h
    rfl
  | e :: es, d, h => by
    simp only [treeData] at h
    by_cases hh : e.hash.length < 40
    · rw [if_pos hh] at h
      exact absurd h (by simp)
    · rw [if_neg hh] at h
      cases hrest : treeData es with
      | none =>
        rw [hrest] at h
        exact absurd h (by simp)
      | some rest =>
        rw [hrest] at h
        cases h
        have hr := treeData_length es rest hrest
        rw [treeSize_cons]
        simp only [List.length_append, List.length_cons, List.length_nil]
        rw [scanPairs_length 20 e.hash (by omega), hr]

theorem parents_flatten_length : ∀ (ps : List Bytes),
    ((ps.map (fun p => bs ("parent ") ++ p ++ [10])).flatten).length =
      ps.foldl (fun acc p => acc + (7 + p.length + 1)) 0
  | [] => rfl
  | p :: ps => by
    simp only [List.map_cons, List.flatten_cons, List.length_append,
      parents_flatten_length ps, List.foldl_cons]
    rw [foldl_add_init (fun p => 7 + p.length + 1) ps (0 + (7 + p.length + 1))]
    have h7 : (bs ("parent ")).length = 7 := rfl
    simp only [h7, List.length_cons, List.length_nil]
    omega

theorem commitData_length (loc : Int → Bytes) (c : CommitObj) :
    (commitData loc c).length = commitSize loc c := by
  simp only [commitData, commitSize, List.length_append, List.length_cons,
    List.length_nil, parents_flatten_length]
  have h1 : (bs ("tree ")).length = 5 := rfl
  have h2 : (bs ("author ")).length = 7 := rfl
  have h3 : (bs ("committer ")).length = 10 := rfl
  simp only [h1, h2, h3]
  omega

theorem parseObjectHeaderB_mk (typ : Bytes) (n : Nat) (pl : Bytes)
    (htyp : typ = bs ("blob") ∨ typ = bs ("tree") ∨ typ = bs ("commit"))
    (hn : n < 9223372036854775808) (hlen : pl.length = n) :
    parseObjectHeaderB (typ ++ [32] ++ decimal n ++ [0] ++ pl) =
      .ok (typ, (n : Int), pl) := by
  have h0 : 0 ∉ typ ++ [32] ++ decimal n := by
    simp only [List.mem_append, List.mem_cons, List.not_mem_nil]
    rintro ((h | h) | h)
    · rcases htyp with ht | ht | ht <;> rw [ht] at h <;> revert h <;> decide
    · simp at h
    · have := decimal_mem n 0 h
      omega
  have h32 : 32 ∉ typ := by
    rcases htyp with ht | ht | ht <;> rw [ht] <;> decide
  have hre : typ ++ [32] ++ decimal n ++ [0] ++ pl =
      (typ ++ [32] ++ decimal n) ++ 0 :: pl := by
    simp [List.append_assoc]
  rw [hre]
  simp only [parseObjectHeaderB, cutByte_append 0 _ pl h0]
  have hre2 : typ ++ [32] ++ decimal n = typ ++ 32 :: decimal n := by
    simp
  rw [hre2]
  simp only [cutByte_append 32 typ (decimal n) h32]
  rw [if_pos (by tauto)]
  rw [parseDecInt_decimal n hn]
  show (if (pl.length : Int) = (n : Int) then
      Except.ok (typ, ((n : Nat) : Int), pl)
    else Except.error (Gerr.errorMsg (bs ("object size mismatch")))) =
      Except.ok (typ, (n : Int), pl)
  rw [if_pos (by omega)]

/-- Well-formedness of a tree entry under which serialization is
lossless: a valid hash, a NUL-free name, and a 32-bit mode. -/
def treeEntryWf (e : TreeEntry) : Bool :=
  validateHash e.hash && !(decide (0 ∈ e.name)) && decide (e.mode < 4294967296)

/-- Well-formedness of a tree. -/
def treeWf (es : List TreeEntry) : Bool := es.all treeEntryWf

theorem parseTreeLoop_cons (fuel : Nat) (d : Bytes) (hd : d ≠ []) :
    parseTreeLoop (fuel + 1) d =
      match cutByte 32 d with
      | none => .error (.errorMsg (bs ("failed to find space separator")))
      | some (modeStr, afterSpace) =>
        match parseFileMode modeStr with
        | none => .error (.errorMsg (bs ("invalid file mode")))
        | some mode =>
          match cutByte 0 afterSpace with
          | none => .error (.errorMsg (bs ("failed to find null separator")))
          | some (name, afterNul) =>
            if afterNul.length < 20 then
              .error (.errorMsg (bs ("insufficient data for hash")))
            else
              match parseTreeLoop fuel (afterNul.drop 20) with
              | .error e => .error e
              | .ok es =>
                .ok (TreeEntry.mk mode name
                  (hexEncode (afterNul.take 20)) :: es) := by
  obtain ⟨b, rest, hb⟩ := List.exists_cons_of_ne_nil hd
  subst hb
  rfl

theorem parseTreeLoop_roundtrip :
    ∀ (es : List TreeEntry) (fuel : Nat) (d : Bytes),
    treeWf es = true → treeData es = some d → d.length ≤ fuel →
    parseTreeLoop fuel d = .ok es
  | [], fuel, d, _, hd, _ => by
    simp only [treeData] at hd
    cases hd
    cases fuel <;> rfl
  | e :: es, fuel, d, hwf, hd, hfuel => by
    obtain ⟨mo, nm, hsh⟩ := e
    simp only [treeWf, List.all_cons, Bool.and_eq_true] at hwf
    obtain ⟨hte, hwfes⟩ := hwf
    simp only [treeEntryWf, Bool.and_eq_true, Bool.not_eq_true',
      decide_eq_false_iff_not, decide_eq_true_eq] at hte
    obtain ⟨⟨hvh, hnm0⟩, hmode⟩ := hte
    have hvh' := hvh
    simp only [validateHash, Bool.and_eq_true, beq_iff_eq] at hvh'
    have hlen40 : hsh.length = 40 := hvh'.1
    obtain ⟨braw, hdec, henc, hblen⟩ := validateHash_decode hsh hvh
    have hscan : scanPairs 20 hsh = braw := by
      have := scanPairs_hexDecode hsh braw hdec
      rwa [hblen] at this
    have hsl : (scanPairs 20 hsh).length = 20 :=
      scanPairs_length 20 hsh (by omega)
    simp only [treeData] at hd
    rw [if_neg (by omega)] at hd
    cases hres : treeData es with
    | none =>
      rw [hres] at hd
      exact absurd hd (by simp)
    | some rest =>
      rw [hres] at hd
      cases hd
      have hmne : modeString mo ≠ [] := by
        simp only [modeString, ne_eq, List.append_eq_nil]
        intro hc
        exact octal_ne_nil mo hc.2
      have hm32 : 32 ∉ modeString mo := by
        intro hmem
        have := modeString_mem mo 32 hmem
        omega
      have hmpos : 0 < (modeString mo).length := List.length_pos.mpr hmne
      cases fuel with
      | zero =>
        simp only [List.length_append, List.length_cons, List.length_nil]
          at hfuel
        omega
      | succ f =>
        have hdne : modeString mo ++ [32] ++ nm ++ [0] ++
            scanPairs 20 hsh ++ rest ≠ [] := by
          simp only [ne_eq, List.append_eq_nil]
          intro hc
          exact hmne hc.1.1.1.1.1
        rw [parseTreeLoop_cons f _ hdne]
        have hcut1 : cutByte 32 (modeString mo ++ [32] ++ nm ++ [0] ++
            scanPairs 20 hsh ++ rest) =
            some (modeString mo, nm ++ [0] ++ scanPairs 20 hsh ++ rest) := by
          have h := cutByte_append 32 (modeString mo)
            (nm ++ [0] ++ scanPairs 20 hsh ++ rest) hm32
          simpa [List.append_assoc] using h
        have hcut2 : cutByte 0 (nm ++ [0] ++ scanPairs 20 hsh ++ rest) =
            some (nm, scanPairs 20 hsh ++ rest) := by
          have h := cutByte_append 0 nm (scanPairs 20 hsh ++ rest) hnm0
          simpa [List.append_assoc] using h
        simp only [hcut1, parseFileMode_modeString mo hmode, hcut2]
        rw [if_neg (by simp only [List.length_append, hsl]; omega)]
        have hdrop : (scanPairs 20 hsh ++ rest).drop 20 = rest :=
          List.drop_left' hsl
        have htake : (scanPairs 20 hsh ++ rest).take 20 = scanPairs 20 hsh :=
          List.take_left' hsl
        have hrlen : rest.length ≤ f := by
          simp only [List.length_append, List.length_cons, List.length_nil,
            hsl] at hfuel
          omega
        rw [hdrop, parseTreeLoop_roundtrip es f rest hwfes hres hrlen,
          htake, hscan, henc]

theorem splitOnByte_cons (sep b : Nat) (rest : Bytes) :
    splitOnByte sep (b :: rest) =
      if b = sep then [] :: splitOnByte sep rest
      else match splitOnByte sep rest with
        | [] => [[b]]
        | l :: ls => (b :: l) :: ls := rfl

theorem splitOnByte_eq_splitOn (sep : Nat) : ∀ (l : Bytes),
    splitOnByte sep l = l.splitOn sep
  | [] => by simp [splitOnByte, List.splitOn_nil]
  | b :: rest => by
    rw [show (b :: rest).splitOn sep = (b :: rest).splitOnP (· == sep) from rfl,
      List.splitOnP_cons, splitOnByte_cons, splitOnByte_eq_splitOn sep rest]
    rw [show List.splitOnP (fun x => x == sep) rest = rest.splitOn sep from rfl]
    by_cases hb : b = sep
    · rw [if_pos hb, if_pos (by simpa using hb)]
    · rw [if_neg hb, if_neg (by simpa using hb)]
      cases hs : rest.splitOn sep with
      | nil =>
        exact absurd hs (List.splitOnP_ne_nil _ _)
      | cons x xs => rfl

theorem intercalate_splitOnByte (sep : Nat) (l : Bytes) :
    List.intercalate [sep] (splitOnByte sep l) = l := by
  rw [splitOnByte_eq_splitOn]
  exact List.intercalate_splitOn l sep

theorem splitOnByte_ne_nil (sep : Nat) : ∀ (l : Bytes), splitOnByte sep l ≠ []
  | [] => by simp [splitOnByte]
  | b :: rest => by
    simp only [splitOnByte]
    by_cases hb : b = sep
    · simp [hb]
    · rw [if_neg hb]
      cases hs : splitOnByte sep rest <;> simp

theorem splitOnByte_nosep (sep : Nat) : ∀ (a : Bytes), sep ∉ a →
    splitOnByte sep a = [a]
  | [], _ => rfl
  | b :: a, h => by
    have hb : ¬ b = sep := fun hc => h (hc ▸ List.mem_cons_self b a)
    simp only [splitOnByte, if_neg hb,
      splitOnByte_nosep sep a (fun hc => h (List.mem_cons_of_mem b hc))]

theorem splitOnByte_append (sep : Nat) : ∀ (a l : Bytes), sep ∉ a →
    splitOnByte sep (a ++ sep :: l) = a :: splitOnByte sep l
  | [], l, _ => by simp [splitOnByte]
  | b :: a, l, h => by
    have hb : ¬ b = sep := fun hc => h (hc ▸ List.mem_cons_self b a)
    simp only [List.cons_append, splitOnByte, if_neg hb, List.append_eq,
      splitOnByte_append sep a l (fun hc => h (List.mem_cons_of_mem b hc))]

theorem splitOnByte_mem (sep : Nat) : ∀ (l x : Bytes),
    x ∈ splitOnByte sep l → ∀ b ∈ x, b ∈ l
  | [], x, hx, b, hb => by
    simp only [splitOnByte, List.mem_singleton] at hx
    subst hx
    exact absurd hb (List.not_mem_nil b)
  | c :: rest, x, hx, b, hb => by
    by_cases hc : c = sep
    · simp only [splitOnByte, if_pos hc, List.mem_cons] at hx
      rcases hx with hx | hx
      · subst hx
        exact absurd hb (List.not_mem_nil b)
      · exact List.mem_cons_of_mem c (splitOnByte_mem sep rest x hx b hb)
    · simp only [splitOnByte, if_neg hc] at hx
      cases hs : splitOnByte sep rest with
      | nil => exact absurd hs (splitOnByte_ne_nil sep rest)
      | cons y ys =>
        rw [hs] at hx
        simp only [List.mem_cons] at hx
        rcases hx with hx | hx
        · subst hx
          rcases List.mem_cons.mp hb with hb | hb
          · subst hb
            exact List.mem_cons_self b rest
          · refine List.mem_cons_of_mem c ?_
            exact splitOnByte_mem sep rest y
              (hs ▸ List.mem_cons_self y ys) b hb
        · refine List.mem_cons_of_mem c ?_
          exact splitOnByte_mem sep rest x
            (hs ▸ List.mem_cons_of_mem y hx) b hb

theorem splitOnByte_last (sep : Nat) : ∀ (l : Bytes), l ≠ [] →
    l.getLast? ≠ some sep →
    ∃ xs x, splitOnByte sep l = xs ++ [x] ∧ x ≠ []
  | [], h, _ => absurd rfl h
  | [b], _, hlast => by
    have hb : ¬ b = sep := by
      intro hc
      exact hlast (by rw [hc]; rfl)
    refine ⟨[], [b], ?_, by simp⟩
    simp [splitOnByte, if_neg hb]
  | b :: c :: rest, _, hlast => by
    have hl2 : (c :: rest : Bytes).getLast? ≠ some sep := by
      rwa [List.getLast?_cons_cons] at hlast
    obtain ⟨xs, x, hs, hx⟩ :=
      splitOnByte_last sep (c :: rest) (by simp) hl2
    by_cases hb : b = sep
    · refine ⟨[] :: xs, x, ?_, hx⟩
      rw [splitOnByte_cons, if_pos hb, hs]
      rfl
    · cases hxs : xs with
      | nil =>
        subst hxs
        simp only [List.nil_append] at hs
        refine ⟨[], b :: x, ?_, by simp⟩
        rw [splitOnByte_cons, if_neg hb, hs]
        rfl
      | cons y ys =>
        subst hxs
        refine ⟨(b :: y) :: ys, x, ?_, hx⟩
        rw [splitOnByte_cons, if_neg hb, hs]
        rfl

theorem dropCR_no13 (l : Bytes) (h : 13 ∉ l) : dropCR l = l := by
  simp only [dropCR]
  rw [if_neg]
  intro hc
  have h1 : l.reverse.head? = some 13 := by
    rw [List.head?_reverse]
    exact hc
  exact h (List.mem_reverse.mp
    (List.mem_of_mem_head? (Option.mem_def.mpr h1)))

theorem dropWhile_eq_self_of_head (l : Bytes)
    (h : ∀ b, l.head? = some b → isSpaceB b = false) :
    l.dropWhile isSpaceB = l := by
  cases l with
  | nil => rfl
  | cons a t =>
    rw [List.dropWhile_cons, h a rfl]
    simp

theorem trimSpace_eq_self (l : Bytes)
    (h1 : ∀ b, l.head? = some b → isSpaceB b = false)
    (h2 : ∀ b, l.getLast? = some b → isSpaceB b = false) :
    trimSpace l = l := by
  simp only [trimSpace]
  rw [dropWhile_eq_self_of_head l h1]
  rw [dropWhile_eq_self_of_head l.reverse
    (fun b hb => h2 b (by rwa [List.head?_reverse] at hb))]
  exact List.reverse_reverse l

theorem trimSpace_append_space (l : Bytes)
    (h1 : ∀ b, l.head? = some b → isSpaceB b = false)
    (h2 : ∀ b, l.getLast? = some b → isSpaceB b = false) :
    trimSpace (l ++ [32]) = l := by
  cases l with
  | nil => decide
  | cons a t =>
    simp only [trimSpace]
    rw [List.cons_append, List.dropWhile_cons, h1 a rfl]
    simp only [Bool.false_eq_true, if_false]
    have hrev : (a :: (t ++ [32]) : Bytes).reverse = 32 :: (a :: t).reverse := by
      simp
    rw [hrev, List.dropWhile_cons]
    rw [show isSpaceB 32 = true from rfl]
    simp only [if_true]
    rw [dropWhile_eq_self_of_head (a :: t).reverse
      (fun b hb => h2 b (by rwa [List.head?_reverse] at hb))]
    exact List.reverse_reverse (a :: t)

theorem trimSpace_cons_space (m : Bytes)
    (h1 : ∀ b, m.head? = some b → isSpaceB b = false)
    (h2 : ∀ b, m.getLast? = some b → isSpaceB b = false) :
    trimSpace (32 :: m) = m := by
  simp only [trimSpace]
  rw [List.dropWhile_cons]
  rw [show isSpaceB 32 = true from rfl]
  simp only [if_true]
  rw [dropWhile_eq_self_of_head m h1]
  rw [dropWhile_eq_self_of_head m.reverse
    (fun b hb => h2 b (by rwa [List.head?_reverse] at hb))]
  exact List.reverse_reverse m

theorem findIdx?_first (p : Nat → Bool) : ∀ (a : Bytes) (x : Nat) (l : Bytes)
    (i : Nat), (∀ b ∈ a, p b = false) → p x = true →
    List.findIdx? p (a ++ x :: l) i = some (a.length + i)
  | [], x, l, i, _, hx => by
    simp [List.findIdx?_cons, hx]
  | b :: a, x, l, i, h, hx => by
    have hb : p b = false := h b (List.mem_cons_self b a)
    rw [List.cons_append, List.findIdx?_cons, hb]
    simp only [Bool.false_eq_true, if_false]
    rw [findIdx?_first p a x l (i + 1)
      (fun c hc => h c (List.mem_cons_of_mem b hc)) hx]
    simp only [List.length_cons]
    congr 1
    omega

/-- No space-class byte at either edge of a byte string. -/
def noEdgeSpace (l : Bytes) : Bool :=
  (match l.head? with | none => true | some b => !isSpaceB b) &&
  (match l.getLast? with | none => true | some b => !isSpaceB b)

theorem noEdgeSpace_spec (l : Bytes) (h : noEdgeSpace l = true) :
    (∀ b, l.head? = some b → isSpaceB b = false) ∧
    (∀ b, l.getLast? = some b → isSpaceB b = false) := by
  simp only [noEdgeSpace, Bool.and_eq_true] at h
  constructor
  · intro b hb
    have h1 := h.1
    rw [hb] at h1
    simpa using h1
  · intro b hb
    have h2 := h.2
    rw [hb] at h2
    simpa using h2

/-- Well-formedness of a signature under which its rendered string parses
back to the same fields: a trimmed angle-free name, a '>'-free email,
both free of line breaks, an int64 timestamp, and a nonempty zone
rendering with no space-class bytes. -/
def sigWf (loc : Int → Bytes) (s : Signature) : Bool :=
  noEdgeSpace s.name &&
  !(decide (60 ∈ s.name)) && !(decide (62 ∈ s.name)) &&
  !(decide (10 ∈ s.name)) && !(decide (13 ∈ s.name)) &&
  !(decide (62 ∈ s.email)) && !(decide (10 ∈ s.email)) &&
  !(decide (13 ∈ s.email)) &&
  decide (-9223372036854775808 ≤ s.whenUnix) &&
  decide (s.whenUnix < 9223372036854775808) &&
  !(decide (loc s.whenUnix = [])) &&
  (loc s.whenUnix).all (fun b => !isSpaceB b)

theorem decimalInt_not_space (i : Int) (b : Nat) (hb : b ∈ decimalInt i) :
    isSpaceB b = false := by
  have h := decimalInt_mem i b hb
  simp only [isSpaceB, Bool.or_eq_false_iff, beq_eq_false_iff_ne, ne_eq]
  omega

theorem parseSignatureB_sigString (loc : Int → Bytes) (s : Signature)
    (hwf : sigWf loc s = true) :
    parseSignatureB (sigString loc s) = .ok s := by
  simp only [sigWf, Bool.and_eq_true, Bool.not_eq_true',
    decide_eq_false_iff_not, decide_eq_true_eq] at hwf
  obtain ⟨⟨⟨⟨⟨⟨⟨⟨⟨⟨⟨hedge, h60⟩, h62⟩, h10n⟩, h13n⟩, h62e⟩, h10e⟩,
    h13e⟩, hlo⟩, hhi⟩, hzne⟩, hzall⟩ := hwf
  obtain ⟨hnh, hnl⟩ := noEdgeSpace_spec s.name hedge
  have hz : ∀ b ∈ loc s.whenUnix, isSpaceB b = false := by
    intro b hb
    have := List.all_eq_true.mp hzall b hb
    simpa using this
  have hdata : sigString loc s =
      s.name ++ 32 :: 60 :: (s.email ++ 62 :: 32 ::
        (decimalInt s.whenUnix ++ 32 :: loc s.whenUnix)) := by
    simp only [sigString]
    rw [show bs (" <") = [32, 60] from rfl, show bs ("> ") = [62, 32] from rfl,
      show bs (" ") = [32] from rfl]
    simp [List.append_assoc]
  rw [hdata]
  have hne : s.name ++ 32 :: 60 :: (s.email ++ 62 :: 32 ::
      (decimalInt s.whenUnix ++ 32 :: loc s.whenUnix)) ≠ [] := by
    simp
  simp only [parseSignatureB, if_neg hne]
  have h1 : s.name ++ 32 :: 60 :: (s.email ++ 62 :: 32 ::
      (decimalInt s.whenUnix ++ 32 :: loc s.whenUnix)) =
      (s.name ++ [32]) ++ 60 :: (s.email ++ 62 :: 32 ::
        (decimalInt s.whenUnix ++ 32 :: loc s.whenUnix)) := by
    simp
  have h2 : s.name ++ 32 :: 60 :: (s.email ++ 62 :: 32 ::
      (decimalInt s.whenUnix ++ 32 :: loc s.whenUnix)) =
      (s.name ++ 32 :: 60 :: s.email) ++ 62 :: 32 ::
        (decimalInt s.whenUnix ++ 32 :: loc s.whenUnix) := by
    simp
  have hfind60 : List.findIdx? (fun c => c == 60)
      (s.name ++ 32 :: 60 :: (s.email ++ 62 :: 32 ::
        (decimalInt s.whenUnix ++ 32 :: loc s.whenUnix))) =
      some (s.name.length + 1) := by
    rw [h1, findIdx?_first _ _ _ _ _ ?hmem (by decide)]
    · simp
    case hmem =>
      intro b hb
      simp only [List.mem_append, List.mem_singleton] at hb
      simp only [beq_eq_false_iff_ne, ne_eq]
      rcases hb with hb | hb
      · intro hc
        subst hc
        exact h60 hb
      · omega
  have hfind62 : List.findIdx? (fun c => c == 62)
      (s.name ++ 32 :: 60 :: (s.email ++ 62 :: 32 ::
        (decimalInt s.whenUnix ++ 32 :: loc s.whenUnix))) =
      some (s.name.length + 2 + s.email.length) := by
    rw [h2, findIdx?_first _ _ _ _ _ ?hmem2 (by decide)]
    · simp only [List.length_append, List.length_cons]
      congr 1
      omega
    case hmem2 =>
      intro b hb
      simp only [List.mem_append, List.mem_cons] at hb
      simp only [beq_eq_false_iff_ne, ne_eq]
      rcases hb with hb | hb | hb | hb
      · intro hc
        subst hc
        exact h62 hb
      · omega
      · omega
      · intro hc
        subst hc
        exact h62e hb
  rw [hfind60, hfind62]
  simp only []
  rw [if_neg (by omega)]
  have htake1 : (s.name ++ 32 :: 60 :: (s.email ++ 62 :: 32 ::
      (decimalInt s.whenUnix ++ 32 :: loc s.whenUnix))).take
        (s.name.length + 1) = s.name ++ [32] := by
    rw [h1]
    exact List.take_left' (by simp)
  have htake2 : (s.name ++ 32 :: 60 :: (s.email ++ 62 :: 32 ::
      (decimalInt s.whenUnix ++ 32 :: loc s.whenUnix))).take
        (s.name.length + 2 + s.email.length) =
      (s.name ++ [32, 60]) ++ s.email := by
    rw [h2]
    rw [show (s.name ++ 32 :: 60 :: s.email : Bytes) =
      (s.name ++ [32, 60]) ++ s.email from by simp]
    exact List.take_left' (by simp; omega)
  have hdrop3 : (s.name ++ 32 :: 60 :: (s.email ++ 62 :: 32 ::
      (decimalInt s.whenUnix ++ 32 :: loc s.whenUnix))).drop
        (s.name.length + 2 + s.email.length + 1) =
      32 :: (decimalInt s.whenUnix ++ 32 :: loc s.whenUnix) := by
    rw [show (s.name ++ 32 :: 60 :: (s.email ++ 62 :: 32 ::
      (decimalInt s.whenUnix ++ 32 :: loc s.whenUnix)) : Bytes) =
      (s.name ++ 32 :: 60 :: (s.email ++ [62])) ++ 32 ::
        (decimalInt s.whenUnix ++ 32 :: loc s.whenUnix) from by simp]
    exact List.drop_left' (by simp; omega)
  rw [htake1, trimSpace_append_space s.name hnh hnl, htake2]
  have hdropmail : ((s.name ++ [32, 60]) ++ s.email).drop
      (s.name.length + 1 + 1) = s.email :=
    List.drop_left' (by simp)
  rw [hdropmail]
  rw [hdrop3]
  have hDh : ∀ b, (decimalInt s.whenUnix ++ 32 :: loc s.whenUnix).head? =
      some b → isSpaceB b = false := by
    intro b hb
    rw [List.head?_append_of_ne_nil _ (decimalInt_ne_nil _)] at hb
    exact decimalInt_not_space _ b
      (List.mem_of_mem_head? (Option.mem_def.mpr hb))
  have hDl : ∀ b, (decimalInt s.whenUnix ++ 32 :: loc s.whenUnix).getLast? =
      some b → isSpaceB b = false := by
    intro b hb
    rw [List.getLast?_append_of_ne_nil _ (by simp)] at hb
    rw [show (32 :: loc s.whenUnix : Bytes) = [32] ++ loc s.whenUnix from rfl,
      List.getLast?_append_of_ne_nil _ hzne] at hb
    have hmem : b ∈ loc s.whenUnix := by
      have hrev : ((loc s.whenUnix).reverse : Bytes).head? = some b := by
        rw [List.head?_reverse]
        exact hb
      have hmr := List.mem_of_mem_head? (Option.mem_def.mpr hrev)
      exact List.mem_reverse.mp hmr
    exact hz b hmem
  rw [trimSpace_cons_space _ hDh hDl]
  have hsplit : splitOnByte 32 (decimalInt s.whenUnix ++ 32 ::
      loc s.whenUnix) = [decimalInt s.whenUnix, loc s.whenUnix] := by
    rw [splitOnByte_append 32 _ _ ?hno32]
    · rw [splitOnByte_nosep 32 _ ?hno32z]
      case hno32z =>
        intro hc
        have := hz 32 hc
        exact absurd this (by decide)
    case hno32 =>
      intro hc
      have := decimalInt_not_space s.whenUnix 32 hc
      exact absurd this (by decide)
  rw [hsplit]
  rw [if_neg (by simp)]
  rw [show ([decimalInt s.whenUnix, loc s.whenUnix].getD 0 []) =
    decimalInt s.whenUnix from rfl]
  rw [parseDecInt_decimalInt s.whenUnix hlo hhi]

theorem sigWf_spec (loc : Int → Bytes) (s : Signature) (h : sigWf loc s = true) :
    (∀ b, s.name.head? = some b → isSpaceB b = false) ∧
    (∀ b, s.name.getLast? = some b → isSpaceB b = false) ∧
    60 ∉ s.name ∧ 62 ∉ s.name ∧ 10 ∉ s.name ∧ 13 ∉ s.name ∧
    62 ∉ s.email ∧ 10 ∉ s.email ∧ 13 ∉ s.email ∧
    (-9223372036854775808 ≤ s.whenUnix) ∧ s.whenUnix < 9223372036854775808 ∧
    loc s.whenUnix ≠ [] ∧ ∀ b ∈ loc s.whenUnix, isSpaceB b = false := by
  simp only [sigWf, Bool.and_eq_true, Bool.not_eq_true',
    decide_eq_false_iff_not, decide_eq_true_eq] at h
  obtain ⟨⟨⟨⟨⟨⟨⟨⟨⟨⟨⟨hedge, h60⟩, h62⟩, h10n⟩, h13n⟩, h62e⟩, h10e⟩,
    h13e⟩, hlo⟩, hhi⟩, hzne⟩, hzall⟩ := h
  obtain ⟨hnh, hnl⟩ := noEdgeSpace_spec s.name hedge
  refine ⟨hnh, hnl, h60, h62, h10n, h13n, h62e, h10e, h13e, hlo, hhi, hzne, ?_⟩
  intro b hb
  have hball := List.all_eq_true.mp hzall b hb
  simpa using hball

theorem sigString_eq (loc : Int → Bytes) (s : Signature) :
    sigString loc s = s.name ++ 32 :: 60 :: (s.email ++ 62 :: 32 ::
      (decimalInt s.whenUnix ++ 32 :: loc s.whenUnix)) := by
  simp only [sigString]
  rw [show bs (" <") = [32, 60] from rfl, show bs ("> ") = [62, 32] from rfl,
    show bs (" ") = [32] from rfl]
  simp [List.append_assoc]

theorem sigString_no_lf_cr (loc : Int → Bytes) (s : Signature)
    (hwf : sigWf loc s = true) :
    10 ∉ sigString loc s ∧ 13 ∉ sigString loc s := by
  obtain ⟨hnh, hnl, h60, h62, h10n, h13n, h62e, h10e, h13e, hlo, hhi,
    hzne, hz⟩ := sigWf_spec loc s hwf
  have hmain : ∀ b, b ∈ sigString loc s → b = 32 ∨ b = 60 ∨ b = 62 ∨
      b ∈ s.name ∨ b ∈ s.email ∨ b ∈ decimalInt s.whenUnix ∨
      b ∈ loc s.whenUnix := by
    intro b hb
    rw [sigString_eq] at hb
    simp only [List.mem_append, List.mem_cons] at hb
    tauto
  constructor
  · intro hb
    rcases hmain 10 hb with h | h | h | h | h | h | h
    · omega
    · omega
    · omega
    · exact h10n h
    · exact h10e h
    · exact absurd (decimalInt_not_space _ _ h) (by decide)
    · exact absurd (hz 10 h) (by decide)
  · intro hb
    rcases hmain 13 hb with h | h | h | h | h | h | h
    · omega
    · omega
    · omega
    · exact h13n h
    · exact h13e h
    · exact absurd (decimalInt_not_space _ _ h) (by decide)
    · exact absurd (hz 13 h) (by decide)

/-- Well-formedness of a commit under which its rendered data parses
back to the same fields: a nonempty line-break-free tree hash,
line-break-free parents, well-formed signatures, a CR-free message not
ending in a newline, and every rendered line (headers and message lines
alike) shorter than bufio.Scanner's 64 KiB maximum token size. -/
def commitWf (loc : Int → Bytes) (c : CommitObj) : Bool :=
  !(decide (c.tree = [])) && !(decide (10 ∈ c.tree)) &&
  !(decide (13 ∈ c.tree)) &&
  c.parents.all (fun p => !(decide (10 ∈ p)) && !(decide (13 ∈ p))) &&
  sigWf loc c.author && sigWf loc c.committer &&
  !(decide (13 ∈ c.message)) && !(decide (c.message.getLast? = some 10)) &&
  decide (c.tree.length < 65531) &&
  c.parents.all (fun p => decide (p.length < 65529)) &&
  decide ((sigString loc c.author).length < 65529) &&
  decide ((sigString loc c.committer).length < 65526) &&
  (splitOnByte 10 c.message).all (fun l => decide (l.length < 65536))

theorem map_dropCR_eq : ∀ (L : List Bytes), (∀ l ∈ L, dropCR l = l) →
    L.map dropCR = L
  | [], _ => rfl
  | l :: L, h => by
    simp only [List.map_cons, h l (List.mem_cons_self l L),
      map_dropCR_eq L (fun x hx => h x (List.mem_cons_of_mem l hx))]

theorem splitOnByte_parents : ∀ (ps : List Bytes) (tail : Bytes),
    (∀ p ∈ ps, 10 ∉ p) →
    splitOnByte 10
      ((ps.map (fun p => bs ("parent ") ++ p ++ [10])).flatten ++ tail) =
      (ps.map (fun p => bs ("parent ") ++ p)) ++ splitOnByte 10 tail
  | [], tail, _ => by simp
  | p :: ps, tail, h => by
    have hp10 : 10 ∉ bs ("parent ") ++ p := by
      simp only [List.mem_append]
      rintro (hc | hc)
      · revert hc
        decide
      · exact h p (List.mem_cons_self p ps) hc
    have hre : ((p :: ps).map
        (fun p => bs ("parent ") ++ p ++ [10])).flatten ++ tail =
        (bs ("parent ") ++ p) ++ 10 ::
          ((ps.map (fun p => bs ("parent ") ++ p ++ [10])).flatten ++ tail) := by
      simp [List.append_assoc]
    rw [hre, splitOnByte_append 10 _ _ hp10,
      splitOnByte_parents ps tail (fun q hq => h q (List.mem_cons_of_mem p hq))]
    rfl

theorem parseCommitLines_tree (v : Bytes) (rest : List Bytes)
    (st : CommitParseState) (hst : st.inMessage = false) :
    parseCommitLines ((bs ("tree ") ++ v) :: rest) st =
      parseCommitLines rest { st with tree := v } := by
  rw [show (bs ("tree ") ++ v : Bytes) = 116 :: 114 :: 101 :: 101 :: 32 :: v
    from rfl]
  have hcut : cutByte 32 (116 :: 114 :: 101 :: 101 :: 32 :: v : Bytes) =
      some ([116, 114, 101, 101], v) :=
    cutByte_append 32 [116, 114, 101, 101] v (by decide)
  simp only [parseCommitLines]
  rw [if_neg (show ¬ st.inMessage = true from by simp [hst])]
  rw [if_neg (show ¬ (116 :: 114 :: 101 :: 101 :: 32 :: v : Bytes) = []
    from by simp)]
  simp only [hcut]
  rw [if_pos (show ([116, 114, 101, 101] : Bytes) = bs ("tree") from by decide)]

theorem parseCommitLines_parent (v : Bytes) (rest : List Bytes)
    (st : CommitParseState) (hst : st.inMessage = false) :
    parseCommitLines ((bs ("parent ") ++ v) :: rest) st =
      parseCommitLines rest { st with parents := st.parents ++ [v] } := by
  rw [show (bs ("parent ") ++ v : Bytes) =
    112 :: 97 :: 114 :: 101 :: 110 :: 116 :: 32 :: v from rfl]
  have hcut : cutByte 32
      (112 :: 97 :: 114 :: 101 :: 110 :: 116 :: 32 :: v : Bytes) =
      some ([112, 97, 114, 101, 110, 116], v) :=
    cutByte_append 32 [112, 97, 114, 101, 110, 116] v (by decide)
  simp only [parseCommitLines]
  rw [if_neg (show ¬ st.inMessage = true from by simp [hst])]
  rw [if_neg (show ¬ (112 :: 97 :: 114 :: 101 :: 110 :: 116 :: 32 :: v :
    Bytes) = [] from by simp)]
  simp only [hcut]
  rw [if_neg (show ¬ ([112, 97, 114, 101, 110, 116] : Bytes) = bs ("tree")
    from by decide)]
  rw [if_pos (show ([112, 97, 114, 101, 110, 116] : Bytes) = bs ("parent")
    from by decide)]

theorem parseCommitLines_author (v : Bytes) (rest : List Bytes)
    (st : CommitParseState) (sig : Signature) (hst : st.inMessage = false)
    (hsig : parseSignatureB v = .ok sig) :
    parseCommitLines ((bs ("author ") ++ v) :: rest) st =
      parseCommitLines rest { st with author := some sig } := by
  rw [show (bs ("author ") ++ v : Bytes) =
    97 :: 117 :: 116 :: 104 :: 111 :: 114 :: 32 :: v from rfl]
  have hcut : cutByte 32
      (97 :: 117 :: 116 :: 104 :: 111 :: 114 :: 32 :: v : Bytes) =
      some ([97, 117, 116, 104, 111, 114], v) :=
    cutByte_append 32 [97, 117, 116, 104, 111, 114] v (by decide)
  simp only [parseCommitLines]
  rw [if_neg (show ¬ st.inMessage = true from by simp [hst])]
  rw [if_neg (show ¬ (97 :: 117 :: 116 :: 104 :: 111 :: 114 :: 32 :: v :
    Bytes) = [] from by simp)]
  simp only [hcut]
  rw [if_neg (show ¬ ([97, 117, 116, 104, 111, 114] : Bytes) = bs ("tree")
    from by decide)]
  rw [if_neg (show ¬ ([97, 117, 116, 104, 111, 114] : Bytes) = bs ("parent")
    from by decide)]
  rw [if_pos (show ([97, 117, 116, 104, 111, 114] : Bytes) = bs ("author")
    from by decide)]
  rw [hsig]

theorem parseCommitLines_committer (v : Bytes) (rest : List Bytes)
    (st : CommitParseState) (sig : Signature) (hst : st.inMessage = false)
    (hsig : parseSignatureB v = .ok sig) :
    parseCommitLines ((bs ("committer ") ++ v) :: rest) st =
      parseCommitLines rest { st with committer := some sig } := by
  rw [show (bs ("committer ") ++ v : Bytes) =
    99 :: 111 :: 109 :: 109 :: 105 :: 116 :: 116 :: 101 :: 114 :: 32 :: v
    from rfl]
  have hcut : cutByte 32
      (99 :: 111 :: 109 :: 109 :: 105 :: 116 :: 116 :: 101 :: 114 :: 32 ::
        v : Bytes) =
      some ([99, 111, 109, 109, 105, 116, 116, 101, 114], v) :=
    cutByte_append 32 [99, 111, 109, 109, 105, 116, 116, 101, 114] v
      (by decide)
  simp only [parseCommitLines]
  rw [if_neg (show ¬ st.inMessage = true from by simp [hst])]
  rw [if_neg (show ¬ (99 :: 111 :: 109 :: 109 :: 105 :: 116 :: 116 :: 101 ::
    114 :: 32 :: v : Bytes) = [] from by simp)]
  simp only [hcut]
  rw [if_neg (show ¬ ([99, 111, 109, 109, 105, 116, 116, 101, 114] : Bytes) =
    bs ("tree") from by decide)]
  rw [if_neg (show ¬ ([99, 111, 109, 109, 105, 116, 116, 101, 114] : Bytes) =
    bs ("parent") from by decide)]
  rw [if_neg (show ¬ ([99, 111, 109, 109, 105, 116, 116, 101, 114] : Bytes) =
    bs ("author") from by decide)]
  rw [if_pos (show ([99, 111, 109, 109, 105, 116, 116, 101, 114] : Bytes) =
    bs ("committer") from by decide)]
  rw [hsig]

theorem parseCommitLines_blank (rest : List Bytes) (st : CommitParseState)
    (hst : st.inMessage = false) :
    parseCommitLines ([] :: rest) st =
      parseCommitLines rest { st with inMessage := true } := by
  simp only [parseCommitLines]
  rw [if_neg (show ¬ st.inMessage = true from by simp [hst])]
  simp only [if_true]

theorem parseCommitLines_msgrun : ∀ (ls : List Bytes) (st : CommitParseState),
    st.inMessage = true →
    parseCommitLines ls st = .ok ⟨st.tree, st.parents, st.author,
      st.committer, st.msgLines ++ ls, true⟩
  | [], st, hst => by
    obtain ⟨t, p, a, c, m, im⟩ := st
    simp only at hst
    subst hst
    simp only [parseCommitLines, List.append_nil]
  | l :: ls, st, hst => by
    simp only [parseCommitLines]
    rw [if_pos hst]
    rw [parseCommitLines_msgrun ls ⟨st.tree, st.parents, st.author,
      st.committer, st.msgLines ++ [l], st.inMessage⟩ hst]
    simp [List.append_assoc]

theorem parseCommitLines_parentrun :
    ∀ (ps : List Bytes) (rest : List Bytes) (st : CommitParseState),
    st.inMessage = false →
    parseCommitLines ((ps.map (fun p => bs ("parent ") ++ p)) ++ rest) st =
      parseCommitLines rest ⟨st.tree, st.parents ++ ps, st.author,
        st.committer, st.msgLines, st.inMessage⟩
  | [], rest, st, hst => by
    obtain ⟨t, p, a, c, m, im⟩ := st
    simp only [List.map_nil, List.nil_append, List.append_nil]
  | p :: ps, rest, st, hst => by
    simp only [List.map_cons, List.cons_append]
    rw [parseCommitLines_parent p _ st hst]
    rw [parseCommitLines_parentrun ps rest ⟨st.tree, st.parents ++ [p],
      st.author, st.committer, st.msgLines, st.inMessage⟩ hst]
    simp [List.append_assoc]

theorem splitOnByte_sep_cons (sep : Nat) (l : Bytes) :
    splitOnByte sep (sep :: l) = [] :: splitOnByte sep l := by
  rw [splitOnByte_cons, if_pos rfl]

theorem parseCommitB_finish (d : Bytes) (ct : Bytes) (cp : List Bytes)
    (ca cc : Signature) (ml : List Bytes)
    (hrun : parseCommitLines (scanLinesT d).1
      (CommitParseState.mk [] [] none none [] false) =
      .ok (CommitParseState.mk ct cp (some ca) (some cc) ml true))
    (hok : (scanLinesT d).2 = false)
    (htne : ¬ ct = []) :
    parseCommitB d =
      .ok (CommitObj.mk ct cp ca cc (List.intercalate [10] ml)) := by
  simp only [parseCommitB, hrun, hok, Bool.false_eq_true, if_false]
  rw [if_neg htne]

theorem parseCommitB_commitData (loc : Int → Bytes) (c : CommitObj)
    (hwf : commitWf loc c = true) :
    parseCommitB (commitData loc c) = .ok c := by
  obtain ⟨ct, cp, ca, cc, cm⟩ := c
  simp only [commitWf, Bool.and_eq_true, Bool.not_eq_true',
    decide_eq_false_iff_not, decide_eq_true_eq] at hwf
  obtain ⟨⟨⟨⟨⟨⟨⟨⟨⟨⟨⟨⟨htne, ht10⟩, ht13⟩, hpall⟩, hsa⟩, hsc⟩, hm13⟩,
    hmlast⟩, htlen⟩, hplenall⟩, halen⟩, hclen⟩, hmseg⟩ := hwf
  have hpar : ∀ p ∈ cp, 10 ∉ p ∧ 13 ∉ p := by
    intro p hp
    have hone := List.all_eq_true.mp hpall p hp
    simp only [Bool.and_eq_true, Bool.not_eq_true',
      decide_eq_false_iff_not] at hone
    exact hone
  have hplen : ∀ p ∈ cp, p.length < 65529 := by
    intro p hp
    have hone := List.all_eq_true.mp hplenall p hp
    simpa using hone
  have hmsegs : ∀ l ∈ splitOnByte 10 cm, l.length < 65536 := by
    intro l hl
    have hone := List.all_eq_true.mp hmseg l hl
    simpa using hone
  have hsigA := parseSignatureB_sigString loc ca hsa
  have hsigC := parseSignatureB_sigString loc cc hsc
  obtain ⟨hsa10, hsa13⟩ := sigString_no_lf_cr loc ca hsa
  obtain ⟨hsc10, hsc13⟩ := sigString_no_lf_cr loc cc hsc
  have h10t : 10 ∉ bs ("tree ") ++ ct := by
    simp only [List.mem_append]
    rintro (hc | hc)
    · revert hc
      decide
    · exact ht10 hc
  have h10a : 10 ∉ bs ("author ") ++ sigString loc ca := by
    simp only [List.mem_append]
    rintro (hc | hc)
    · revert hc
      decide
    · exact hsa10 hc
  have h10c : 10 ∉ bs ("committer ") ++ sigString loc cc := by
    simp only [List.mem_append]
    rintro (hc | hc)
    · revert hc
      decide
    · exact hsc10 hc
  have hsplit : splitOnByte 10 (commitData loc ⟨ct, cp, ca, cc, cm⟩) =
      (bs ("tree ") ++ ct) :: ((cp.map (fun p => bs ("parent ") ++ p)) ++
        (bs ("author ") ++ sigString loc ca) ::
        (bs ("committer ") ++ sigString loc cc) :: [] ::
        splitOnByte 10 cm) := by
    have hre1 : commitData loc ⟨ct, cp, ca, cc, cm⟩ =
        (bs ("tree ") ++ ct) ++ 10 ::
          ((cp.map (fun p => bs ("parent ") ++ p ++ [10])).flatten ++
            ((bs ("author ") ++ sigString loc ca) ++ 10 ::
              ((bs ("committer ") ++ sigString loc cc) ++ 10 :: 10 ::
                cm))) := by
      simp only [commitData]
      simp [List.append_assoc]
    rw [hre1, splitOnByte_append 10 _ _ h10t,
      splitOnByte_parents cp _ (fun p hp => (hpar p hp).1),
      splitOnByte_append 10 _ _ h10a,
      splitOnByte_append 10 _ _ h10c,
      splitOnByte_sep_cons 10 cm]
  have hdall : ∀ (tailparts : List Bytes), (∀ l ∈ tailparts, dropCR l = l) →
      ∀ l ∈ (bs ("tree ") ++ ct) ::
        ((cp.map (fun p => bs ("parent ") ++ p)) ++
          (bs ("author ") ++ sigString loc ca) ::
          (bs ("committer ") ++ sigString loc cc) :: [] :: tailparts),
        dropCR l = l := by
    intro tailparts htail l hl
    simp only [List.mem_cons, List.mem_append, List.mem_map] at hl
    rcases hl with hl | ⟨p, hp, hpe⟩ | hl | hl | hl | hl
    · subst hl
      refine dropCR_no13 _ ?_
      simp only [List.mem_append]
      rintro (hc | hc)
      · revert hc
        decide
      · exact ht13 hc
    · rw [← hpe]
      refine dropCR_no13 _ ?_
      simp only [List.mem_append]
      rintro (hc | hc)
      · revert hc
        decide
      · exact (hpar p hp).2 hc
    · subst hl
      refine dropCR_no13 _ ?_
      simp only [List.mem_append]
      rintro (hc | hc)
      · revert hc
        decide
      · exact hsa13 hc
    · subst hl
      refine dropCR_no13 _ ?_
      simp only [List.mem_append]
      rintro (hc | hc)
      · revert hc
        decide
      · exact hsc13 hc
    · subst hl
      decide
    · exact htail l hl
  have hlenall : ∀ (tailparts : List Bytes),
      (∀ l ∈ tailparts, l.length < 65536) →
      ∀ l ∈ (bs ("tree ") ++ ct) ::
        ((cp.map (fun p => bs ("parent ") ++ p)) ++
          (bs ("author ") ++ sigString loc ca) ::
          (bs ("committer ") ++ sigString loc cc) :: [] :: tailparts),
        l.length < 65536 := by
    intro tailparts htail l hl
    simp only [List.mem_cons, List.mem_append, List.mem_map] at hl
    rcases hl with hl | ⟨p, hp, hpe⟩ | hl | hl | hl | hl
    · subst hl
      rw [List.length_append, show (bs ("tree ")).length = 5 from rfl]
      omega
    · rw [← hpe, List.length_append,
        show (bs ("parent ")).length = 7 from rfl]
      have hpb := hplen p hp
      omega
    · subst hl
      rw [List.length_append, show (bs ("author ")).length = 7 from rfl]
      omega
    · subst hl
      rw [List.length_append, show (bs ("committer ")).length = 10 from rfl]
      omega
    · subst hl
      decide
    · exact htail l hl
  by_cases hmsg : cm = []
  · subst hmsg
    have hsegs : scanSegments (commitData loc ⟨ct, cp, ca, cc, []⟩) =
        (bs ("tree ") ++ ct) ::
          ((cp.map (fun p => bs ("parent ") ++ p)) ++
            [bs ("author ") ++ sigString loc ca,
             bs ("committer ") ++ sigString loc cc, []]) := by
      simp only [scanSegments]
      rw [hsplit]
      rw [show splitOnByte 10 ([] : Bytes) = [[]] from rfl]
      rw [show ((bs ("tree ") ++ ct) ::
          ((cp.map (fun p => bs ("parent ") ++ p)) ++
            (bs ("author ") ++ sigString loc ca) ::
            (bs ("committer ") ++ sigString loc cc) :: [] :: [[]])) =
        ((bs ("tree ") ++ ct) ::
          ((cp.map (fun p => bs ("parent ") ++ p)) ++
            [bs ("author ") ++ sigString loc ca,
             bs ("committer ") ++ sigString loc cc, []])) ++ [[]]
        from by simp]
      rw [List.getLast?_concat]
      rw [if_pos rfl]
      rw [List.dropLast_concat]
    have hfind : List.findIdx? (fun l => decide (65536 ≤ l.length))
        ((bs ("tree ") ++ ct) ::
          ((cp.map (fun p => bs ("parent ") ++ p)) ++
            [bs ("author ") ++ sigString loc ca,
             bs ("committer ") ++ sigString loc cc, []])) = none := by
      rw [List.findIdx?_eq_none_iff]
      intro y hy
      simp only [decide_eq_false_iff_not, not_le]
      exact hlenall [] (fun l hl => absurd hl (List.not_mem_nil l)) y hy
    have hlinesT : scanLinesT (commitData loc ⟨ct, cp, ca, cc, []⟩) =
        ((bs ("tree ") ++ ct) ::
          ((cp.map (fun p => bs ("parent ") ++ p)) ++
            [bs ("author ") ++ sigString loc ca,
             bs ("committer ") ++ sigString loc cc, []]), false) := by
      simp only [scanLinesT, hfind, hsegs]
      rw [map_dropCR_eq _
        (hdall [] (fun l hl => absurd hl (List.not_mem_nil l)))]
    have hrun : parseCommitLines
        ((bs ("tree ") ++ ct) ::
          ((cp.map (fun p => bs ("parent ") ++ p)) ++
            [bs ("author ") ++ sigString loc ca,
             bs ("committer ") ++ sigString loc cc, []]))
        (CommitParseState.mk [] [] none none [] false) =
        .ok (CommitParseState.mk ct ([] ++ cp) (some ca) (some cc)
          ([] ++ ([] : List Bytes)) true) := by
      rw [parseCommitLines_tree ct _
        (CommitParseState.mk [] [] none none [] false) rfl]
      rw [parseCommitLines_parentrun cp _
        (CommitParseState.mk ct [] none none [] false) rfl]
      rw [parseCommitLines_author (sigString loc ca) _
        (CommitParseState.mk ct ([] ++ cp) none none [] false) ca rfl hsigA]
      rw [parseCommitLines_committer (sigString loc cc) _
        (CommitParseState.mk ct ([] ++ cp) (some ca) none [] false) cc rfl
        hsigC]
      rw [parseCommitLines_blank _
        (CommitParseState.mk ct ([] ++ cp) (some ca) (some cc) [] false) rfl]
      rw [parseCommitLines_msgrun []
        (CommitParseState.mk ct ([] ++ cp) (some ca) (some cc) [] true) rfl]
    rw [parseCommitB_finish _ ct ([] ++ cp) ca cc ([] ++ ([] : List Bytes))
      (by rw [hlinesT]; exact hrun) (by rw [hlinesT]) htne]
    simp only [List.nil_append,
      show List.intercalate [10] ([] : List Bytes) = [] from rfl]
  · obtain ⟨xs, x, hsx, hxne⟩ := splitOnByte_last 10 cm hmsg hmlast
    have hsegs : scanSegments (commitData loc ⟨ct, cp, ca, cc, cm⟩) =
        (bs ("tree ") ++ ct) ::
          ((cp.map (fun p => bs ("parent ") ++ p)) ++
            (bs ("author ") ++ sigString loc ca) ::
            (bs ("committer ") ++ sigString loc cc) :: [] ::
            splitOnByte 10 cm) := by
      simp only [scanSegments]
      rw [hsplit]
      have hlast : ((bs ("tree ") ++ ct) ::
          ((cp.map (fun p => bs ("parent ") ++ p)) ++
            (bs ("author ") ++ sigString loc ca) ::
            (bs ("committer ") ++ sigString loc cc) :: [] ::
            splitOnByte 10 cm)).getLast? = some x := by
        rw [hsx]
        rw [show ((bs ("tree ") ++ ct) ::
            ((cp.map (fun p => bs ("parent ") ++ p)) ++
              (bs ("author ") ++ sigString loc ca) ::
              (bs ("committer ") ++ sigString loc cc) :: [] ::
              (xs ++ [x]))) =
          ((bs ("tree ") ++ ct) ::
            ((cp.map (fun p => bs ("parent ") ++ p)) ++
              (bs ("author ") ++ sigString loc ca) ::
              (bs ("committer ") ++ sigString loc cc) :: [] :: xs)) ++ [x]
          from by simp]
        exact List.getLast?_concat _
      rw [hlast]
      rw [if_neg (by simp only [Option.some.injEq]; exact hxne)]
    have hfind : List.findIdx? (fun l => decide (65536 ≤ l.length))
        ((bs ("tree ") ++ ct) ::
          ((cp.map (fun p => bs ("parent ") ++ p)) ++
            (bs ("author ") ++ sigString loc ca) ::
            (bs ("committer ") ++ sigString loc cc) :: [] ::
            splitOnByte 10 cm)) = none := by
      rw [List.findIdx?_eq_none_iff]
      intro y hy
      simp only [decide_eq_false_iff_not, not_le]
      exact hlenall (splitOnByte 10 cm) hmsegs y hy
    have hlinesT : scanLinesT (commitData loc ⟨ct, cp, ca, cc, cm⟩) =
        ((bs ("tree ") ++ ct) ::
          ((cp.map (fun p => bs ("parent ") ++ p)) ++
            (bs ("author ") ++ sigString loc ca) ::
            (bs ("committer ") ++ sigString loc cc) :: [] ::
            splitOnByte 10 cm), false) := by
      simp only [scanLinesT, hfind, hsegs]
      rw [map_dropCR_eq _
        (hdall (splitOnByte 10 cm) (fun l hl =>
          dropCR_no13 l (fun hc => hm13 (splitOnByte_mem 10 cm l hl 13 hc))))]
    have hrun : parseCommitLines
        ((bs ("tree ") ++ ct) ::
          ((cp.map (fun p => bs ("parent ") ++ p)) ++
            (bs ("author ") ++ sigString loc ca) ::
            (bs ("committer ") ++ sigString loc cc) :: [] ::
            splitOnByte 10 cm))
        (CommitParseState.mk [] [] none none [] false) =
        .ok (CommitParseState.mk ct ([] ++ cp) (some ca) (some cc)
          ([] ++ splitOnByte 10 cm) true) := by
      rw [parseCommitLines_tree ct _
        (CommitParseState.mk [] [] none none [] false) rfl]
      rw [parseCommitLines_parentrun cp _
        (CommitParseState.mk ct [] none none [] false) rfl]
      rw [parseCommitLines_author (sigString loc ca) _
        (CommitParseState.mk ct ([] ++ cp) none none [] false) ca rfl hsigA]
      rw [parseCommitLines_committer (sigString loc cc) _
        (CommitParseState.mk ct ([] ++ cp) (some ca) none [] false) cc rfl
        hsigC]
      rw [parseCommitLines_blank _
        (CommitParseState.mk ct ([] ++ cp) (some ca) (some cc) [] false) rfl]
      rw [parseCommitLines_msgrun (splitOnByte 10 cm)
        (CommitParseState.mk ct ([] ++ cp) (some ca) (some cc) [] true) rfl]
    rw [parseCommitB_finish _ ct ([] ++ cp) ca cc ([] ++ splitOnByte 10 cm)
      (by rw [hlinesT]; exact hrun) (by rw [hlinesT]) htne]
    simp only [List.nil_append]
    rw [intercalate_splitOnByte 10 cm]

theorem hexEncode_length : ∀ (b : Bytes), (hexEncode b).length = 2 * b.length
  | [] => rfl
  | x :: b => by
    simp only [hexEncode, List.length_cons, hexEncode_length b]
    omega

theorem hexDigitChar_lower (n : Nat) (h : n < 16) :
    isHexLower (hexDigitChar n) = true := by
  simp only [hexDigitChar]
  by_cases h10 : n < 10
  · rw [if_pos h10]
    simp only [isHexLower, Bool.or_eq_true, Bool.and_eq_true,
      decide_eq_true_eq]
    omega
  · rw [if_neg h10]
    simp only [isHexLower, Bool.or_eq_true, Bool.and_eq_true,
      decide_eq_true_eq]
    omega

theorem hexEncode_lower : ∀ (b : Bytes), (hexEncode b).all isHexLower = true
  | [] => rfl
  | x :: b => by
    simp only [hexEncode, List.all_cons, hexEncode_lower b, Bool.and_true,
      Bool.and_eq_true]
    exact ⟨hexDigitChar_lower _ (by omega), hexDigitChar_lower _ (by omega)⟩

theorem validateHash_computeSHA1 (d : Bytes) :
    validateHash (computeSHA1 d) = true := by
  simp only [computeSHA1, validateHash, Bool.and_eq_true, beq_iff_eq]
  constructor
  · rw [hexEncode_length, sha1Bytes_length]
  · exact hexEncode_lower _

theorem amset_lookup_self (m : List (Bytes × Bytes)) (k v : Bytes) :
    (amset m k v).lookup k = some v := by
  simp [amset, List.lookup]

/-- Well-formedness of an object under which serialization is lossless. -/
def objWf (loc : Int → Bytes) : GoObj → Bool
  | .blob _ => true
  | .tree es => treeWf es
  | .commit c => commitWf loc c

theorem treeData_some_of_wf : ∀ (es : List TreeEntry), treeWf es = true →
    ∃ d, treeData es = some d
  | [], _ => ⟨[], rfl⟩
  | e :: es, hwf => by
    simp only [treeWf, List.all_cons, Bool.and_eq_true] at hwf
    obtain ⟨hte, hwfes⟩ := hwf
    simp only [treeEntryWf, Bool.and_eq_true] at hte
    have hvh := hte.1.1
    simp only [validateHash, Bool.and_eq_true, beq_iff_eq] at hvh
    obtain ⟨d, hd⟩ := treeData_some_of_wf es hwfes
    refine ⟨modeString e.mode ++ [32] ++ e.name ++ [0] ++
      scanPairs 20 e.hash ++ d, ?_⟩
    simp only [treeData, hd]
    rw [if_neg (by omega)]

theorem objData_some_of_wf (loc : Int → Bytes) (obj : GoObj)
    (hwf : objWf loc obj = true) :
    ∃ pl, objData loc obj = some pl ∧ pl.length = objSize loc obj := by
  cases obj with
  | blob content => exact ⟨content, rfl, rfl⟩
  | tree es =>
    obtain ⟨d, hd⟩ := treeData_some_of_wf es hwf
    exact ⟨d, hd, treeData_length es d hd⟩
  | commit c =>
    exact ⟨commitData loc c, rfl, commitData_length loc c⟩

theorem objData_length (loc : Int → Bytes) (obj : GoObj) (pl : Bytes)
    (h : objData loc obj = some pl) : pl.length = objSize loc obj := by
  cases obj with
  | blob content =>
    simp only [objData] at h
    cases h
    rfl
  | tree es =>
    exact treeData_length es pl h
  | commit c =>
    simp only [objData] at h
    cases h
    exact commitData_length loc c

theorem objTypeB_cases (obj : GoObj) : objTypeB obj = bs ("blob") ∨
    objTypeB obj = bs ("tree") ∨ objTypeB obj = bs ("commit") := by
  cases obj with
  | blob content => exact Or.inl rfl
  | tree es => exact Or.inr (Or.inl rfl)
  | commit c => exact Or.inr (Or.inr rfl)

theorem parseObjectB_roundtrip (loc : Int → Bytes) (obj : GoObj) (pl : Bytes)
    (hwf : objWf loc obj = true) (hpl : objData loc obj = some pl) :
    parseObjectB (objTypeB obj) pl = .ok obj := by
  cases obj with
  | blob content =>
    simp only [objData] at hpl
    cases hpl
    rfl
  | tree es =>
    simp only [objData] at hpl
    simp only [parseObjectB, objTypeB]
    rw [if_neg (by decide)]
    simp only [if_true]
    simp only [parseTree,
      parseTreeLoop_roundtrip es pl.length pl hwf hpl (le_refl _)]
  | commit c =>
    simp only [objData] at hpl
    cases hpl
    simp only [parseObjectB, objTypeB]
    rw [if_neg (by decide), if_neg (by decide)]
    simp only [if_true]
    simp only [parseCommitB_commitData loc c hwf]

theorem c1_helper (compress : Bytes → Bytes) (decompress : Bytes → Option Bytes)
    (hzlib : ∀ b, decompress (compress b) = some b)
    (loc : Int → Bytes) (gitDir : Bytes) (obj : GoObj) (fs : Fs)
    (pl D : Bytes) (hdir : gitDir ∈ fs.dirs) (hwf : objWf loc obj = true)
    (hpl : objData loc obj = some pl)
    (hsize : objSize loc obj < 9223372036854775808)
    (hlen : pl.length = objSize loc obj)
    (hD : objTypeB obj ++ [32] ++ decimal (objSize loc obj) ++ [0] ++ pl = D)
    (hser : serializeObject loc obj = some D)
    (hfresh : fs.files.lookup (objectPath gitDir (computeSHA1 D)) = none) :
    (storeObject compress loc gitDir obj fs).1 = .ok (computeSHA1 D) ∧
    loadObject decompress gitDir (computeSHA1 D)
      (storeObject compress loc gitDir obj fs).2.1 = .ok obj := by
  have hstore : storeObject compress loc gitDir obj fs =
      (.ok (computeSHA1 D),
       Fs.mk (amset (amset fs.files (objectPath gitDir (computeSHA1 D)) [])
           (objectPath gitDir (computeSHA1 D)) (compress D))
         (pjoin (pjoin gitDir (bs ("objects"))) ((computeSHA1 D).take 2) ::
           fs.dirs),
       [FsOp.mkdirAll
          (pjoin (pjoin gitDir (bs ("objects"))) ((computeSHA1 D).take 2)),
        FsOp.statOp (objectPath gitDir (computeSHA1 D)),
        FsOp.createOp (objectPath gitDir (computeSHA1 D)),
        FsOp.writeOp (objectPath gitDir (computeSHA1 D)) (compress D)]) := by
    simp only [storeObject]
    rw [if_neg (not_not_intro hdir)]
    simp only [hser, hfresh]
    rfl
  constructor
  · rw [hstore]
  · rw [hstore]
    simp only [loadObject]
    rw [if_neg (not_not_intro (List.mem_cons_of_mem _ hdir))]
    rw [if_neg (not_not_intro (validateHash_computeSHA1 D))]
    simp only [amset_lookup_self, hzlib D]
    rw [← hD]
    simp only [parseObjectHeaderB_mk (objTypeB obj) (objSize loc obj) pl
      (objTypeB_cases obj) hsize hlen]
    exact parseObjectB_roundtrip loc obj pl hwf hpl

/-- Claim C1: for every well-formed object stored on a valid repository
at a fresh path — any blob; trees whose entries carry valid 40-hex
hashes, NUL-free names and 32-bit modes; commits whose tree and parents
are nonempty-as-required and line-break-free, whose signatures are
well-formed, whose CR-free message does not end in a newline, and whose
rendered lines all stay below bufio.Scanner's 64 KiB token limit — with a
serialized size below 2^63, StoreObject returns exactly the lowercase-hex
SHA-1 of "<type> <payload-length>NUL" followed by the payload, and
LoadObject of that hash on the resulting store returns the same object
(same kind, byte-identical payload).  The well-formedness restriction on
commit messages is necessary: see the counterexample, where a message
ending in a newline loads back without it. -/
theorem c1_store_load_roundtrip
    (compress : Bytes → Bytes) (decompress : Bytes → Option Bytes)
    (hzlib : ∀ b, decompress (compress b) = some b)
    (loc : Int → Bytes) (gitDir : Bytes) (obj : GoObj) (fs : Fs) (pl : Bytes)
    (hdir : gitDir ∈ fs.dirs)
    (hwf : objWf loc obj = true)
    (hpl : objData loc obj = some pl)
    (hsize : objSize loc obj < 9223372036854775808)
    (hfresh : fs.files.lookup
      (objectPath gitDir (computeObjectHash (objTypeB obj) pl)) = none) :
    (storeObject compress loc gitDir obj fs).1 =
      .ok (computeObjectHash (objTypeB obj) pl) ∧
    loadObject decompress gitDir (computeObjectHash (objTypeB obj) pl)
      (storeObject compress loc gitDir obj fs).2.1 = .ok obj := by
  have hlen : pl.length = objSize loc obj := objData_length loc obj pl hpl
  have hser : serializeObject loc obj =
      some (objTypeB obj ++ [32] ++ decimal (objSize loc obj) ++ [0] ++ pl) := by
    simp only [serializeObject, hpl]
  have hhash : computeObjectHash (objTypeB obj) pl = computeSHA1
      (objTypeB obj ++ [32] ++ decimal (objSize loc obj) ++ [0] ++ pl) := by
    simp only [computeObjectHash, hlen]
  rw [hhash] at hfresh ⊢
  exact c1_helper compress decompress hzlib loc gitDir obj fs pl _
    hdir hwf hpl hsize hlen rfl hser hfresh

theorem c1_witness :
    (storeObject (fun b => b) (fun _ => bs ("+0000")) (bs (".git"))
      (.blob (bs ("hi"))) (Fs.mk [] [bs (".git")])).1 =
      .ok (computeObjectHash (objTypeB (.blob (bs ("hi")))) (bs ("hi"))) ∧
    loadObject (fun b => some b) (bs (".git"))
      (computeObjectHash (objTypeB (.blob (bs ("hi")))) (bs ("hi")))
      (storeObject (fun b => b) (fun _ => bs ("+0000")) (bs (".git"))
        (.blob (bs ("hi"))) (Fs.mk [] [bs (".git")])).2.1 =
      .ok (.blob (bs ("hi"))) :=
  c1_store_load_roundtrip (fun b => b) (fun b => some b) (fun _ => rfl)
    (fun _ => bs ("+0000")) (bs (".git")) (.blob (bs ("hi")))
    (Fs.mk [] [bs (".git")]) (bs ("hi"))
    (by decide) (by decide) (by decide) (by decide) (by rfl)

set_option maxRecDepth 1000000 in
/-- Claim C1 counterexample: a commit whose message ends in a newline is
stored successfully at a fresh path on a valid repository, but loading
the returned hash yields a commit whose message lost the trailing
newline — the loaded payload is not byte-identical to the stored one, so
the unconditional load-after-store round-trip fails. -/
theorem c1_counterexample :
    (storeObject (fun b => b) (fun _ => bs ("+0000")) (bs (".git"))
        (.commit (CommitObj.mk
          (bs ("1111111111111111111111111111111111111111")) []
          (Signature.mk (bs ("a")) (bs ("a@b")) 0)
          (Signature.mk (bs ("a")) (bs ("a@b")) 0)
          (bs ("hi") ++ [10])))
        (Fs.mk [] [bs (".git")])).1 =
      .ok (computeObjectHash (bs ("commit"))
        (commitData (fun _ => bs ("+0000")) (CommitObj.mk
          (bs ("1111111111111111111111111111111111111111")) []
          (Signature.mk (bs ("a")) (bs ("a@b")) 0)
          (Signature.mk (bs ("a")) (bs ("a@b")) 0)
          (bs ("hi") ++ [10])))) ∧
    loadObject (fun b => some b) (bs (".git"))
      (computeObjectHash (bs ("commit"))
        (commitData (fun _ => bs ("+0000")) (CommitObj.mk
          (bs ("1111111111111111111111111111111111111111")) []
          (Signature.mk (bs ("a")) (bs ("a@b")) 0)
          (Signature.mk (bs ("a")) (bs ("a@b")) 0)
          (bs ("hi") ++ [10]))))
      (storeObject (fun b => b) (fun _ => bs ("+0000")) (bs (".git"))
        (.commit (CommitObj.mk
          (bs ("1111111111111111111111111111111111111111")) []
          (Signature.mk (bs ("a")) (bs ("a@b")) 0)
          (Signature.mk (bs ("a")) (bs ("a@b")) 0)
          (bs ("hi") ++ [10])))
        (Fs.mk [] [bs (".git")])).2.1 =
      .ok (.commit (CommitObj.mk
        (bs ("1111111111111111111111111111111111111111")) []
        (Signature.mk (bs ("a")) (bs ("a@b")) 0)
        (Signature.mk (bs ("a")) (bs ("a@b")) 0)
        (bs ("hi")))) ∧
    (bs ("hi") ++ [10] : Bytes) ≠ bs ("hi") :=
  ⟨rfl, rfl, by decide⟩

/-! ## Write-trace predicates for the atomicity claim -/

/-- Whether a filesystem operation is a rename. -/
def isRename : FsOp → Bool
  | .renameOp _ _ => true
  | _ => false

/-- Whether an operation creates or writes the given path directly
(renames and directory creation excluded). -/
def touchesPath (p : Bytes) : FsOp → Bool
  | .createOp q => q == p
  | .writeOp q _ => q == p
  | .writeFileOp q _ => q == p
  | _ => false

theorem tmp_ne_path (p : Bytes) : ((p ++ bs (".tmp") : Bytes) == p) = false := by
  rw [beq_eq_false_iff_ne]
  intro h
  have hlen := congrArg List.length h
  rw [List.length_append] at hlen
  rw [show (bs (".tmp")).length = 4 from rfl] at hlen
  omega

/-- Claim C5 (amended): the pack processor's raw-object store is the one
atomic write path: it either returns early after the existence check with
no writes at all, or writes the complete compressed bytes to the
temporary \".tmp\" path and renames it onto the final path — no operation
in its trace ever creates or writes the final object path directly. -/
theorem c5_store_raw_object_atomic (compress : Bytes → Bytes)
    (gitDir hashStr typ data : Bytes) (fs : Fs) :
    ((storeRawObject compress gitDir hashStr typ data fs).2.2.all
      (fun op => !(touchesPath (objectPath gitDir hashStr) op)) = true) ∧
    ((storeRawObject compress gitDir hashStr typ data fs).2.2 =
        [FsOp.mkdirAll (pjoin (pjoin gitDir (bs ("objects")))
           (hashStr.take 2)),
         FsOp.statOp (objectPath gitDir hashStr)] ∨
      (storeRawObject compress gitDir hashStr typ data fs).2.2 =
        [FsOp.mkdirAll (pjoin (pjoin gitDir (bs ("objects")))
           (hashStr.take 2)),
         FsOp.statOp (objectPath gitDir hashStr),
         FsOp.writeFileOp (objectPath gitDir hashStr ++ bs (".tmp"))
           (compress (typ ++ [32] ++ decimal data.length ++ [0] ++ data)),
         FsOp.renameOp (objectPath gitDir hashStr ++ bs (".tmp"))
           (objectPath gitDir hashStr)]) := by
  simp only [storeRawObject]
  cases hl : fs.files.lookup (objectPath gitDir hashStr) with
  | some v =>
    constructor
    · simp [touchesPath]
    · left
      rfl
  | none =>
    constructor
    · simp [touchesPath, List.all_cons, tmp_ne_path]
    · right
      rfl

set_option maxRecDepth 1000000 in
/-- Claim C5 counterexample: a concrete loose-object store
(Repository.StoreObject) and a concrete index save (Index.Save) each
perform no rename at all and create and write their final path directly,
so neither write path is temp-file-plus-rename atomic as claimed. -/
theorem c5_counterexample :
    ((storeObject (fun b => b) (fun _ => bs ("+0000")) (bs (".git"))
        (.blob (bs ("ab"))) (Fs.mk [] [bs (".git")])).2.2.all
      (fun op => !(isRename op)) = true) ∧
    ((storeObject (fun b => b) (fun _ => bs ("+0000")) (bs (".git"))
        (.blob (bs ("ab"))) (Fs.mk [] [bs (".git")])).2.2.any
      (touchesPath (objectPath (bs (".git"))
        (computeObjectHash (bs ("blob")) (bs ("ab"))))) = true) ∧
    ((saveIndexFs [] (bs (".git")) (Fs.mk [] [bs (".git")])).2.2.all
      (fun op => !(isRename op)) = true) ∧
    ((saveIndexFs [] (bs (".git")) (Fs.mk [] [bs (".git")])).2.2.any
      (touchesPath (pjoin (bs (".git")) (bs ("index")))) = true) :=
  ⟨by decide, by decide, by decide, by decide⟩

/-! ## Reset target resolution (src/unnamed/part_002) -/

/-- The name of a direct child file of a directory, when the path lies
immediately under it. -/
def childName (dirPath path : Bytes) : Option Bytes :=
  let pre := dirPath ++ [47]
  if path.take pre.length = pre ∧ pre.length < path.length ∧
      47 ∉ path.drop pre.length then
    some (path.drop pre.length)
  else none

/-- os.ReadDir over the filesystem model: the names of the files directly
inside a directory, failing when the directory does not exist. -/
def readDir (fs : Fs) (dirPath : Bytes) : Option (List Bytes) :=
  if dirPath ∈ fs.dirs then
    some (fs.files.filterMap (fun p => childName dirPath p.1))
  else none

/-- expandShortHash: split the short hash into a two-character bucket and
a filename-prefix suffix, list the bucket directory, and demand exactly
one matching entry.  No hex validation is performed on the input. -/
def expandShortHash (fs : Fs) (gitDir shortHash : Bytes) :
    Except Gerr Bytes :=
  if shortHash.length < 4 then
    .error (.gitError (bs ("reset")) shortHash)
  else
    let pre := shortHash.take 2
    let suf := shortHash.drop 2
    let dirPath := pjoin (pjoin gitDir (bs ("objects"))) pre
    match readDir fs dirPath with
    | none => .error (.gitError (bs ("reset")) dirPath)
    | some entries =>
      let ms := (entries.filter (fun name =>
        decide (suf.length ≤ name.length) &&
          (name.take suf.length == suf))).map (fun name => pre ++ name)
      if ms.length = 0 then .error (.gitError (bs ("reset")) shortHash)
      else if 1 < ms.length then .error (.gitError (bs ("reset")) shortHash)
      else .ok (ms.getD 0 [])

/-- readRef: read the ref file under the git directory, truncating its
content to the first 40 bytes when longer. -/
def readRef (fs : Fs) (gitDir refPath : Bytes) : Except Gerr Bytes :=
  match fs.files.lookup (pjoin gitDir refPath) with
  | none => .error (.gitError (bs ("readref")) refPath)
  | some content =>
    .ok (if 40 < content.length then content.take 40 else content)

/-- resolveTarget: empty or "HEAD" resolves through GetHead; any
40-character string (hex or not) is returned as-is; a 4-to-40-character
string is tried as a short hash and, on failure, as a branch name; any
remaining target is an unresolvable-target error. -/
def resolveTarget (fs : Fs) (gitDir target : Bytes) : Except Gerr Bytes :=
  if target = [] ∨ target = bs ("HEAD") then getHead gitDir fs
  else if target.length = 40 then .ok target
  else
    match (if 4 ≤ target.length ∧ target.length ≤ 40 then
        match expandShortHash fs gitDir target with
        | .ok h => some h
        | .error _ => none
      else none) with
    | some h => .ok h
    | none =>
      match readRef fs gitDir (bs ("refs/heads/") ++ target) with
      | .ok h => .ok h
      | .error _ => .error (.gitError (bs ("reset")) target)

/-- The resolution ladder as the specification words it, for comparison:
empty or "HEAD" resolves to the current HEAD; an exact 40-lowercase-hex
string resolves to itself; a short hex string of at least four
characters resolves through the unique-match expansion; a name whose
refs/heads file exists resolves to that ref's hash; anything else is an
error. -/
def specResolveTarget (fs : Fs) (gitDir target : Bytes) :
    Except Gerr Bytes :=
  if target = [] ∨ target = bs ("HEAD") then getHead gitDir fs
  else if target.length = 40 ∧ target.all isHexLower then .ok target
  else if 4 ≤ target.length ∧ target.all isHexLower then
    match expandShortHash fs gitDir target with
    | .ok h => .ok h
    | .error _ =>
      match readRef fs gitDir (bs ("refs/heads/") ++ target) with
      | .ok h => .ok h
      | .error _ => .error (.gitError (bs ("reset")) target)
  else
    match readRef fs gitDir (bs ("refs/heads/") ++ target) with
    | .ok h => .ok h
    | .error _ => .error (.gitError (bs ("reset")) target)

/-- Claim C7 (amended): resolveTarget tries, in order: empty or "HEAD"
through GetHead; any 40-character target returned verbatim with no hex
validation; a 4-to-39-character target as a short hash when the
expansion succeeds; then the refs/heads/<name> ref; otherwise the
unresolvable-target error. -/
theorem c7_resolve_target_order (fs : Fs) (gitDir target : Bytes) :
    ((target = [] ∨ target = bs ("HEAD")) →
      resolveTarget fs gitDir target = getHead gitDir fs) ∧
    (target ≠ [] → target ≠ bs ("HEAD") → target.length = 40 →
      resolveTarget fs gitDir target = .ok target) ∧
    (∀ h, target ≠ [] → target ≠ bs ("HEAD") → target.length ≠ 40 →
      4 ≤ target.length → target.length ≤ 40 →
      expandShortHash fs gitDir target = .ok h →
      resolveTarget fs gitDir target = .ok h) ∧
    (∀ h, target ≠ [] → target ≠ bs ("HEAD") → target.length ≠ 40 →
      (∀ h2, ¬ (4 ≤ target.length ∧ target.length ≤ 40 ∧
        expandShortHash fs gitDir target = .ok h2)) →
      readRef fs gitDir (bs ("refs/heads/") ++ target) = .ok h →
      resolveTarget fs gitDir target = .ok h) ∧
    (target ≠ [] → target ≠ bs ("HEAD") → target.length ≠ 40 →
      (∀ h2, ¬ (4 ≤ target.length ∧ target.length ≤ 40 ∧
        expandShortHash fs gitDir target = .ok h2)) →
      (∀ h2, ¬ readRef fs gitDir (bs ("refs/heads/") ++ target) = .ok h2) →
      resolveTarget fs gitDir target =
        .error (.gitError (bs ("reset")) target)) := by
  refine ⟨?_, ?_, ?_, ?_, ?_⟩
  · intro h
    simp only [resolveTarget, if_pos h]
  · intro h1 h2 h3
    simp only [resolveTarget]
    rw [if_neg (fun hc => hc.elim h1 h2), if_pos h3]
  · intro h h1 h2 h40 hge hle hexp
    simp only [resolveTarget]
    rw [if_neg (fun hc => hc.elim h1 h2), if_neg h40,
      if_pos (And.intro hge hle)]
    simp only [hexp]
  · intro h h1 h2 h40 hnoshort href
    simp only [resolveTarget]
    rw [if_neg (fun hc => hc.elim h1 h2), if_neg h40]
    have hafter : (if 4 ≤ target.length ∧ target.length ≤ 40 then
        match expandShortHash fs gitDir target with
        | .ok h2 => some h2
        | .error _ => none
      else none) = none := by
      by_cases hc : 4 ≤ target.length ∧ target.length ≤ 40
      · rw [if_pos hc]
        cases hexp : expandShortHash fs gitDir target with
        | ok h2 => exact absurd ⟨hc.1, hc.2, hexp⟩ (hnoshort h2)
        | error e => rfl
      · rw [if_neg hc]
    simp only [hafter, href]
  · intro h1 h2 h40 hnoshort hnoref
    simp only [resolveTarget]
    rw [if_neg (fun hc => hc.elim h1 h2), if_neg h40]
    have hafter : (if 4 ≤ target.length ∧ target.length ≤ 40 then
        match expandShortHash fs gitDir target with
        | .ok h2 => some h2
        | .error _ => none
      else none) = none := by
      by_cases hc : 4 ≤ target.length ∧ target.length ≤ 40
      · rw [if_pos hc]
        cases hexp : expandShortHash fs gitDir target with
        | ok h2 => exact absurd ⟨hc.1, hc.2, hexp⟩ (hnoshort h2)
        | error e => rfl
      · rw [if_neg hc]
    simp only [hafter]
    cases hrr : readRef fs gitDir (bs ("refs/heads/") ++ target) with
    | ok h2 => exact absurd hrr (hnoref h2)
    | error e => simp only [hrr]

theorem c7_witness :
    resolveTarget (Fs.mk [] []) (bs (".git"))
      (bs ("1111111111111111111111111111111111111111")) =
      .ok (bs ("1111111111111111111111111111111111111111")) :=
  (c7_resolve_target_order (Fs.mk [] []) (bs (".git"))
    (bs ("1111111111111111111111111111111111111111"))).2.1
    (by decide) (by decide) (by decide)

/-- Claim C7 counterexample: a 40-character target of non-hex characters
on an empty repository is returned verbatim by resolveTarget with no
error, while the specification's ladder (which requires an exact 40-hex
string) cannot resolve it and errors; the code never hex-validates the
length-40 case. -/
theorem c7_counterexample :
    resolveTarget (Fs.mk [] []) (bs (".git"))
      (bs ("zzzzzzzzzzzzzzzzzzzzzzzzzzzzzzzzzzzzzzzz")) =
      .ok (bs ("zzzzzzzzzzzzzzzzzzzzzzzzzzzzzzzzzzzzzzzz")) ∧
    specResolveTarget (Fs.mk [] []) (bs (".git"))
      (bs ("zzzzzzzzzzzzzzzzzzzzzzzzzzzzzzzzzzzzzzzz")) =
      .error (.gitError (bs ("reset"))
        (bs ("zzzzzzzzzzzzzzzzzzzzzzzzzzzzzzzzzzzzzzzz"))) ∧
    validateHash (bs ("zzzzzzzzzzzzzzzzzzzzzzzzzzzzzzzzzzzzzzzz")) = false :=
  ⟨rfl, rfl, by decide⟩

/-! ## Pack checksum verification and the ProcessPack pipeline
(src/pack/pack.go); the parse/resolve/store phases are a pipeline
parameter since only their invocation, not their internals, is at
stake here. -/

/-- The parsed pack header. -/
structure PackHeader where
  signature : Bytes
  version : Nat
  objects : Nat

/-- PackProcessor.parsePackHeader. -/
def parsePackHeader (packData : Bytes) : Except Gerr PackHeader :=
  if packData.length < 12 then .error (.errorMsg (bs ("header too short")))
  else .ok (PackHeader.mk (packData.take 4)
    (beVal ((packData.drop 4).take 4)) (beVal ((packData.drop 8).take 4)))

/-- PackProcessor.verifyPackChecksum: too-short data is an error; the
trailing 20 bytes are compared against the SHA-1 of the preceding bytes,
but the mismatch branch is empty, so both outcomes return success. -/
def verifyPackChecksum (packData : Bytes) : Except Gerr Unit :=
  if packData.length < 20 then
    .error (.errorMsg (bs ("pack too short for checksum")))
  else if packData.drop (packData.length - 20) ==
      sha1Bytes (packData.take (packData.length - 20)) then .ok ()
  else .ok ()

/-- ProcessPack after packet-line extraction: length check, checksum
verification, header parse, signature and version checks, then the
parse/resolve/store phases on the object count and data. -/
def processPackData (phases : Nat → Bytes → Except Gerr Unit)
    (packData : Bytes) : Except Gerr Unit :=
  if packData.length < 12 then
    .error (.errorMsg (bs ("pack data too short after extraction")))
  else
    match verifyPackChecksum packData with
    | .error e => .error e
    | .ok _ =>
      match parsePackHeader packData with
      | .error e => .error e
      | .ok header =>
        if ¬ header.signature = bs ("PACK") then
          .error (.errorMsg (bs ("invalid pack signature")))
        else if ¬ (header.version = 2 ∨ header.version = 3) then
          .error (.errorMsg (bs ("unsupported pack version")))
        else phases header.objects packData

/-- The same pipeline with the checksum verification step removed. -/
def processPackDataSkipVerify (phases : Nat → Bytes → Except Gerr Unit)
    (packData : Bytes) : Except Gerr Unit :=
  if packData.length < 12 then
    .error (.errorMsg (bs ("pack data too short after extraction")))
  else
    match parsePackHeader packData with
    | .error e => .error e
    | .ok header =>
      if ¬ header.signature = bs ("PACK") then
        .error (.errorMsg (bs ("invalid pack signature")))
      else if ¬ (header.version = 2 ∨ header.version = 3) then
        .error (.errorMsg (bs ("unsupported pack version")))
      else phases header.objects packData

/-- Claim C8: for every pack byte stream long enough to carry a
checksum, verification returns success whether or not the trailing 20
bytes match the SHA-1 of the preceding bytes, and the whole pipeline
behaves exactly as if the verification step were absent — the header
checks and the parse, delta-resolution, and storage phases run
unchanged. -/
theorem c8_checksum_mismatch_never_aborts
    (phases : Nat → Bytes → Except Gerr Unit) (packData : Bytes)
    (h20 : 20 ≤ packData.length) :
    verifyPackChecksum packData = .ok () ∧
    processPackData phases packData =
      processPackDataSkipVerify phases packData := by
  have hv : verifyPackChecksum packData = .ok () := by
    simp only [verifyPackChecksum]
    rw [if_neg (by omega)]
    by_cases hc : (packData.drop (packData.length - 20) ==
        sha1Bytes (packData.take (packData.length - 20))) = true
    · rw [if_pos hc]
    · rw [if_neg hc]
  refine ⟨hv, ?_⟩
  simp only [processPackData, processPackDataSkipVerify, hv]

set_option maxRecDepth 100000 in
theorem c8_witness :
    (verifyPackChecksum (bs ("PACK") ++ be32 2 ++ be32 0 ++
        List.replicate 20 0) = .ok () ∧
      processPackData (fun _ _ => .ok ()) (bs ("PACK") ++ be32 2 ++
        be32 0 ++ List.replicate 20 0) =
        processPackDataSkipVerify (fun _ _ => .ok ()) (bs ("PACK") ++
          be32 2 ++ be32 0 ++ List.replicate 20 0)) ∧
    (bs ("PACK") ++ be32 2 ++ be32 0 ++ List.replicate 20 0).drop 12 ≠
      sha1Bytes ((bs ("PACK") ++ be32 2 ++ be32 0 ++
        List.replicate 20 0).take 12) :=
  ⟨c8_checksum_mismatch_never_aborts (fun _ _ => .ok ()) _ (by decide),
   by decide⟩

/-- verifyPackChecksum together with the log messages it emits: the
function contains no print or log call in any branch, so the emitted
message list is empty in every case, mismatch included. -/
def verifyPackChecksumT (packData : Bytes) :
    (Except Gerr Unit) × List Bytes :=
  if packData.length < 20 then
    (.error (.errorMsg (bs ("pack too short for checksum"))), [])
  else if packData.drop (packData.length - 20) ==
      sha1Bytes (packData.take (packData.length - 20)) then (.ok (), [])
  else (.ok (), [])

set_option maxRecDepth 100000 in
/-- Claim C8 counterexample for the logging fragment: on a concrete pack
whose trailing 20 bytes do not match the SHA-1 of the preceding bytes,
checksum verification succeeds but emits no log message at all — the
mismatch branch of the source is empty, so nothing is logged. -/
theorem c8_counterexample :
    verifyPackChecksumT (bs ("PACK") ++ be32 2 ++ be32 0 ++
      List.replicate 20 0) = (.ok (), []) ∧
    (bs ("PACK") ++ be32 2 ++ be32 0 ++ List.replicate 20 0).drop 12 ≠
      sha1Bytes ((bs ("PACK") ++ be32 2 ++ be32 0 ++
        List.replicate 20 0).take 12) :=
  ⟨rfl, by decide⟩

/-- Claim C4: delta resolution terminates for every parsed pack state:
non-deltas are marked resolved first, the remaining deltas are swept
repeatedly, and the run either ends with every delta resolved or fails
with the missing-or-circular error as soon as a full sweep resolves
nothing; the residual-count error after the iteration budget is dead
code. -/
theorem c4_resolve_all_deltas_terminates
    (repoLoad : Bytes → Option (Bytes × Int × Bytes))
    (objectCache : List (Int × PackObject)) :
    (∃ st, resolveAllDeltas repoLoad objectCache = .ok st) ∨
    resolveAllDeltas repoLoad objectCache =
      .error (.errorMsg (bs ("circular or missing delta dependencies"))) := by
  exact resolveLoop_no_fuel_exhaustion repoLoad _ _ _ (Nat.lt_succ_self _)

end GitGo
